import Mathlib

/-!
# The expression evaluator of the NEMU simple debugger

A shallow embedding of `nemu/src/monitor/sdb/expr.c`: the rule table, the
lexer `make_token`, the helpers `check_parentheses` and `get_position`, the
operator semantics `eval_op`, `calc1`, `calc2`, the recursive evaluator `eval`
and the entry point `expr`.

Conventions of the embedding.

* A C string is a `List Char`; a NUL character ends it.
* `word_t` is an unsigned integer of `w` bits, a natural number below `2 ^ w`;
  `sword_t` is its two's-complement reading.  The width `w` is a parameter
  (the type is declared outside `expr.c`).
* A function that returns a value together with the flag `*success` returns a
  pair `(value, success)`.
* Behaviour that C leaves undefined (a write past `tokens[319]` or past
  `str[31]`, the signed division `INT_MIN / -1`) is the result `none`
  (`LexResult.undefined` in the lexer).
* The collaborators `isa_reg_str2val` and `vaddr_read` are parameters.
* Loops that the C code bounds by an index range run on an explicit iteration
  count; the recursion of `eval` and the scan of `make_token` run on a fuel
  that the theorems `eval_unfold` and `make_token_loop_fuel` show to be
  always sufficient.
-/

namespace Sdb

/-- The token kinds of `expr.c`: the enumeration starting at `TK_NOTYPE`, and
the character codes `'+' '-' '*' '/' '(' ')'` used directly as kinds. -/
inductive TokenType
  | TK_NOTYPE
  | TK_NUM
  | TK_REG
  | TK_VAR
  | TK_POS
  | TK_NEG
  | TK_DEREF
  | TK_EQ
  | TK_NEQ
  | TK_GT
  | TK_LT
  | TK_GE
  | TK_LE
  | TK_AND
  | TK_OR
  | PLUS
  | MINUS
  | STAR
  | SLASH
  | LPAREN
  | RPAREN
  deriving DecidableEq

open TokenType

/-- The shapes of the POSIX extended regular expressions of the rule table. -/
inductive Regex
  | spaces
  | lit (s : List Char)
  | digits
  | reg
  | var
  deriving DecidableEq

/-- The class `\w` in the C locale: letters, digits and the underscore. -/
def isWordChar (c : Char) : Bool :=
  c.isAlphanum || c == '_'

/-- Whether the text `e` starts with the literal text `s`. -/
def startsWith : List Char → List Char → Bool
  | [], _ => true
  | _ :: _, [] => false
  | a :: s, b :: e => a == b && startsWith s e

/-- The test `regexec(&re[i], e + position, 1, &pmatch, 0) == 0 &&
pmatch.rm_so == 0`: the length `pmatch.rm_eo` of the longest match of the
pattern that starts at the first character of `e`, if there is one. -/
def regexec : Regex → List Char → Option Nat
  | .spaces, e =>
    let n := (e.takeWhile (fun c => c == ' ')).length
    if n = 0 then none else some n
  | .lit s, e => if startsWith s e then some s.length else none
  | .digits, e =>
    let n := (e.takeWhile Char.isDigit).length
    if n = 0 then none else some n
  | .reg, e =>
    match e with
    | [] => none
    | c :: cs =>
      let n := (cs.takeWhile isWordChar).length
      if c = '$' ∧ n ≠ 0 then some (n + 1) else none
  | .var, e =>
    match e with
    | [] => none
    | c :: cs =>
      if c.isAlpha || c == '_' then some ((cs.takeWhile isWordChar).length + 1) else none

/-- The rule table `rules[]`, in its order. -/
def rules : List (Regex × TokenType) :=
  [ (.spaces, TK_NOTYPE),
    (.lit ['+'], PLUS),
    (.lit ['=', '='], TK_EQ),
    (.lit ['-'], MINUS),
    (.lit ['('], LPAREN),
    (.lit [')'], RPAREN),
    (.lit ['*'], STAR),
    (.lit ['/'], SLASH),
    (.lit ['<'], TK_LT),
    (.lit ['<', '='], TK_LE),
    (.lit ['>'], TK_GT),
    (.lit ['>', '='], TK_GE),
    (.lit ['!', '='], TK_NEQ),
    (.lit ['&', '&'], TK_AND),
    (.lit ['|', '|'], TK_OR),
    (.digits, TK_NUM),
    (.reg, TK_REG),
    (.var, TK_VAR) ]

/-- The array `bound_types`. -/
def bound_types : List TokenType := [RPAREN, TK_NUM, TK_REG]

/-- The array `nop_types`. -/
def nop_types : List TokenType := [LPAREN, RPAREN, TK_NUM, TK_REG]

/-- The array `op_types`. -/
def op_types : List TokenType := [TK_NEG, TK_POS, TK_DEREF]

/-- The function `type_from`: whether `type` occurs in `types`. -/
def type_from (type : TokenType) (types : List TokenType) : Bool :=
  types.any (fun t => decide (type = t))

/-- The structure `Token`: a kind and the stored text.  `str` is written for
`TK_NUM` and `TK_REG` only; for the other kinds it is never read and is kept
empty here. -/
structure Token where
  type : TokenType
  str : List Char
  deriving DecidableEq

/-- The inner `for` loop of `make_token` over the rules: the first rule that
matches at the start of `e`, with the matched length. -/
def match_rules : List (Regex × TokenType) → List Char → Option (Nat × TokenType)
  | [], _ => none
  | (re, ty) :: rest, e =>
    match regexec re e with
    | some len => some (len, ty)
    | none => match_rules rest e

/-- The inner `switch` of `make_token` on `'*'`, `'-'`, `'+'`: the unary kind
that replaces a binary one. -/
def unary_of : TokenType → TokenType
  | MINUS => TK_NEG
  | PLUS => TK_POS
  | STAR => TK_DEREF
  | t => t

/-- The kind of the last recorded token, `tokens[nr_token-1].type`. -/
def last_type (tokens : List Token) : Option TokenType :=
  tokens.getLast?.map Token.type

/-- The part of `make_token` that records a token of kind `ty` matched on the
text `substr`.  `none` is an out-of-bounds write: `tokens` has 320 entries and
`str` 32 bytes, of which the last holds the terminating NUL. -/
def record_token (tokens : List Token) (ty : TokenType) (substr : List Char) :
    Option (List Token) :=
  if 320 ≤ tokens.length then none
  else if ty = TK_NUM ∨ ty = TK_REG then
    if 32 ≤ substr.length then none else some (tokens ++ [⟨ty, substr⟩])
  else if ty = STAR ∨ ty = MINUS ∨ ty = PLUS then
    match last_type tokens with
    | none => some (tokens ++ [⟨unary_of ty, []⟩])
    | some prev =>
      if !type_from prev bound_types then some (tokens ++ [⟨unary_of ty, []⟩])
      else some (tokens ++ [⟨ty, []⟩])
  else some (tokens ++ [⟨ty, []⟩])

/-- The result of `make_token`: `true` with the recorded tokens, `false` with
the position printed in the message, or undefined behaviour. -/
inductive LexResult
  | ok (tokens : List Token)
  | no_match (position : Nat)
  | undefined
  deriving DecidableEq

/-- The `while` loop of `make_token` on the rest `e` of the text, at offset
`position`, with the tokens recorded so far.  The first argument bounds the
number of iterations; every iteration consumes a character, so a bound above
the length of `e` is never reached (`make_token_loop_fuel`). -/
def make_token_loop : Nat → List Char → Nat → List Token → LexResult
  | 0, _, _, _ => .undefined
  | fuel + 1, e, position, tokens =>
    match e with
    | [] => .ok tokens
    | c :: _ =>
      if c = Char.ofNat 0 then .ok tokens
      else
        match match_rules rules e with
        | none => .no_match position
        | some (len, ty) =>
          if ty = TK_NOTYPE then make_token_loop fuel (e.drop len) (position + len) tokens
          else
            match record_token tokens ty (e.take len) with
            | none => .undefined
            | some tokens' => make_token_loop fuel (e.drop len) (position + len) tokens'

/-- The function `make_token`. -/
def make_token (e : List Char) : LexResult :=
  make_token_loop (e.length + 1) e 0 []

/-- The token `tokens[i]`.  Every index the evaluator reads lies in
`0 .. nr_token - 1`; outside of it the entry is an unused one. -/
def token_at (tokens : List Token) (i : Int) : Token :=
  tokens.getD i.toNat ⟨TK_NOTYPE, []⟩

/-- The kind `tokens[i].type`. -/
def type_at (tokens : List Token) (i : Int) : TokenType :=
  (token_at tokens i).type

/-- The `for` loop of `check_parentheses`, `n` iterations from index `i` with
the counter `par`. -/
def check_parentheses_loop (tokens : List Token) (q : Int) : Nat → Int → Int → Bool
  | 0, _, _ => false
  | n + 1, i, par =>
    let par1 :=
      if type_at tokens i = LPAREN then par + 1
      else if type_at tokens i = RPAREN then par - 1
      else par
    if par1 = 0 then decide (i = q) else check_parentheses_loop tokens q n (i + 1) par1

/-- The function `check_parentheses`; its loop starts at index `0`. -/
def check_parentheses (tokens : List Token) (p q : Int) : Bool :=
  if type_at tokens p = LPAREN ∧ type_at tokens q = RPAREN then
    check_parentheses_loop tokens q (q + 1).toNat 0 0
  else false

/-- The fall-through `switch` of `get_position`: the value of `tmp_pre` for an
operator kind, `none` for the `default` case. -/
def precedence : TokenType → Option Nat
  | TK_OR => some 7
  | TK_AND => some 6
  | TK_EQ => some 5
  | TK_NEQ => some 5
  | TK_LT => some 4
  | TK_GT => some 4
  | TK_GE => some 4
  | TK_LE => some 4
  | PLUS => some 3
  | MINUS => some 3
  | STAR => some 2
  | SLASH => some 2
  | TK_NEG => some 1
  | TK_DEREF => some 1
  | TK_POS => some 1
  | _ => none

/-- The `for` loop of `get_position` with the final test on `par`: `n`
iterations from index `i` in the state `ret`, `par`, `op_pre`. -/
def get_position_loop (tokens : List Token) : Nat → Int → Int → Int → Nat → Int
  | 0, _, ret, par, _ => if par ≠ 0 then -1 else ret
  | n + 1, i, ret, par, op_pre =>
    if type_at tokens i = LPAREN then get_position_loop tokens n (i + 1) ret (par + 1) op_pre
    else if type_at tokens i = RPAREN then
      if par = 0 then -1 else get_position_loop tokens n (i + 1) ret (par - 1) op_pre
    else if type_from (type_at tokens i) nop_types then
      get_position_loop tokens n (i + 1) ret par op_pre
    else if par > 0 then get_position_loop tokens n (i + 1) ret par op_pre
    else
      match precedence (type_at tokens i) with
      | none => -1
      | some tmp_pre =>
        if tmp_pre > op_pre ∨ (tmp_pre = op_pre ∧ !type_from (type_at tokens i) op_types) then
          get_position_loop tokens n (i + 1) i par tmp_pre
        else get_position_loop tokens n (i + 1) ret par op_pre

/-- The function `get_position`. -/
def get_position (tokens : List Token) (p q : Int) : Int :=
  get_position_loop tokens (q + 1 - p).toNat p (-1) 0 0

/-- The constant `LONG_MAX` of the C library, for a 64-bit `long`. -/
def LONG_MAX : Nat := 2 ^ 63 - 1

/-- The value of a character as a digit, for bases up to 16. -/
def digit_value (c : Char) : Nat :=
  if c.isDigit then c.toNat - 48
  else if 'a'.toNat ≤ c.toNat ∧ c.toNat ≤ 'f'.toNat then c.toNat - 87
  else if 'A'.toNat ≤ c.toNat ∧ c.toNat ≤ 'F'.toNat then c.toNat - 55
  else 0

/-- Whether a character is a digit of the base (10 or 16). -/
def is_digit_of (base : Nat) (c : Char) : Bool :=
  if base = 16 then
    c.isDigit || decide ('a'.toNat ≤ c.toNat ∧ c.toNat ≤ 'f'.toNat) ||
      decide ('A'.toNat ≤ c.toNat ∧ c.toNat ≤ 'F'.toNat)
  else c.isDigit

/-- The number written by a string of digits in the base. -/
def digits_value (base : Nat) (s : List Char) : Nat :=
  s.foldl (fun acc c => acc * base + digit_value c) 0

/-- The C library function `strtol(nptr, NULL, base)` for base 10 and 16 on a
text without leading white space or sign (the lexer stores none): the value of
the longest run of digits at the start, after an optional `0x` in base 16,
clamped to `LONG_MAX`. -/
def strtol (nptr : List Char) (base : Nat) : Nat :=
  let body :=
    match nptr with
    | '0' :: x :: rest => if base = 16 ∧ (x = 'x' ∨ x = 'X') then rest else nptr
    | _ => nptr
  min (digits_value base (body.takeWhile (is_digit_of base))) LONG_MAX

/-- The conversion of a signed integer to `word_t`. -/
def to_word (w : Nat) (x : Int) : Nat :=
  (x % (2 : Int) ^ w).toNat

/-- The conversion `(sword_t)v` of a word to the signed type. -/
def to_sword (w : Nat) (v : Nat) : Int :=
  if v % 2 ^ w < 2 ^ (w - 1) then ((v % 2 ^ w : Nat) : Int)
  else ((v % 2 ^ w : Nat) : Int) - (2 : Int) ^ w

section Evaluator

variable (w : Nat)
variable (isa_reg_str2val : List Char → Nat × Bool)
variable (vaddr_read : Nat → Nat → Nat)

/-- The function `eval_op`; `success` is the flag on entry. -/
def eval_op (tokens : List Token) (i : Int) (success : Bool) : Nat × Bool :=
  match (token_at tokens i).type with
  | TK_NUM =>
    if (token_at tokens i).str.take 2 = ['0', 'x'] then
      (strtol (token_at tokens i).str 16 % 2 ^ w, success)
    else (strtol (token_at tokens i).str 10 % 2 ^ w, success)
  | TK_REG => isa_reg_str2val (token_at tokens i).str
  | _ => (0, false)

/-- The function `calc1`; `success` is the flag on entry. -/
def calc1 (op : TokenType) (val : Nat) (success : Bool) : Nat × Bool :=
  match op with
  | TK_NEG => (to_word w (-(val : Int)), success)
  | TK_POS => (val, success)
  | TK_DEREF => (vaddr_read val 8, success)
  | _ => (0, false)

/-- The function `calc2`; `success` is the flag on entry.  `none` is the
signed division overflow. -/
def calc2 (op : TokenType) (val1 val2 : Nat) (success : Bool) : Option (Nat × Bool) :=
  match op with
  | PLUS => some ((val1 + val2) % 2 ^ w, success)
  | MINUS => some (to_word w ((val1 : Int) - (val2 : Int)), success)
  | STAR => some ((val1 * val2) % 2 ^ w, success)
  | SLASH =>
    if val2 = 0 then some (0, false)
    else if to_sword w val1 = -(2 : Int) ^ (w - 1) ∧ to_sword w val2 = -1 then none
    else some (to_word w (Int.tdiv (to_sword w val1) (to_sword w val2)), success)
  | TK_AND => some (if val1 ≠ 0 ∧ val2 ≠ 0 then 1 else 0, success)
  | TK_OR => some (if val1 ≠ 0 ∨ val2 ≠ 0 then 1 else 0, success)
  | TK_EQ => some (if val1 = val2 then 1 else 0, success)
  | TK_NEG => some (if val1 ≠ val2 then 1 else 0, success)
  | TK_LE => some (if val1 < val2 then 1 else 0, success)
  | TK_LT => some (if val1 ≤ val2 then 1 else 0, success)
  | TK_GT => some (if val1 > val2 then 1 else 0, success)
  | TK_GE => some (if val1 ≥ val2 then 1 else 0, success)
  | _ => some (0, false)

/-- The body of `eval`, with the depth of the recursion bounded by a fuel.
Every recursive call is on a shorter span, so a fuel of the length of the span
is never exhausted (`eval_fuel_irrelevant`, `eval_unfold`). -/
def eval_fuel (tokens : List Token) : Nat → Int → Int → Option (Nat × Bool)
  | 0, _, _ => some (0, false)
  | fuel + 1, p, q =>
    if p > q then some (0, false)
    else if p = q then some (eval_op w isa_reg_str2val tokens p true)
    else if check_parentheses tokens p q then eval_fuel tokens fuel (p + 1) (q - 1)
    else
      let op := get_position tokens p q
      if op < 0 then some (0, false)
      else
        match eval_fuel tokens fuel p (op - 1) with
        | none => none
        | some (val1, ok1) =>
          match eval_fuel tokens fuel (op + 1) q with
          | none => none
          | some (val2, ok2) =>
            if !ok2 then some (0, false)
            else if ok1 then calc2 w (type_at tokens op) val1 val2 true
            else some (calc1 w vaddr_read (type_at tokens op) val2 true)

/-- The function `eval` on the span `p .. q`. -/
def eval (tokens : List Token) (p q : Int) : Option (Nat × Bool) :=
  eval_fuel w isa_reg_str2val vaddr_read tokens (q + 1 - p).toNat p q

/-- The function `expr`. -/
def expr (e : List Char) : Option (Nat × Bool) :=
  match make_token e with
  | .ok tokens => eval w isa_reg_str2val vaddr_read tokens 0 ((tokens.length : Int) - 1)
  | .no_match _ => some (0, false)
  | .undefined => none

end Evaluator

/-- The spans on which `eval` is called in the course of `eval(p, q)`, the
call itself first: an enclosed span calls `eval(p + 1, q - 1)`, and a span
with a split at `op` calls `eval(p, op - 1)` and then `eval(op + 1, q)`; an
empty span, a single token and a span without a split call nothing.  The fuel
bounds the depth as in `eval_fuel`. -/
def eval_calls_fuel (tokens : List Token) : Nat → Int → Int → List (Int × Int)
  | 0, p, q => [(p, q)]
  | fuel + 1, p, q =>
    if p > q then [(p, q)]
    else if p = q then [(p, q)]
    else if check_parentheses tokens p q then
      (p, q) :: eval_calls_fuel tokens fuel (p + 1) (q - 1)
    else
      let op := get_position tokens p q
      if op < 0 then [(p, q)]
      else
        (p, q) :: (eval_calls_fuel tokens fuel p (op - 1) ++
          eval_calls_fuel tokens fuel (op + 1) q)

/-- The spans on which `eval` is called in the course of `eval(p, q)`. -/
def eval_calls (tokens : List Token) (p q : Int) : List (Int × Int) :=
  eval_calls_fuel tokens (q + 1 - p).toNat p q

/-- Whether the parentheses of a token sequence are balanced, read from depth
`d`: no close parenthesis occurs at depth zero (every close has a matching
open) and the depth is zero at the end (every open is closed). -/
def balanced_from : Nat → List Token → Bool
  | d, [] => d == 0
  | d, t :: ts =>
    if t.type = LPAREN then balanced_from (d + 1) ts
    else if t.type = RPAREN then d != 0 && balanced_from (d - 1) ts
    else balanced_from d ts

/-- Whether the parentheses of a token sequence are balanced. -/
def balanced (tokens : List Token) : Bool :=
  balanced_from 0 tokens

/-- The change of the parenthesis counter `par` at a token of the given kind. -/
def delta (t : TokenType) : Int :=
  if t = LPAREN then 1 else if t = RPAREN then -1 else 0

/-- The parenthesis depth after the first `k` tokens, counted from token 0. -/
def depth (tokens : List Token) : Nat → Int
  | 0 => 0
  | k + 1 => depth tokens k + delta (type_at tokens (k : Int))

/-- The invariant of the lexer's reclassification: no token of a unary kind
directly follows a close parenthesis, a numeric literal or a register. -/
def no_unary_after_bound (tokens : List Token) : Prop :=
  ∀ k : Nat, k + 1 < tokens.length →
    type_from (type_at tokens (k : Int)) bound_types = true →
    type_from (type_at tokens ((k : Int) + 1)) op_types = false

/-- The tokens that the lexer records for a run of sign characters in unary
position: `TK_NEG` for `'-'`, `TK_POS` for `'+'`. -/
def sign_tokens (s : List Char) : List Token :=
  s.map (fun c => ⟨if c = '-' then TK_NEG else TK_POS, []⟩)

/-- The word obtained from `v` by applying a run of unary signs, the
rightmost first. -/
def sign_value (w : Nat) : List Char → Nat → Nat
  | [], v => v
  | c :: s, v => if c = '-' then to_word w (-(sign_value w s v : Int)) else sign_value w s v

/-- The second half of the invariant of the lexer's reclassification: every
token of a binary kind `'*'`, `'-'`, `'+'` directly follows a close
parenthesis, a numeric literal or a register. -/
def binary_after_bound (tokens : List Token) : Prop :=
  ∀ k : Nat, k < tokens.length →
    type_from (type_at tokens (k : Int)) [STAR, MINUS, PLUS] = true →
    k ≠ 0 ∧ type_from (type_at tokens ((k : Int) - 1)) bound_types = true

/-- The parenthesis span check in the words of the specification: token `p` is
an open parenthesis, token `q` is a close parenthesis, and a depth counter
started at 0 just before token `p` (one up on an open parenthesis, one down on
a close parenthesis) returns to zero for the first time exactly at token `q`:
it is zero after token `q` and non-zero after every token from `p` to
`q - 1`. -/
def encloses (tokens : List Token) (p q : Nat) : Bool :=
  decide (type_at tokens (p : Int) = LPAREN) && decide (type_at tokens (q : Int) = RPAREN) &&
    decide (depth tokens (q + 1) - depth tokens p = 0) &&
    (List.range (q - p)).all (fun n => decide (depth tokens (p + n + 1) - depth tokens p ≠ 0))

/-- An operator token at depth zero of the span that starts at token `p`: the
depth before token `j` equals the depth before token `p`, and the kind of
token `j` has a binding strength. -/
def split_candidate (tokens : List Token) (p j : Nat) : Prop :=
  depth tokens j = depth tokens p ∧ precedence (type_at tokens (j : Int)) ≠ none

/-- The binding strength of token `j`, the value of `tmp_pre` for its kind: 7 for
`||`, the weakest, down to 1 for the unary operators, the strongest. -/
def strength (tokens : List Token) (j : Nat) : Nat :=
  (precedence (type_at tokens (j : Int))).getD 0

/-- The invariant of the scan of `get_position` over the tokens `p .. k - 1`:
either nothing is chosen and there is no operator at depth zero so far, or the
chosen index `ret` is an operator at depth zero of strength `op_pre`, none so
far is weaker, none to its right is as weak when it is binary, and none lies
to its left when it is unary. -/
def split_inv (tokens : List Token) (p k : Nat) (ret : Int) (op_pre : Nat) : Prop :=
  (ret = -1 ∧ op_pre = 0 ∧ ∀ j, p ≤ j → j < k → ¬ split_candidate tokens p j) ∨
  (∃ s : Nat, ret = (s : Int) ∧ p ≤ s ∧ s < k ∧ split_candidate tokens p s ∧
    precedence (type_at tokens (s : Int)) = some op_pre ∧
    (∀ j, p ≤ j → j < k → split_candidate tokens p j → strength tokens j ≤ op_pre) ∧
    (type_from (type_at tokens (s : Int)) op_types = false →
      ∀ j, s < j → j < k → split_candidate tokens p j → strength tokens j < op_pre) ∧
    (type_from (type_at tokens (s : Int)) op_types = true →
      ∀ j, p ≤ j → j < k → split_candidate tokens p j → s ≤ j))

/-- The token kind of a binary arithmetic operator character `+ - * /`. -/
def arith_type (c : Char) : TokenType :=
  if c = '+' then PLUS else if c = '-' then MINUS else if c = '*' then STAR else SLASH

/-- The text of the tail `op1 n1 ... opk nk` of a chain of literals. -/
def chain_rest_text : List (Char × List Char) → List Char
  | [] => []
  | (c, n) :: rest => c :: (n ++ chain_rest_text rest)

/-- The text `n0 op1 n1 ... opk nk` of a chain of literals. -/
def chain_text (n0 : List Char) (rest : List (Char × List Char)) : List Char :=
  n0 ++ chain_rest_text rest

/-- The tokens of the tail `op1 n1 ... opk nk` of a chain of literals. -/
def chain_rest_tokens : List (Char × List Char) → List Token
  | [] => []
  | (c, n) :: rest => ⟨arith_type c, []⟩ :: ⟨TK_NUM, n⟩ :: chain_rest_tokens rest

/-- The tokens of a chain of literals `n0 op1 n1 ... opk nk`. -/
def chain_tokens (n0 : List Char) (rest : List (Char × List Char)) : List Token :=
  ⟨TK_NUM, n0⟩ :: chain_rest_tokens rest

/-- A decimal literal that the evaluator reads as its own value: a non-empty
run of at most 31 digits whose value fits in a word and in a `long`. -/
def valid_literal (w : Nat) (n : List Char) : Prop :=
  n ≠ [] ∧ (∀ c ∈ n, c.isDigit = true) ∧ n.length < 32 ∧
    digits_value 10 n ≤ LONG_MAX ∧ digits_value 10 n < 2 ^ w

/-- The arithmetic of the specification on words for the operator characters
`+ - * /`: sum, difference and product modulo `2 ^ w`, and the quotient of the
signed readings rounded toward zero; no value on a division by zero or on the
signed overflow. -/
def spec_binop (w : Nat) (c : Char) (x y : Nat) : Option Nat :=
  if c = '+' then some ((x + y) % 2 ^ w)
  else if c = '-' then some (to_word w ((x : Int) - (y : Int)))
  else if c = '*' then some ((x * y) % 2 ^ w)
  else if y = 0 then none
  else if to_sword w x = -(2 : Int) ^ (w - 1) ∧ to_sword w y = -1 then none
  else some (to_word w (Int.tdiv (to_sword w x) (to_sword w y)))

/-- The sum so far, with the pending additive operator, combined with a
finished term. -/
def spec_combine (w : Nat) (acc : Option (Nat × Char)) (term : Nat) : Option Nat :=
  match acc with
  | none => some term
  | some (s, c) => spec_binop w c s term

/-- The value of a chain in the words of the specification, read left to
right: each run of `*` and `/` is grouped into a term from left to right, and
the terms are combined with `+` and `-` from left to right.  `acc` is the sum
of the finished terms with the operator that follows it, `term` the value of
the term being read. -/
def spec_chain (w : Nat) : Option (Nat × Char) → Nat → List (Char × Nat) → Option Nat
  | acc, term, [] => spec_combine w acc term
  | acc, term, (c, v) :: rest =>
    if c = '*' ∨ c = '/' then (spec_binop w c term v).bind (fun t => spec_chain w acc t rest)
    else (spec_combine w acc term).bind (fun s => spec_chain w (some (s, c)) v rest)

/-- The operators with the values of the literals of the tail of a chain. -/
def chain_values (rest : List (Char × List Char)) : List (Char × Nat) :=
  rest.map (fun x => (x.1, digits_value 10 x.2))

/-! ## The lexer: fuel and one step of the scan -/

theorem startsWith_length (s e : List Char) (h : startsWith s e = true) :
    s.length ≤ e.length := by
  induction s generalizing e with
  | nil => simp
  | cons a s ih =>
    cases e with
    | nil => simp [startsWith] at h
    | cons b e =>
      simp only [startsWith, Bool.and_eq_true] at h
      have := ih e h.2
      simp only [List.length_cons]
      omega

theorem takeWhile_length_le (p : Char → Bool) (l : List Char) :
    (l.takeWhile p).length ≤ l.length := by
  induction l with
  | nil => simp
  | cons a l ih =>
    simp only [List.takeWhile_cons]
    split
    · simp only [List.length_cons]; omega
    · simp

theorem regexec_bounds (re : Regex) (e : List Char) (len : Nat) (hre : re ≠ .lit [])
    (h : regexec re e = some len) : 0 < len ∧ len ≤ e.length := by
  cases re with
  | spaces =>
    simp only [regexec] at h
    split at h
    · cases h
    · have := takeWhile_length_le (fun c => c == ' ') e
      simp only [Option.some.injEq] at h
      omega
  | lit s =>
    simp only [regexec] at h
    split at h
    · rename_i hs
      have := startsWith_length s e hs
      simp only [Option.some.injEq] at h
      have : s.length ≠ 0 := by
        intro h0
        exact hre (by rw [List.length_eq_zero.mp h0])
      omega
    · cases h
  | digits =>
    simp only [regexec] at h
    split at h
    · cases h
    · have := takeWhile_length_le Char.isDigit e
      simp only [Option.some.injEq] at h
      omega
  | reg =>
    cases e with
    | nil => simp [regexec] at h
    | cons c cs =>
      simp only [regexec] at h
      split at h
      · have := takeWhile_length_le isWordChar cs
        simp only [Option.some.injEq] at h
        simp only [List.length_cons]
        omega
      · cases h
  | var =>
    cases e with
    | nil => simp [regexec] at h
    | cons c cs =>
      simp only [regexec] at h
      split at h
      · have := takeWhile_length_le isWordChar cs
        simp only [Option.some.injEq] at h
        simp only [List.length_cons]
        omega
      · cases h

theorem match_rules_bounds (l : List (Regex × TokenType)) (e : List Char) (len : Nat)
    (ty : TokenType) (hl : ∀ x ∈ l, x.1 ≠ .lit [])
    (h : match_rules l e = some (len, ty)) : 0 < len ∧ len ≤ e.length := by
  induction l with
  | nil => simp [match_rules] at h
  | cons x l ih =>
    obtain ⟨re, t⟩ := x
    simp only [match_rules] at h
    cases hr : regexec re e with
    | none =>
      rw [hr] at h
      exact ih (fun y hy => hl y (List.mem_cons_of_mem _ hy)) h
    | some n =>
      rw [hr] at h
      simp only [Option.some.injEq, Prod.mk.injEq] at h
      have := regexec_bounds re e n (hl (re, t) (List.mem_cons_self _ _)) hr
      omega

theorem rules_bounds (e : List Char) (len : Nat) (ty : TokenType)
    (h : match_rules rules e = some (len, ty)) : 0 < len ∧ len ≤ e.length :=
  match_rules_bounds rules e len ty (by decide) h

/-- The scan of `make_token` does not depend on the fuel once it exceeds the
length of the remaining text: every iteration consumes a character. -/
theorem make_token_loop_fuel (f1 f2 : Nat) (e : List Char) (position : Nat)
    (tokens : List Token) (h1 : e.length < f1) (h2 : e.length < f2) :
    make_token_loop f1 e position tokens = make_token_loop f2 e position tokens := by
  induction f1 generalizing f2 e position tokens with
  | zero => omega
  | succ n ih =>
    cases f2 with
    | zero => omega
    | succ m =>
      cases e with
      | nil => simp [make_token_loop]
      | cons c cs =>
        simp only [make_token_loop]
        split
        · rfl
        · cases hm : match_rules rules (c :: cs) with
          | none => rfl
          | some r =>
            obtain ⟨len, ty⟩ := r
            have hb := rules_bounds _ _ _ hm
            have hd : ((c :: cs).drop len).length < n := by
              simp only [List.length_drop]
              omega
            have hd2 : ((c :: cs).drop len).length < m := by
              simp only [List.length_drop]
              omega
            simp only []
            split
            · exact ih _ _ _ _ hd hd2
            · cases record_token tokens ty ((c :: cs).take len) with
              | none => rfl
              | some t => exact ih _ _ _ _ hd hd2

/-- One iteration of the scan of `make_token`, at constant fuel. -/
theorem make_token_loop_step (f : Nat) (e : List Char) (position : Nat)
    (tokens : List Token) (len : Nat) (ty : TokenType) (hf : e.length < f)
    (h0 : e.head? ≠ some (Char.ofNat 0))
    (hm : match_rules rules e = some (len, ty)) :
    make_token_loop f e position tokens =
      if ty = TK_NOTYPE then make_token_loop f (e.drop len) (position + len) tokens
      else
        match record_token tokens ty (e.take len) with
        | none => .undefined
        | some tokens1 => make_token_loop f (e.drop len) (position + len) tokens1 := by
  have hb := rules_bounds _ _ _ hm
  cases f with
  | zero => omega
  | succ n =>
    cases e with
    | nil => simp at hb; omega
    | cons c cs =>
      have hc : c ≠ Char.ofNat 0 := by
        intro hc
        apply h0
        simp [hc]
      have hd : ((c :: cs).drop len).length < n := by
        simp only [List.length_drop]
        omega
      simp only [make_token_loop, hc, if_false, hm]
      split
      · exact make_token_loop_fuel n (n + 1) _ _ _ hd (by omega)
      · cases record_token tokens ty ((c :: cs).take len) with
        | none => rfl
        | some t => exact make_token_loop_fuel n (n + 1) _ _ _ hd (by omega)

theorem make_token_loop_nil (f : Nat) (position : Nat) (tokens : List Token) (hf : 0 < f) :
    make_token_loop f [] position tokens = .ok tokens := by
  cases f with
  | zero => omega
  | succ n => simp [make_token_loop]

/-! ## The lexer on the texts of the claims -/

theorem ne_of_isDigit {c d : Char} (hc : c.isDigit = true) (hd : d.isDigit = false) :
    c ≠ d := by
  intro h
  rw [h, hd] at hc
  cases hc

theorem takeWhile_digits (a r : List Char) (ha : ∀ c ∈ a, c.isDigit = true)
    (hr : ∀ c, r.head? = some c → c.isDigit = false) :
    (a ++ r).takeWhile Char.isDigit = a := by
  rw [List.takeWhile_append_of_pos ha]
  cases r with
  | nil => simp
  | cons c r =>
    have := hr c rfl
    simp [List.takeWhile_cons, this]

/-- A run of digits followed by a character that is not a digit matches the
rule of `TK_NUM` and no earlier rule. -/
theorem match_rules_digits (a r : List Char) (hne : a ≠ [])
    (ha : ∀ c ∈ a, c.isDigit = true)
    (hr : ∀ c, r.head? = some c → c.isDigit = false) :
    match_rules rules (a ++ r) = some (a.length, TK_NUM) := by
  have htw := takeWhile_digits a r ha hr
  cases a with
  | nil => exact absurd rfl hne
  | cons c cs =>
    have hc : c.isDigit = true := ha c (List.mem_cons_self _ _)
    have h1 := ne_of_isDigit hc (d := ' ') (by decide)
    have h2 := ne_of_isDigit hc (d := '+') (by decide)
    have h3 := ne_of_isDigit hc (d := '=') (by decide)
    have h4 := ne_of_isDigit hc (d := '-') (by decide)
    have h5 := ne_of_isDigit hc (d := '(') (by decide)
    have h6 := ne_of_isDigit hc (d := ')') (by decide)
    have h7 := ne_of_isDigit hc (d := '*') (by decide)
    have h8 := ne_of_isDigit hc (d := '/') (by decide)
    have h9 := ne_of_isDigit hc (d := '<') (by decide)
    have h10 := ne_of_isDigit hc (d := '>') (by decide)
    have h11 := ne_of_isDigit hc (d := '!') (by decide)
    have h12 := ne_of_isDigit hc (d := '&') (by decide)
    have h13 := ne_of_isDigit hc (d := '|') (by decide)
    simp only [List.cons_append] at htw ⊢
    simp [match_rules, rules, regexec, startsWith, htw, h1, h2, h3, h4, h5, h6, h7, h8, h9, h10,
      h11, h12, h13, Ne.symm h1, Ne.symm h2, Ne.symm h3, Ne.symm h4, Ne.symm h5, Ne.symm h6,
      Ne.symm h7, Ne.symm h8, Ne.symm h9, Ne.symm h10, Ne.symm h11, Ne.symm h12, Ne.symm h13]

theorem match_rules_slash (r : List Char) :
    match_rules rules ('/' :: r) = some (1, SLASH) := by
  simp [match_rules, rules, regexec, startsWith]

theorem match_rules_plus (r : List Char) :
    match_rules rules ('+' :: r) = some (1, PLUS) := by
  simp [match_rules, rules, regexec, startsWith]

theorem match_rules_minus (r : List Char) :
    match_rules rules ('-' :: r) = some (1, MINUS) := by
  simp [match_rules, rules, regexec, startsWith]

theorem match_rules_eq (r : List Char) :
    match_rules rules ('=' :: '=' :: r) = some (2, TK_EQ) := by
  simp [match_rules, rules, regexec, startsWith]

theorem match_rules_neq (r : List Char) :
    match_rules rules ('!' :: '=' :: r) = some (2, TK_NEQ) := by
  simp [match_rules, rules, regexec, startsWith]

theorem match_rules_and (r : List Char) :
    match_rules rules ('&' :: '&' :: r) = some (2, TK_AND) := by
  simp [match_rules, rules, regexec, startsWith]

theorem match_rules_or (r : List Char) :
    match_rules rules ('|' :: '|' :: r) = some (2, TK_OR) := by
  simp [match_rules, rules, regexec, startsWith]

theorem match_rules_reg (name : List Char) (hne : name ≠ [])
    (hw : ∀ c ∈ name, isWordChar c = true) :
    match_rules rules ('$' :: name) = some (name.length + 1, TK_REG) := by
  have htw : name.takeWhile isWordChar = name := by
    rw [List.takeWhile_eq_self_iff]
    exact hw
  have hl : name.length ≠ 0 := by
    intro h
    exact hne (List.length_eq_zero.mp h)
  simp [match_rules, rules, regexec, startsWith, htw, hl]

theorem make_token_loop_num (f : Nat) (a r : List Char) (position : Nat)
    (tokens : List Token) (hf : (a ++ r).length < f) (hne : a ≠ [])
    (ha : ∀ c ∈ a, c.isDigit = true)
    (hr : ∀ c, r.head? = some c → c.isDigit = false)
    (hlen : a.length < 32) (hcap : tokens.length < 320) :
    make_token_loop f (a ++ r) position tokens =
      make_token_loop f r (position + a.length) (tokens ++ [⟨TK_NUM, a⟩]) := by
  have h0 : (a ++ r).head? ≠ some (Char.ofNat 0) := by
    cases a with
    | nil => exact absurd rfl hne
    | cons c cs =>
      have hc : c.isDigit = true := ha c (List.mem_cons_self _ _)
      have := ne_of_isDigit hc (d := Char.ofNat 0) (by decide)
      simpa using this
  rw [make_token_loop_step f _ position tokens _ _ hf h0 (match_rules_digits a r hne ha hr)]
  have h1 : ¬ (320 ≤ tokens.length) := by omega
  have h2 : ¬ (32 ≤ a.length) := by omega
  simp [record_token, h1, h2]

theorem make_token_loop_slash (f : Nat) (r : List Char) (position : Nat)
    (tokens : List Token) (hf : ('/' :: r).length < f) (hcap : tokens.length < 320) :
    make_token_loop f ('/' :: r) position tokens =
      make_token_loop f r (position + 1) (tokens ++ [⟨SLASH, []⟩]) := by
  rw [make_token_loop_step f _ position tokens _ _ hf (by simp) (match_rules_slash r)]
  have h1 : ¬ (320 ≤ tokens.length) := by omega
  simp [record_token, h1]

theorem digits_take_two (a : List Char) (ha : ∀ c ∈ a, c.isDigit = true) :
    a.take 2 ≠ ['0', 'x'] := by
  intro h
  have hx : 'x' ∈ a.take 2 := by rw [h]; simp
  have := ha 'x' (List.mem_of_mem_take hx)
  revert this
  decide

theorem strtol_decimal (a : List Char) (ha : ∀ c ∈ a, c.isDigit = true) :
    strtol a 10 = min (digits_value 10 a) LONG_MAX := by
  have htw : a.takeWhile (is_digit_of 10) = a := by
    rw [List.takeWhile_eq_self_iff]
    intro c hc
    simpa [is_digit_of] using ha c hc
  unfold strtol
  split
  · simp [htw]
  · simp [htw]

/-- A leaf that holds a run of decimal digits evaluates to its value, clamped
to `LONG_MAX` and reduced to a word. -/
theorem eval_op_num (w : Nat) (isa_reg_str2val : List Char → Nat × Bool)
    (tokens : List Token) (i : Int) (success : Bool) (a : List Char)
    (ht : token_at tokens i = ⟨TK_NUM, a⟩) (ha : ∀ c ∈ a, c.isDigit = true) :
    eval_op w isa_reg_str2val tokens i success =
      (min (digits_value 10 a) LONG_MAX % 2 ^ w, success) := by
  simp [eval_op, ht, digits_take_two a ha, strtol_decimal a ha]

/-! ## The evaluator: range of the split and fuel -/

theorem get_position_loop_range (tokens : List Token) (n : Nat) (i ret par : Int)
    (op_pre : Nat) :
    get_position_loop tokens n i ret par op_pre = -1 ∨
      get_position_loop tokens n i ret par op_pre = ret ∨
      (i ≤ get_position_loop tokens n i ret par op_pre ∧
        get_position_loop tokens n i ret par op_pre < i + n) := by
  induction n generalizing i ret par op_pre with
  | zero =>
    simp only [get_position_loop]
    split
    · left; rfl
    · right; left; rfl
  | succ n ih =>
    have key : ∀ (ret1 par1 : Int) (op1 : Nat), (ret1 = ret ∨ ret1 = i) →
        (get_position_loop tokens n (i + 1) ret1 par1 op1 = -1 ∨
          get_position_loop tokens n (i + 1) ret1 par1 op1 = ret ∨
          (i ≤ get_position_loop tokens n (i + 1) ret1 par1 op1 ∧
            get_position_loop tokens n (i + 1) ret1 par1 op1 < i + ((n + 1 : Nat) : Int))) := by
      intro ret1 par1 op1 h
      have := ih (i + 1) ret1 par1 op1
      push_cast
      omega
    simp only [get_position_loop]
    split
    · exact key _ _ _ (Or.inl rfl)
    · split
      · split
        · left; rfl
        · exact key _ _ _ (Or.inl rfl)
      · split
        · exact key _ _ _ (Or.inl rfl)
        · split
          · exact key _ _ _ (Or.inl rfl)
          · cases precedence (type_at tokens i) with
            | none => left; rfl
            | some tmp_pre =>
              simp only []
              split
              · exact key _ _ _ (Or.inr rfl)
              · exact key _ _ _ (Or.inl rfl)

theorem get_position_range (tokens : List Token) (p q : Int) :
    get_position tokens p q = -1 ∨
      (p ≤ get_position tokens p q ∧ get_position tokens p q ≤ q) := by
  have := get_position_loop_range tokens (q + 1 - p).toNat p (-1) 0 0
  unfold get_position
  omega

section Evaluator

variable (w : Nat)
variable (isa_reg_str2val : List Char → Nat × Bool)
variable (vaddr_read : Nat → Nat → Nat)

/-- The recursion of `eval` does not depend on the fuel once it covers the
length of the span: every recursive call is on a strictly shorter span. -/
theorem eval_fuel_irrelevant (tokens : List Token) (f1 f2 : Nat) (p q : Int)
    (h1 : (q + 1 - p).toNat ≤ f1) (h2 : (q + 1 - p).toNat ≤ f2) :
    eval_fuel w isa_reg_str2val vaddr_read tokens f1 p q =
      eval_fuel w isa_reg_str2val vaddr_read tokens f2 p q := by
  induction f1 generalizing f2 p q with
  | zero =>
    have hpq : p > q := by omega
    cases f2 with
    | zero => rfl
    | succ m => simp [eval_fuel, hpq]
  | succ n ih =>
    cases f2 with
    | zero =>
      have hpq : p > q := by omega
      simp [eval_fuel, hpq]
    | succ m =>
      simp only [eval_fuel]
      split
      · rfl
      · split
        · rfl
        · split
          · exact ih m _ _ (by omega) (by omega)
          · have hr := get_position_range tokens p q
            split
            · rfl
            · rw [ih m p (get_position tokens p q - 1) (by omega) (by omega)]
              rw [ih m (get_position tokens p q + 1) q (by omega) (by omega)]

/-- The function `eval` satisfies the recursive equation of the C code. -/
theorem eval_unfold (tokens : List Token) (p q : Int) :
    eval w isa_reg_str2val vaddr_read tokens p q =
      if p > q then some (0, false)
      else if p = q then some (eval_op w isa_reg_str2val tokens p true)
      else if check_parentheses tokens p q then
        eval w isa_reg_str2val vaddr_read tokens (p + 1) (q - 1)
      else
        if get_position tokens p q < 0 then some (0, false)
        else
          match eval w isa_reg_str2val vaddr_read tokens p (get_position tokens p q - 1) with
          | none => none
          | some (val1, ok1) =>
            match eval w isa_reg_str2val vaddr_read tokens (get_position tokens p q + 1) q with
            | none => none
            | some (val2, ok2) =>
              if !ok2 then some (0, false)
              else if ok1 then calc2 w (type_at tokens (get_position tokens p q)) val1 val2 true
              else some (calc1 w vaddr_read (type_at tokens (get_position tokens p q)) val2 true) := by
  unfold eval
  by_cases hpq : p > q
  · have : (q + 1 - p).toNat = 0 := by omega
    simp [this, eval_fuel, hpq]
  · obtain ⟨n, hn⟩ : ∃ n, (q + 1 - p).toNat = n + 1 := ⟨(q + 1 - p).toNat - 1, by omega⟩
    rw [hn]
    simp only [eval_fuel, hpq, if_false]
    split
    · rfl
    · split
      · exact eval_fuel_irrelevant w isa_reg_str2val vaddr_read tokens _ _ _ _ (by omega)
          (by omega)
      · have hr := get_position_range tokens p q
        split
        · rfl
        · rw [eval_fuel_irrelevant w isa_reg_str2val vaddr_read tokens n
            (get_position tokens p q - 1 + 1 - p).toNat p (get_position tokens p q - 1)
            (by omega) (by omega)]
          rw [eval_fuel_irrelevant w isa_reg_str2val vaddr_read tokens n
            (q + 1 - (get_position tokens p q + 1)).toNat (get_position tokens p q + 1) q
            (by omega) (by omega)]

end Evaluator

/-! ## Unbalanced parentheses -/

theorem type_at_nat (tokens : List Token) (k : Nat) (h : k < tokens.length) :
    type_at tokens (k : Int) = (tokens[k]).type := by
  simp [type_at, token_at, List.getElem?_eq_getElem h]

/-- On a suffix of the token sequence whose parentheses are not balanced from
the current depth, the scan of `get_position` returns `-1`. -/
theorem get_position_loop_unbalanced (tokens : List Token) (n k d : Nat) (ret par : Int)
    (op_pre : Nat) (hk : k + n = tokens.length) (hpar : par = (d : Int))
    (hb : balanced_from d (tokens.drop k) = false) :
    get_position_loop tokens n (k : Int) ret par op_pre = -1 := by
  induction n generalizing k d ret par op_pre with
  | zero =>
    have hd : tokens.drop k = [] := by
      apply List.drop_eq_nil_of_le
      omega
    rw [hd] at hb
    simp only [balanced_from, beq_eq_false_iff_ne, ne_eq] at hb
    simp only [get_position_loop]
    rw [if_pos (by omega)]
  | succ n ih =>
    have hlt : k < tokens.length := by omega
    have hty := type_at_nat tokens k hlt
    rw [List.drop_eq_getElem_cons hlt] at hb
    simp only [balanced_from] at hb
    have hcast : ((k : Int) + 1) = ((k + 1 : Nat) : Int) := by push_cast; rfl
    simp only [get_position_loop, hty, hcast]
    by_cases h1 : (tokens[k]).type = LPAREN
    · simp only [h1, if_true] at hb ⊢
      exact ih (k + 1) (d + 1) _ _ _ (by omega) (by push_cast; omega) hb
    · simp only [h1, if_false] at hb ⊢
      by_cases h2 : (tokens[k]).type = RPAREN
      · simp only [h2, if_true] at hb ⊢
        by_cases h3 : par = 0
        · simp [h3]
        · simp only [h3, if_false]
          have hd : d ≠ 0 := by omega
          exact ih (k + 1) (d - 1) _ _ _ (by omega) (by omega) (by simpa [hd] using hb)
      · simp only [h2, if_false] at hb ⊢
        split
        · exact ih (k + 1) d _ _ _ (by omega) hpar hb
        · split
          · exact ih (k + 1) d _ _ _ (by omega) hpar hb
          · cases precedence (tokens[k]).type with
            | none => rfl
            | some t =>
              simp only []
              split
              · exact ih (k + 1) d _ _ _ (by omega) hpar hb
              · exact ih (k + 1) d _ _ _ (by omega) hpar hb

/-- When the loop of `check_parentheses`, entered at a positive depth, answers
`true` for the last index of the token sequence, the rest of the sequence is
balanced from that depth. -/
theorem check_parentheses_loop_balanced (tokens : List Token) (q : Int) (n k d : Nat)
    (par : Int) (hk : k + n = tokens.length) (hq : q = (tokens.length : Int) - 1)
    (hpar : par = (d : Int)) (hd : 1 ≤ d)
    (h : check_parentheses_loop tokens q n (k : Int) par = true) :
    balanced_from d (tokens.drop k) = true := by
  induction n generalizing k d par with
  | zero => simp [check_parentheses_loop] at h
  | succ n ih =>
    have hlt : k < tokens.length := by omega
    have hty := type_at_nat tokens k hlt
    rw [List.drop_eq_getElem_cons hlt]
    have hcast : ((k : Int) + 1) = ((k + 1 : Nat) : Int) := by push_cast; rfl
    simp only [check_parentheses_loop, hty, hcast] at h
    simp only [balanced_from]
    by_cases h1 : (tokens[k]).type = LPAREN
    · simp only [h1, if_true] at h ⊢
      rw [if_neg (by omega)] at h
      exact ih (k + 1) (d + 1) _ (by omega) (by push_cast; omega) (by omega) h
    · simp only [h1, if_false] at h ⊢
      by_cases h2 : (tokens[k]).type = RPAREN
      · simp only [h2, if_true] at h ⊢
        have hd0 : d ≠ 0 := by omega
        by_cases h3 : par - 1 = 0
        · rw [if_pos h3] at h
          have hkq : (k : Int) = q := by simpa using h
          have hnil : tokens.drop (k + 1) = [] := by
            apply List.drop_eq_nil_of_le
            omega
          have hd1 : d - 1 = 0 := by omega
          simp [hnil, balanced_from, hd0, hd1]
        · rw [if_neg h3] at h
          have := ih (k + 1) (d - 1) _ (by omega) (by omega) (by omega) h
          simp [this, hd0]
      · simp only [h2, if_false] at h ⊢
        rw [if_neg (by omega)] at h
        exact ih (k + 1) d _ (by omega) hpar hd h

theorem check_parentheses_balanced (tokens : List Token) (hlen : 2 ≤ tokens.length)
    (h : check_parentheses tokens 0 ((tokens.length : Int) - 1) = true) :
    balanced tokens = true := by
  unfold check_parentheses at h
  split at h
  · rename_i hc
    obtain ⟨n, hn⟩ : ∃ n, ((tokens.length : Int) - 1 + 1).toNat = n + 1 :=
      ⟨tokens.length - 1, by omega⟩
    rw [hn] at h
    have h0 : type_at tokens ((0 : Nat) : Int) = LPAREN := hc.1
    have hlt : 0 < tokens.length := by omega
    have hty := type_at_nat tokens 0 hlt
    rw [h0] at hty
    have hstep : check_parentheses_loop tokens ((tokens.length : Int) - 1) n ((1 : Nat) : Int) 1
        = true := by
      simp only [check_parentheses_loop] at h
      simpa [hc.1] using h
    have := check_parentheses_loop_balanced tokens _ n 1 1 1 (by omega) rfl (by simp)
      (by omega) hstep
    unfold balanced
    rw [← List.drop_zero tokens, List.drop_eq_getElem_cons hlt]
    simp only [balanced_from]
    rw [if_pos hty.symm]
    simpa using this
  · cases h

/-! ## An enclosing pair leaves no split -/

theorem delta_bounds (t : TokenType) : -1 ≤ delta t ∧ delta t ≤ 1 := by
  unfold delta
  split
  · omega
  · split <;> omega

/-- When the loop of `check_parentheses` answers `true`, the depth counted from
token 0 is non-zero after every token before `q` and zero after token `q`. -/
theorem check_parentheses_loop_depth (tokens : List Token) (Q n k : Nat) (par : Int)
    (hk : k + n = Q + 1) (hpar : par = depth tokens k)
    (h : check_parentheses_loop tokens (Q : Int) n (k : Int) par = true) :
    (∀ j, k ≤ j → j < Q → depth tokens (j + 1) ≠ 0) ∧ depth tokens (Q + 1) = 0 := by
  induction n generalizing k par with
  | zero => simp [check_parentheses_loop] at h
  | succ n ih =>
    have hcast : ((k : Int) + 1) = ((k + 1 : Nat) : Int) := by push_cast; rfl
    have hstep : (if type_at tokens (k : Int) = LPAREN then par + 1
        else if type_at tokens (k : Int) = RPAREN then par - 1 else par) =
        depth tokens (k + 1) := by
      simp only [depth, delta, hpar]
      split
      · rfl
      · split
        · omega
        · omega
    simp only [check_parentheses_loop, hstep, hcast] at h
    by_cases h0 : depth tokens (k + 1) = 0
    · rw [if_pos h0] at h
      have hkq : k = Q := by
        have : (k : Int) = (Q : Int) := by simpa using h
        omega
      subst hkq
      exact ⟨fun j h1 h2 => by omega, h0⟩
    · rw [if_neg h0] at h
      obtain ⟨ha, hb⟩ := ih (k + 1) _ (by omega) rfl h
      refine ⟨fun j h1 h2 => ?_, hb⟩
      by_cases hj : j = k
      · subst hj; exact h0
      · exact ha j (by omega) h2

theorem check_parentheses_depth (tokens : List Token) (P Q : Nat)
    (h : check_parentheses tokens (P : Int) (Q : Int) = true) :
    type_at tokens (P : Int) = LPAREN ∧ (∀ j, 1 ≤ j → j ≤ Q → 1 ≤ depth tokens j) ∧
      depth tokens (Q + 1) = 0 := by
  unfold check_parentheses at h
  split at h
  · rename_i hc
    have hn : ((Q : Int) + 1).toNat = Q + 1 := by omega
    rw [hn] at h
    obtain ⟨ha, hb⟩ := check_parentheses_loop_depth tokens Q (Q + 1) 0 0 (by omega) rfl h
    refine ⟨hc.1, ?_, hb⟩
    have hq1 : depth tokens Q = 1 := by
      have : depth tokens (Q + 1) = depth tokens Q + delta (type_at tokens (Q : Int)) := rfl
      rw [hc.2] at this
      simp only [delta] at this
      simp at this
      omega
    have key : ∀ m, m < Q → 1 ≤ depth tokens (Q - m) := by
      intro m
      induction m with
      | zero => intro _; simp [hq1]
      | succ m ih =>
        intro hm
        have h1 := ih (by omega)
        have h2 := ha (Q - (m + 1) - 1) (by omega) (by omega)
        have e1 : Q - (m + 1) - 1 + 1 = Q - (m + 1) := by omega
        rw [e1] at h2
        have h3 : depth tokens (Q - m) =
            depth tokens (Q - (m + 1)) + delta (type_at tokens ((Q - (m + 1) : Nat) : Int)) := by
          have e2 : Q - m = (Q - (m + 1)) + 1 := by omega
          rw [e2]
          rfl
        have := delta_bounds (type_at tokens ((Q - (m + 1) : Nat) : Int))
        omega
    intro j hj1 hj2
    have := key (Q - j) (by omega)
    have e3 : Q - (Q - j) = j := by omega
    rwa [e3] at this
  · cases h

/-- A result of the scan of `get_position` other than `-1`: the counter `par`
ends at zero, and the result is the entry value of `ret` or the index of an
operator token met at `par = 0`. -/
theorem get_position_loop_depth (tokens : List Token) (n k : Nat) (ret par : Int)
    (op_pre : Nat) (hpar : 0 ≤ par)
    (hr : get_position_loop tokens n (k : Int) ret par op_pre ≠ -1) :
    par + depth tokens (k + n) - depth tokens k = 0 ∧
      (get_position_loop tokens n (k : Int) ret par op_pre = ret ∨
        ∃ j : Nat, get_position_loop tokens n (k : Int) ret par op_pre = (j : Int) ∧
          k ≤ j ∧ j < k + n ∧ par + depth tokens j - depth tokens k = 0 ∧
          precedence (type_at tokens (j : Int)) ≠ none) := by
  induction n generalizing k ret par op_pre with
  | zero =>
    simp only [get_position_loop] at hr ⊢
    split at hr
    · exact absurd rfl hr
    · rename_i h0
      have : par = 0 := by simpa using h0
      simp [this]
  | succ n ih =>
    have hcast : ((k : Int) + 1) = ((k + 1 : Nat) : Int) := by push_cast; rfl
    have hdep : depth tokens (k + 1) = depth tokens k + delta (type_at tokens (k : Int)) := rfl
    have hkn : k + (n + 1) = k + 1 + n := by omega
    have key : ∀ (ret1 par1 : Int) (op1 : Nat), 0 ≤ par1 →
        par1 = par + delta (type_at tokens (k : Int)) →
        (ret1 = ret ∨ (ret1 = (k : Int) ∧ par = 0 ∧
          precedence (type_at tokens (k : Int)) ≠ none)) →
        get_position_loop tokens n ((k + 1 : Nat) : Int) ret1 par1 op1 ≠ -1 →
        par + depth tokens (k + (n + 1)) - depth tokens k = 0 ∧
          (get_position_loop tokens n ((k + 1 : Nat) : Int) ret1 par1 op1 = ret ∨
            ∃ j : Nat, get_position_loop tokens n ((k + 1 : Nat) : Int) ret1 par1 op1 = (j : Int) ∧
              k ≤ j ∧ j < k + (n + 1) ∧ par + depth tokens j - depth tokens k = 0 ∧
              precedence (type_at tokens (j : Int)) ≠ none) := by
      intro ret1 par1 op1 hp1 hpe hret hne
      obtain ⟨ha, hb⟩ := ih (k + 1) ret1 par1 op1 hp1 hne
      rw [hkn]
      refine ⟨by omega, ?_⟩
      rcases hb with hb | ⟨j, hj1, hj2, hj3, hj4, hj5⟩
      · rcases hret with hret | ⟨hret, hp0, hprec⟩
        · left; rw [hb, hret]
        · right
          exact ⟨k, by rw [hb, hret], le_refl _, by omega, by omega, hprec⟩
      · right
        exact ⟨j, hj1, by omega, by omega, by omega, hj5⟩
    simp only [get_position_loop, hcast] at hr ⊢
    by_cases h1 : type_at tokens (k : Int) = LPAREN
    · simp only [h1, if_true] at hr ⊢
      have := key ret (par + 1) op_pre (by omega) (by simp [h1, delta]) (Or.inl rfl) hr
      simpa [h1] using this
    · simp only [h1, if_false] at hr ⊢
      by_cases h2 : type_at tokens (k : Int) = RPAREN
      · simp only [h2, if_true] at hr ⊢
        by_cases h3 : par = 0
        · simp [h3] at hr
        · simp only [h3, if_false] at hr ⊢
          have := key ret (par - 1) op_pre (by omega) (by simp [h2, delta]; omega) (Or.inl rfl) hr
          simpa [h2] using this
      · simp only [h2, if_false] at hr ⊢
        have hd0 : par = par + delta (type_at tokens (k : Int)) := by simp [delta, h1, h2]
        split
        · rename_i h4
          rw [if_pos h4] at hr
          exact key ret par op_pre hpar hd0 (Or.inl rfl) hr
        · rename_i h4
          rw [if_neg h4] at hr
          split
          · rename_i h5
            rw [if_pos h5] at hr
            exact key ret par op_pre hpar hd0 (Or.inl rfl) hr
          · rename_i h5
            rw [if_neg h5] at hr
            have hp0 : par = 0 := by omega
            cases hprec : precedence (type_at tokens (k : Int)) with
            | none => simp [hprec] at hr
            | some t =>
              simp only [hprec] at hr ⊢
              split
              · rename_i h6
                rw [if_pos h6] at hr
                exact key (k : Int) par t hpar hd0 (Or.inr ⟨rfl, hp0, by rw [hprec]; simp⟩) hr
              · rename_i h6
                rw [if_neg h6] at hr
                exact key ret par op_pre hpar hd0 (Or.inl rfl) hr

/-- On a span that `check_parentheses` accepts, `get_position` finds no split. -/
theorem get_position_of_check_parentheses (tokens : List Token) (p q : Int) (hp : 0 ≤ p)
    (hpq : p < q) (h : check_parentheses tokens p q = true) :
    get_position tokens p q = -1 := by
  obtain ⟨P, rfl⟩ : ∃ P : Nat, p = (P : Int) := ⟨p.toNat, by omega⟩
  obtain ⟨Q, rfl⟩ : ∃ Q : Nat, q = (Q : Int) := ⟨q.toNat, by omega⟩
  have hPQ : P < Q := by omega
  have hn : ((Q : Int) + 1 - (P : Int)).toNat = Q + 1 - P := by omega
  obtain ⟨hl, hd, hz⟩ := check_parentheses_depth tokens P Q h
  by_contra hne
  unfold get_position at hne
  rw [hn] at hne
  have e1 : P + (Q + 1 - P) = Q + 1 := by omega
  obtain ⟨ha, hb⟩ := get_position_loop_depth tokens (Q + 1 - P) P (-1) 0 0 (le_refl _) hne
  rw [e1, hz] at ha
  have hd0 : depth tokens 0 = 0 := rfl
  rcases hb with hb | ⟨j, hj1, hj2, hj3, hj4, hj5⟩
  · exact hne hb
  · have hP0 : P = 0 := by
      by_contra hP
      have := hd P (by omega) (by omega)
      omega
    subst hP0
    have hdj : depth tokens j = 0 := by omega
    have hj0 : j = 0 := by
      by_contra hj
      have := hd j (by omega) (by omega)
      omega
    subst hj0
    rw [hl] at hj5
    exact hj5 rfl

/-! ## A unary split is never preceded by an operand -/

theorem precedence_pos (ty : TokenType) (t : Nat) (h : precedence ty = some t) : 1 ≤ t := by
  cases ty <;> simp [precedence] at h <;> omega

theorem precedence_unary (ty : TokenType) (h : type_from ty op_types = true) :
    precedence ty = some 1 := by
  cases ty <;> simp [type_from, op_types] at h <;> rfl

theorem bound_of_nop (ty : TokenType) (h : type_from ty nop_types = true)
    (h1 : ty ≠ LPAREN) : type_from ty bound_types = true := by
  cases ty <;> simp [type_from, nop_types] at h <;> first
    | exact absurd rfl h1
    | simp [type_from, bound_types]

/-- When the scan of `get_position` returns the index it starts at, the token
there is an operator met at `par = 0` that replaced the entry state. -/
theorem get_position_loop_eq_index (tokens : List Token) (n : Nat) (i ret par : Int)
    (op_pre : Nat) (hi : 0 ≤ i) (hpar : 0 ≤ par) (hret : ret ≠ i)
    (h : get_position_loop tokens n i ret par op_pre = i) :
    par = 0 ∧ ∃ t, precedence (type_at tokens i) = some t ∧
      (t > op_pre ∨ (t = op_pre ∧ type_from (type_at tokens i) op_types = false)) := by
  cases n with
  | zero =>
    simp only [get_position_loop] at h
    split at h
    · omega
    · exact absurd h hret
  | succ n =>
    have key : ∀ (par1 : Int) (op1 : Nat),
        get_position_loop tokens n (i + 1) ret par1 op1 ≠ i := by
      intro par1 op1 he
      have := get_position_loop_range tokens n (i + 1) ret par1 op1
      omega
    simp only [get_position_loop] at h
    split at h
    · exact absurd h (key _ _)
    · split at h
      · split at h
        · omega
        · exact absurd h (key _ _)
      · split at h
        · exact absurd h (key _ _)
        · split at h
          · exact absurd h (key _ _)
          · rename_i h5
            cases hprec : precedence (type_at tokens i) with
            | none => simp [hprec] at h; omega
            | some t =>
              simp only [hprec] at h
              split at h
              · rename_i h6
                refine ⟨by omega, t, rfl, ?_⟩
                rcases h6 with h6 | ⟨h6, h7⟩
                · left; exact h6
                · right; exact ⟨h6, by simpa using h7⟩
              · exact absurd h (key _ _)

/-- When the scan of `get_position` returns a unary operator that is not the
first token it scans, the token before that operator is a close parenthesis,
a numeric literal or a register. -/
theorem get_position_loop_unary (tokens : List Token) (n : Nat) (i ret par : Int)
    (op_pre : Nat) (hi : 0 ≤ i) (hpar : 0 ≤ par) (hret : ret ≤ i)
    (hgt : i < get_position_loop tokens n i ret par op_pre)
    (hun : type_from (type_at tokens (get_position_loop tokens n i ret par op_pre)) op_types
      = true) :
    type_from (type_at tokens (get_position_loop tokens n i ret par op_pre - 1)) bound_types
      = true := by
  induction n generalizing i ret par op_pre with
  | zero =>
    simp only [get_position_loop] at hgt
    split at hgt <;> omega
  | succ n ih =>
    have key : ∀ (ret1 par1 : Int) (op1 : Nat), 0 ≤ par1 → ret1 ≤ i →
        (par1 = 0 → op1 = 0 → type_from (type_at tokens i) bound_types = true) →
        i < get_position_loop tokens n (i + 1) ret1 par1 op1 →
        type_from (type_at tokens (get_position_loop tokens n (i + 1) ret1 par1 op1)) op_types
          = true →
        type_from (type_at tokens (get_position_loop tokens n (i + 1) ret1 par1 op1 - 1))
          bound_types = true := by
      intro ret1 par1 op1 hp1 hr1 hb hgt1 hun1
      by_cases he : get_position_loop tokens n (i + 1) ret1 par1 op1 = i + 1
      · obtain ⟨ha, t, ht1, ht2⟩ := get_position_loop_eq_index tokens n (i + 1) ret1 par1 op1
          (by omega) hp1 (by omega) he
        rw [he] at hun1
        rw [precedence_unary _ hun1] at ht1
        have ht : t = 1 := by
          have := Option.some.inj ht1
          omega
        have hop : op1 = 0 := by
          rcases ht2 with ht2 | ⟨_, ht3⟩
          · omega
          · rw [hun1] at ht3
            cases ht3
        rw [he]
        have e : i + 1 - 1 = i := by omega
        rw [e]
        exact hb ha hop
      · exact ih (i + 1) ret1 par1 op1 (by omega) hp1 (by omega) (by omega) hun1
    simp only [get_position_loop] at hgt hun ⊢
    by_cases h1 : type_at tokens i = LPAREN
    · simp only [h1, if_true] at hgt hun ⊢
      exact key ret (par + 1) op_pre (by omega) hret (fun h _ => by omega) hgt hun
    · simp only [h1, if_false] at hgt hun ⊢
      by_cases h2 : type_at tokens i = RPAREN
      · simp only [h2, if_true] at hgt hun ⊢
        by_cases h3 : par = 0
        · simp only [h3, if_true] at hgt
          omega
        · simp only [h3, if_false] at hgt hun ⊢
          exact key ret (par - 1) op_pre (by omega) hret
            (fun _ _ => by simp [type_from, bound_types, h2]) hgt hun
      · simp only [h2, if_false] at hgt hun ⊢
        by_cases h4 : type_from (type_at tokens i) nop_types = true
        · simp only [h4, if_true] at hgt hun ⊢
          exact key ret par op_pre hpar hret (fun _ _ => bound_of_nop _ h4 h1) hgt hun
        · simp only [h4, if_false, Bool.false_eq_true] at hgt hun ⊢
          by_cases h5 : par > 0
          · simp only [h5, if_true] at hgt hun ⊢
            exact key ret par op_pre hpar hret (fun h _ => by omega) hgt hun
          · simp only [h5, if_false] at hgt hun ⊢
            cases hprec : precedence (type_at tokens i) with
            | none =>
              simp only [hprec] at hgt
              omega
            | some t =>
              have htpos := precedence_pos _ _ hprec
              simp only [hprec] at hgt hun ⊢
              by_cases h6 : t > op_pre ∨ (t = op_pre ∧ (!type_from (type_at tokens i) op_types)
                  = true)
              · simp only [h6, if_true] at hgt hun ⊢
                exact key i par t hpar (le_refl _) (fun _ h => by omega) hgt hun
              · simp only [h6, if_false] at hgt hun ⊢
                have : t ≤ op_pre := by
                  by_contra hc
                  exact h6 (Or.inl (by omega))
                exact key ret par op_pre hpar hret (fun _ h => by omega) hgt hun

/-! ## The invariant of the lexer -/

theorem match_rules_type_mem (l : List (Regex × TokenType)) (e : List Char) (len : Nat)
    (ty : TokenType) (h : match_rules l e = some (len, ty)) : ty ∈ l.map Prod.snd := by
  induction l with
  | nil => simp [match_rules] at h
  | cons x l ih =>
    obtain ⟨re, t⟩ := x
    simp only [match_rules] at h
    cases hr : regexec re e with
    | none =>
      rw [hr] at h
      simp only [List.map_cons, List.mem_cons]
      right
      exact ih h
    | some n =>
      rw [hr] at h
      simp only [Option.some.injEq, Prod.mk.injEq] at h
      simp [h.2]

theorem rules_type_not_unary (e : List Char) (len : Nat) (ty : TokenType)
    (h : match_rules rules e = some (len, ty)) : type_from ty op_types = false := by
  have hall : ∀ t ∈ rules.map Prod.snd, type_from t op_types = false := by decide
  exact hall ty (match_rules_type_mem rules e len ty h)

theorem type_at_append_left (tokens : List Token) (t : Token) (k : Nat)
    (h : k < tokens.length) :
    type_at (tokens ++ [t]) (k : Int) = type_at tokens (k : Int) := by
  simp [type_at, token_at, List.getElem?_append_left h]

theorem type_at_append_right (tokens : List Token) (t : Token) :
    type_at (tokens ++ [t]) (tokens.length : Int) = t.type := by
  simp [type_at, token_at]

theorem last_type_eq (tokens : List Token) (k : Nat) (h : k + 1 = tokens.length) :
    last_type tokens = some (type_at tokens (k : Int)) := by
  have hk : k < tokens.length := by omega
  have e : tokens.length - 1 = k := by omega
  simp [last_type, type_at, token_at, List.getLast?_eq_getElem?, e,
    List.getElem?_eq_getElem hk]

theorem no_unary_after_bound_append (tokens : List Token) (t : Token)
    (hinv : no_unary_after_bound tokens)
    (ht : type_from t.type op_types = true →
      ∀ prev, last_type tokens = some prev → type_from prev bound_types = false) :
    no_unary_after_bound (tokens ++ [t]) := by
  intro k hk hb
  simp only [List.length_append, List.length_singleton] at hk
  have hcast : ((k : Int) + 1) = ((k + 1 : Nat) : Int) := by push_cast; rfl
  rw [type_at_append_left tokens t k (by omega)] at hb
  by_cases hlast : k + 1 = tokens.length
  · rw [hcast, hlast, type_at_append_right]
    cases hu : type_from t.type op_types with
    | false => rfl
    | true =>
      have := ht hu _ (last_type_eq tokens k hlast)
      rw [this] at hb
      cases hb
  · rw [hcast, type_at_append_left tokens t (k + 1) (by omega), ← hcast]
    exact hinv k (by omega) hb

theorem record_token_invariant (tokens tokens1 : List Token) (ty : TokenType)
    (substr : List Char) (hty : type_from ty op_types = false)
    (hinv : no_unary_after_bound tokens)
    (h : record_token tokens ty substr = some tokens1) : no_unary_after_bound tokens1 := by
  unfold record_token at h
  split at h
  · cases h
  · split at h
    · split at h
      · cases h
      · simp only [Option.some.injEq] at h
        rw [← h]
        exact no_unary_after_bound_append _ _ hinv (fun hu => by simp [hty] at hu)
    · split at h
      · split at h
        · rename_i hl
          simp only [Option.some.injEq] at h
          rw [← h]
          exact no_unary_after_bound_append _ _ hinv (fun _ prev hp => by simp [hl] at hp)
        · rename_i prev hl
          split at h
          · rename_i hb
            simp only [Option.some.injEq] at h
            rw [← h]
            refine no_unary_after_bound_append _ _ hinv (fun _ prev1 hp => ?_)
            rw [hl] at hp
            simp only [Option.some.injEq] at hp
            rw [← hp]
            simpa using hb
          · simp only [Option.some.injEq] at h
            rw [← h]
            exact no_unary_after_bound_append _ _ hinv (fun hu => by simp [hty] at hu)
      · simp only [Option.some.injEq] at h
        rw [← h]
        exact no_unary_after_bound_append _ _ hinv (fun hu => by simp [hty] at hu)

theorem make_token_loop_invariant (f : Nat) (e : List Char) (position : Nat)
    (tokens result : List Token) (hinv : no_unary_after_bound tokens)
    (h : make_token_loop f e position tokens = .ok result) : no_unary_after_bound result := by
  induction f generalizing e position tokens with
  | zero => simp [make_token_loop] at h
  | succ n ih =>
    cases e with
    | nil =>
      simp only [make_token_loop, LexResult.ok.injEq] at h
      rw [← h]
      exact hinv
    | cons c cs =>
      simp only [make_token_loop] at h
      split at h
      · simp only [LexResult.ok.injEq] at h
        rw [← h]
        exact hinv
      · cases hm : match_rules rules (c :: cs) with
        | none => simp [hm] at h
        | some r =>
          obtain ⟨len, ty⟩ := r
          simp only [hm] at h
          split at h
          · exact ih _ _ _ hinv h
          · cases hrec : record_token tokens ty ((c :: cs).take len) with
            | none => simp [hrec] at h
            | some tokens1 =>
              simp only [hrec] at h
              exact ih _ _ _
                (record_token_invariant _ _ _ _ (rules_type_not_unary _ _ _ hm) hinv hrec) h

/-- Every token sequence that `make_token` produces satisfies the invariant. -/
theorem make_token_invariant (e : List Char) (tokens : List Token)
    (h : make_token e = .ok tokens) : no_unary_after_bound tokens :=
  make_token_loop_invariant _ e 0 [] tokens (fun k hk => by simp at hk) h

/-! ## Chains of unary signs -/

theorem match_rules_sign (c : Char) (r : List Char) (hc : c = '+' ∨ c = '-') :
    match_rules rules (c :: r) = some (1, if c = '-' then MINUS else PLUS) := by
  rcases hc with rfl | rfl
  · exact match_rules_plus r
  · exact match_rules_minus r

theorem make_token_loop_sign_unary (f : Nat) (c : Char) (r : List Char) (position : Nat)
    (tokens : List Token) (hc : c = '+' ∨ c = '-') (hf : (c :: r).length < f)
    (hcap : tokens.length < 320)
    (hlast : ∀ prev, last_type tokens = some prev → type_from prev bound_types = false) :
    make_token_loop f (c :: r) position tokens =
      make_token_loop f r (position + 1)
        (tokens ++ [⟨if c = '-' then TK_NEG else TK_POS, []⟩]) := by
  have h0 : (c :: r).head? ≠ some (Char.ofNat 0) := by
    rcases hc with rfl | rfl <;> simp
  rw [make_token_loop_step f _ position tokens _ _ hf h0 (match_rules_sign c r hc)]
  have h1 : ¬ (320 ≤ tokens.length) := by omega
  cases hl : last_type tokens with
  | none => rcases hc with rfl | rfl <;> simp [record_token, h1, hl, unary_of]
  | some prev =>
    have := hlast prev hl
    rcases hc with rfl | rfl <;> simp [record_token, h1, hl, unary_of, this]

theorem make_token_loop_sign_binary (f : Nat) (c : Char) (r : List Char) (position : Nat)
    (tokens : List Token) (prev : TokenType) (hc : c = '+' ∨ c = '-')
    (hf : (c :: r).length < f) (hcap : tokens.length < 320)
    (hlast : last_type tokens = some prev) (hb : type_from prev bound_types = true) :
    make_token_loop f (c :: r) position tokens =
      make_token_loop f r (position + 1)
        (tokens ++ [⟨if c = '-' then MINUS else PLUS, []⟩]) := by
  have h0 : (c :: r).head? ≠ some (Char.ofNat 0) := by
    rcases hc with rfl | rfl <;> simp
  rw [make_token_loop_step f _ position tokens _ _ hf h0 (match_rules_sign c r hc)]
  have h1 : ¬ (320 ≤ tokens.length) := by omega
  rcases hc with rfl | rfl <;> simp [record_token, h1, hlast, hb]

theorem last_type_append (tokens : List Token) (t : Token) :
    last_type (tokens ++ [t]) = some t.type := by
  simp [last_type]

theorem make_token_loop_signs (f : Nat) (s n : List Char) (position : Nat)
    (tokens : List Token) (hs : ∀ c ∈ s, c = '+' ∨ c = '-') (hne : n ≠ [])
    (hn : ∀ c ∈ n, c.isDigit = true) (hlen : n.length < 32)
    (hf : (s ++ n).length < f) (hcap : tokens.length + s.length < 320)
    (hlast : ∀ prev, last_type tokens = some prev → type_from prev bound_types = false) :
    make_token_loop f (s ++ n) position tokens =
      .ok (tokens ++ (sign_tokens s ++ [⟨TK_NUM, n⟩])) := by
  induction s generalizing position tokens with
  | nil =>
    have := make_token_loop_num f n [] position tokens (by simpa using hf) hne hn (by simp) hlen
      (by simpa using hcap)
    simp only [List.append_nil] at this
    simp only [List.nil_append, sign_tokens, List.map_nil]
    rw [this, make_token_loop_nil _ _ _ (by omega)]
  | cons c s ih =>
    have hc := hs c (List.mem_cons_self _ _)
    simp only [List.length_cons] at hcap
    rw [List.cons_append, make_token_loop_sign_unary f c (s ++ n) position tokens hc hf
      (by omega) hlast]
    rw [ih (position + 1) _ (fun d hd => hs d (List.mem_cons_of_mem _ hd))
      (by simp at hf ⊢; omega)
      (by simp only [List.length_append, List.length_singleton]; omega)
      (fun prev hp => by
        rw [last_type_append] at hp
        simp only [Option.some.injEq] at hp
        rw [← hp]
        rcases hc with rfl | rfl <;> simp [type_from, bound_types])]
    simp [sign_tokens]

theorem token_at_append_cons (pre rest : List Token) (t : Token) :
    token_at (pre ++ t :: rest) (pre.length : Int) = t := by
  unfold token_at
  rw [Int.toNat_ofNat, List.getD_eq_getElem?_getD, List.getElem?_append_right (le_refl _)]
  simp

theorem check_parentheses_of_not_lparen (tokens : List Token) (p q : Int)
    (h : type_at tokens p ≠ LPAREN) : check_parentheses tokens p q = false := by
  simp [check_parentheses, h]

/-- Once an operator has been chosen, a scan at `par = 0` over unary operators
and operands keeps it. -/
theorem get_position_loop_keep (tokens : List Token) (n k : Nat) (ret : Int)
    (hk : k + n = tokens.length)
    (h : ∀ t ∈ tokens.drop k,
      type_from t.type op_types = true ∨ t.type = TK_NUM ∨ t.type = TK_REG) :
    get_position_loop tokens n (k : Int) ret 0 1 = ret := by
  induction n generalizing k with
  | zero => simp [get_position_loop]
  | succ n ih =>
    have hlt : k < tokens.length := by omega
    have hty := type_at_nat tokens k hlt
    have hd := List.drop_eq_getElem_cons hlt
    have hcast : ((k : Int) + 1) = ((k + 1 : Nat) : Int) := by push_cast; rfl
    have hnext : get_position_loop tokens n ((k : Int) + 1) ret 0 1 = ret := by
      rw [hcast]
      exact ih (k + 1) (by omega) (fun t ht => h t (by rw [hd]; exact List.mem_cons_of_mem _ ht))
    have hk := h tokens[k] (by rw [hd]; exact List.mem_cons_self _ _)
    simp only [get_position_loop, hty]
    rcases hk with hk | hk | hk
    · have hp := precedence_unary _ hk
      have h1 : (tokens[k]).type ≠ LPAREN := by
        intro he; rw [he] at hk; simp [type_from, op_types] at hk
      have h2 : (tokens[k]).type ≠ RPAREN := by
        intro he; rw [he] at hk; simp [type_from, op_types] at hk
      have h3 : type_from (tokens[k]).type nop_types = false := by
        revert hk
        cases (tokens[k]).type <;> simp [type_from, op_types, nop_types]
      simp [h1, h2, h3, hp, hk, hnext]
    · simp [hk, type_from, nop_types, hnext]
    · simp [hk, type_from, nop_types, hnext]

theorem get_position_unary_first (tokens : List Token) (k : Nat) (hk : k + 1 < tokens.length)
    (hu : type_from (type_at tokens (k : Int)) op_types = true)
    (h : ∀ t ∈ tokens.drop (k + 1),
      type_from t.type op_types = true ∨ t.type = TK_NUM ∨ t.type = TK_REG) :
    get_position tokens (k : Int) ((tokens.length : Int) - 1) = (k : Int) := by
  unfold get_position
  obtain ⟨n, hn⟩ : ∃ n, ((tokens.length : Int) - 1 + 1 - (k : Int)).toNat = n + 1 :=
    ⟨tokens.length - k - 1, by omega⟩
  rw [hn]
  have hp := precedence_unary _ hu
  have h1 : type_at tokens (k : Int) ≠ LPAREN := by
    intro he; rw [he] at hu; simp [type_from, op_types] at hu
  have h2 : type_at tokens (k : Int) ≠ RPAREN := by
    intro he; rw [he] at hu; simp [type_from, op_types] at hu
  have h3 : type_from (type_at tokens (k : Int)) nop_types = false := by
    revert hu
    cases type_at tokens (k : Int) <;> simp [type_from, op_types, nop_types]
  have hcast : ((k : Int) + 1) = ((k + 1 : Nat) : Int) := by push_cast; rfl
  have hkeep : get_position_loop tokens n ((k : Int) + 1) (k : Int) 0 1 = (k : Int) := by
    rw [hcast]
    exact get_position_loop_keep tokens n (k + 1) (k : Int) (by omega) h
  simp [get_position_loop, h1, h2, h3, hp, hkeep]

theorem to_word_cast (w : Nat) (x : Int) : ((to_word w x : Nat) : Int) = x % (2 : Int) ^ w := by
  unfold to_word
  exact Int.toNat_of_nonneg (Int.emod_nonneg _ (by positivity))

theorem to_word_congr (w : Nat) (x y : Int) (h : x % (2 : Int) ^ w = y % (2 : Int) ^ w) :
    to_word w x = to_word w y := by
  unfold to_word
  rw [h]

theorem to_word_natCast (w : Nat) (v : Nat) : to_word w (v : Int) = v % 2 ^ w := by
  unfold to_word
  have : ((v : Int) % (2 : Int) ^ w) = ((v % 2 ^ w : Nat) : Int) := by push_cast; rfl
  rw [this]
  exact Int.toNat_ofNat _

theorem to_word_neg_mod (w : Nat) (v : Nat) :
    to_word w (-((v % 2 ^ w : Nat) : Int)) = to_word w (-(v : Int)) := by
  apply to_word_congr
  have : ((v % 2 ^ w : Nat) : Int) = (v : Int) % (2 : Int) ^ w := by push_cast; rfl
  rw [this]
  exact (Int.mod_modEq (v : Int) ((2 : Int) ^ w)).neg

theorem to_word_neg_neg (w : Nat) (v : Nat) (hv : v < 2 ^ w) :
    to_word w (-((to_word w (-(v : Int)) : Nat) : Int)) = v := by
  rw [to_word_cast]
  have h1 : to_word w (-(-(v : Int) % (2 : Int) ^ w)) = to_word w (-(-(v : Int))) :=
    to_word_congr _ _ _ (Int.mod_modEq (-(v : Int)) ((2 : Int) ^ w)).neg
  rw [h1, neg_neg, to_word_natCast, Nat.mod_eq_of_lt hv]

theorem sign_value_eq (w : Nat) (s : List Char) (v : Nat) (hv : v < 2 ^ w) :
    sign_value w s v = if s.count '-' % 2 = 0 then v else to_word w (-(v : Int)) := by
  induction s with
  | nil => simp [sign_value]
  | cons c s ih =>
    simp only [sign_value, ih]
    by_cases hc : c = '-'
    · subst hc
      simp only [if_true, List.count_cons_self]
      by_cases he : s.count '-' % 2 = 0
      · have : ¬ ((s.count '-' + 1) % 2 = 0) := by omega
        simp [he, this]
      · have : (s.count '-' + 1) % 2 = 0 := by omega
        simp only [he, this, if_true, if_false]
        exact to_word_neg_neg w v hv
    · have hcount : (c :: s).count '-' = s.count '-' := by
        rw [List.count_cons_of_ne]
        exact fun h => hc h.symm
      simp only [hc, if_false, hcount]

section Evaluator

variable (w : Nat)
variable (isa_reg_str2val : List Char → Nat × Bool)
variable (vaddr_read : Nat → Nat → Nat)

theorem eval_empty (tokens : List Token) (p q : Int) (h : p > q) :
    eval w isa_reg_str2val vaddr_read tokens p q = some (0, false) := by
  rw [eval_unfold]
  simp [h]

theorem eval_signs (s n : List Char) (tokens pre : List Token)
    (hs : ∀ c ∈ s, c = '+' ∨ c = '-') (hn : ∀ c ∈ n, c.isDigit = true)
    (hT : tokens = pre ++ (sign_tokens s ++ [(⟨TK_NUM, n⟩ : Token)])) :
    eval w isa_reg_str2val vaddr_read tokens (pre.length : Int) ((tokens.length : Int) - 1) =
      some (sign_value w s (min (digits_value 10 n) LONG_MAX % 2 ^ w), true) := by
  induction s generalizing pre with
  | nil =>
    have hlen : tokens.length = pre.length + 1 := by simp [hT, sign_tokens]
    have htok : token_at tokens (pre.length : Int) = ⟨TK_NUM, n⟩ := by
      rw [hT]
      exact token_at_append_cons pre [] _
    rw [eval_unfold, if_neg (by omega), if_pos (by omega)]
    rw [eval_op_num w isa_reg_str2val _ _ true n htok hn]
    rfl
  | cons c s ih =>
    have hc := hs c (List.mem_cons_self _ _)
    have hT1 : tokens = pre ++ ((⟨if c = '-' then TK_NEG else TK_POS, []⟩ : Token) ::
        (sign_tokens s ++ [(⟨TK_NUM, n⟩ : Token)])) := by
      rw [hT]
      simp [sign_tokens]
    have hT2 : tokens = (pre ++ [(⟨if c = '-' then TK_NEG else TK_POS, []⟩ : Token)]) ++
        (sign_tokens s ++ [(⟨TK_NUM, n⟩ : Token)]) := by
      rw [hT1]
      simp
    have ih1 := ih (pre ++ [(⟨if c = '-' then TK_NEG else TK_POS, []⟩ : Token)])
      (fun d hd => hs d (List.mem_cons_of_mem _ hd)) hT2
    have hlen : tokens.length = pre.length + s.length + 2 := by
      rw [hT1]
      simp [sign_tokens]
      omega
    have hty : type_at tokens (pre.length : Int) = if c = '-' then TK_NEG else TK_POS := by
      unfold type_at
      rw [hT1, token_at_append_cons]
    have hu : type_from (type_at tokens (pre.length : Int)) op_types = true := by
      rw [hty]
      rcases hc with rfl | rfl <;> simp [type_from, op_types]
    have hdrop : tokens.drop (pre.length + 1) = sign_tokens s ++ [(⟨TK_NUM, n⟩ : Token)] := by
      have : pre.length + 1 =
          (pre ++ [(⟨if c = '-' then TK_NEG else TK_POS, []⟩ : Token)]).length := by simp
      rw [this, hT2, List.drop_left]
    have hgp := get_position_unary_first tokens pre.length (by omega) hu (by
        rw [hdrop]
        intro t ht
        simp only [List.mem_append, List.mem_singleton, sign_tokens, List.mem_map] at ht
        rcases ht with ⟨d, _, rfl⟩ | rfl
        · left
          by_cases hd : d = '-' <;> simp [hd, type_from, op_types]
        · right; left; rfl)
    have hcp := check_parentheses_of_not_lparen tokens (pre.length : Int)
      ((tokens.length : Int) - 1) (by
        rw [hty]
        rcases hc with rfl | rfl <;> simp)
    have hp2 : (pre.length : Int) + 1 =
        ((pre ++ [(⟨if c = '-' then TK_NEG else TK_POS, []⟩ : Token)]).length : Int) := by
      simp
    rw [eval_unfold, if_neg (by omega), if_neg (by omega), hcp]
    simp only [Bool.false_eq_true, if_false]
    rw [hgp, if_neg (by omega), eval_empty w isa_reg_str2val vaddr_read _ _ _ (by omega)]
    rw [hp2, ih1, hty]
    rcases hc with rfl | rfl <;> simp [calc1, sign_value]

end Evaluator

theorem make_token_loop_op2 (f : Nat) (c d : Char) (r : List Char) (position : Nat)
    (tokens : List Token) (ty : TokenType) (hf : (c :: d :: r).length < f)
    (hcap : tokens.length < 320) (hc : c ≠ Char.ofNat 0)
    (hm : match_rules rules (c :: d :: r) = some (2, ty))
    (h1 : ty ≠ TK_NOTYPE) (h2 : ty ≠ TK_NUM) (h3 : ty ≠ TK_REG) (h4 : ty ≠ STAR)
    (h5 : ty ≠ MINUS) (h6 : ty ≠ PLUS) :
    make_token_loop f (c :: d :: r) position tokens =
      make_token_loop f r (position + 2) (tokens ++ [⟨ty, []⟩]) := by
  rw [make_token_loop_step f _ position tokens _ _ hf (by simpa using hc) hm]
  have h0 : ¬ (320 ≤ tokens.length) := by omega
  simp [record_token, h0, h1, h2, h3, h4, h5, h6]

theorem min_long_max (v : Nat) (h : v ≤ LONG_MAX) : min v LONG_MAX = v :=
  Nat.min_eq_left h

/-- The token sequence of a text `a op b` made of two runs of digits around a
two-character operator. -/
theorem make_token_binary2 (a b : List Char) (c d : Char) (ty : TokenType) (ha0 : a ≠ [])
    (ha : ∀ x ∈ a, x.isDigit = true) (hla : a.length < 32) (hb0 : b ≠ [])
    (hb : ∀ x ∈ b, x.isDigit = true) (hlb : b.length < 32) (hc : c.isDigit = false)
    (hc0 : c ≠ Char.ofNat 0)
    (hm : ∀ r, match_rules rules (c :: d :: r) = some (2, ty))
    (h1 : ty ≠ TK_NOTYPE) (h2 : ty ≠ TK_NUM) (h3 : ty ≠ TK_REG) (h4 : ty ≠ STAR)
    (h5 : ty ≠ MINUS) (h6 : ty ≠ PLUS) :
    make_token (a ++ c :: d :: b) = .ok [⟨TK_NUM, a⟩, ⟨ty, []⟩, ⟨TK_NUM, b⟩] := by
  unfold make_token
  rw [make_token_loop_num _ a (c :: d :: b) 0 [] (by simp) ha0 ha
    (by intro x hx; simp at hx; rw [← hx]; exact hc) hla (by simp)]
  rw [make_token_loop_op2 _ c d b _ _ ty (by simp; omega) (by simp) hc0 (hm b) h1 h2 h3 h4 h5 h6]
  have := make_token_loop_num ((a ++ c :: d :: b).length + 1) b [] (0 + a.length + 2)
    ([] ++ [⟨TK_NUM, a⟩] ++ [⟨ty, []⟩]) (by simp; omega) hb0 hb (by simp) hlb (by simp)
  simp only [List.append_nil] at this
  rw [this, make_token_loop_nil _ _ _ (by simp)]
  simp

section Evaluator

variable (w : Nat)
variable (isa_reg_str2val : List Char → Nat × Bool)
variable (vaddr_read : Nat → Nat → Nat)

/-- The evaluation of a token sequence `literal operator literal` whose
operator is binary: both leaves are read and combined by `calc2`. -/
theorem eval_binary (a b : List Char) (ty : TokenType) (t : Nat)
    (ha : ∀ x ∈ a, x.isDigit = true) (hb : ∀ x ∈ b, x.isDigit = true)
    (hp : precedence ty = some t) (h1 : ty ≠ LPAREN) (h2 : ty ≠ RPAREN)
    (h3 : type_from ty nop_types = false) :
    eval w isa_reg_str2val vaddr_read [⟨TK_NUM, a⟩, ⟨ty, []⟩, ⟨TK_NUM, b⟩] 0 2 =
      calc2 w ty (min (digits_value 10 a) LONG_MAX % 2 ^ w)
        (min (digits_value 10 b) LONG_MAX % 2 ^ w) true := by
  have e0 := eval_op_num w isa_reg_str2val [⟨TK_NUM, a⟩, ⟨ty, []⟩, ⟨TK_NUM, b⟩] 0 true a
    (by simp [token_at]) ha
  have e2 := eval_op_num w isa_reg_str2val [⟨TK_NUM, a⟩, ⟨ty, []⟩, ⟨TK_NUM, b⟩] 2 true b
    (by simp [token_at]) hb
  have htpos := precedence_pos ty t hp
  have ht0 : 0 < t := by omega
  simp only [type_from, nop_types, List.any_cons, List.any_nil, Bool.or_false, Bool.or_eq_false_iff,
    decide_eq_false_iff_not] at h3
  obtain ⟨_, _, h4, h5⟩ := h3
  simp [eval, eval_fuel, check_parentheses, get_position, get_position_loop, type_at, token_at,
    type_from, nop_types, e0, e2, hp, h1, h2, h4, h5, ht0]

end Evaluator

theorem calc1_not_unary (w : Nat) (vaddr_read : Nat → Nat → Nat) (op : TokenType) (val : Nat)
    (success : Bool) (h : type_from op op_types = false) :
    calc1 w vaddr_read op val success = (0, false) := by
  cases op <;> simp [type_from, op_types] at h <;> rfl

/-! ## Signed division -/

theorem two_pow_pred (w : Nat) (hw : 0 < w) : (2 : Int) ^ w = 2 * (2 : Int) ^ (w - 1) := by
  obtain ⟨k, rfl⟩ : ∃ k, w = k + 1 := ⟨w - 1, by omega⟩
  simp [pow_succ]
  ring

theorem to_word_cast_nonneg (w : Nat) (hw : 0 < w) (a : Int) (h0 : 0 ≤ a)
    (h1 : a < (2 : Int) ^ (w - 1)) : ((to_word w a : Nat) : Int) = a := by
  rw [to_word_cast]
  have := two_pow_pred w hw
  exact Int.emod_eq_of_lt h0 (by omega)

theorem to_word_cast_neg (w : Nat) (hw : 0 < w) (a : Int) (h0 : a < 0)
    (h1 : -(2 : Int) ^ (w - 1) ≤ a) : ((to_word w a : Nat) : Int) = a + (2 : Int) ^ w := by
  rw [to_word_cast]
  have := two_pow_pred w hw
  rw [← Int.add_emod_self]
  exact Int.emod_eq_of_lt (by omega) (by omega)

/-- The signed reading of the two's-complement encoding of a signed value in
range is that value. -/
theorem to_sword_to_word (w : Nat) (hw : 0 < w) (a : Int)
    (h1 : -(2 : Int) ^ (w - 1) ≤ a) (h2 : a < (2 : Int) ^ (w - 1)) :
    to_sword w (to_word w a) = a := by
  have hp := two_pow_pred w hw
  have hlt : to_word w a < 2 ^ w := by
    have h := to_word_cast w a
    have := Int.emod_lt_of_pos a (show (0 : Int) < (2 : Int) ^ w by positivity)
    have hc : ((to_word w a : Nat) : Int) < ((2 ^ w : Nat) : Int) := by
      push_cast
      omega
    exact_mod_cast hc
  unfold to_sword
  rw [Nat.mod_eq_of_lt hlt]
  by_cases h0 : 0 ≤ a
  · have hc := to_word_cast_nonneg w hw a h0 h2
    have hlt2 : to_word w a < 2 ^ (w - 1) := by
      have : ((to_word w a : Nat) : Int) < ((2 ^ (w - 1) : Nat) : Int) := by
        push_cast
        omega
      exact_mod_cast this
    rw [if_pos hlt2, hc]
  · have hc := to_word_cast_neg w hw a (by omega) h1
    have hge : ¬ (to_word w a < 2 ^ (w - 1)) := by
      intro hlt2
      have : ((to_word w a : Nat) : Int) < ((2 ^ (w - 1) : Nat) : Int) := by exact_mod_cast hlt2
      push_cast at this
      omega
    rw [if_neg hge, hc]
    omega

theorem to_word_eq_zero (w : Nat) (hw : 0 < w) (a : Int)
    (h1 : -(2 : Int) ^ (w - 1) ≤ a) (h2 : a < (2 : Int) ^ (w - 1)) (h : to_word w a = 0) :
    a = 0 := by
  have := to_sword_to_word w hw a h1 h2
  rw [h] at this
  rw [← this]
  simp [to_sword]

theorem tdiv_in_range (M a b : Int) (ha1 : -M ≤ a) (ha2 : a < M) (hb0 : b ≠ 0)
    (hov : ¬ (a = -M ∧ b = -1)) : -M ≤ Int.tdiv a b ∧ Int.tdiv a b < M := by
  have hq : (Int.tdiv a b).natAbs = a.natAbs / b.natAbs := Int.natAbs_tdiv a b
  by_cases hb1 : b = 1
  · subst hb1
    rw [Int.tdiv_one]
    exact ⟨ha1, ha2⟩
  · by_cases hb2 : b = -1
    · subst hb2
      rw [Int.tdiv_neg, Int.tdiv_one]
      have : a ≠ -M := fun h => hov ⟨h, rfl⟩
      omega
    · have hb : 2 ≤ b.natAbs := by omega
      have h1 : a.natAbs / b.natAbs ≤ a.natAbs / 2 := Nat.div_le_div_left hb (by omega)
      have h2 : a.natAbs / 2 * 2 ≤ a.natAbs := Nat.div_mul_le_self _ _
      omega

/-! ## Relational operators and the order of the rules -/

theorem match_rules_lt (r : List Char) :
    match_rules rules ('<' :: r) = some (1, TK_LT) := by
  simp [match_rules, rules, regexec, startsWith]

theorem match_rules_gt (r : List Char) :
    match_rules rules ('>' :: r) = some (1, TK_GT) := by
  simp [match_rules, rules, regexec, startsWith]

theorem make_token_loop_op1 (f : Nat) (c : Char) (r : List Char) (position : Nat)
    (tokens : List Token) (ty : TokenType) (hf : (c :: r).length < f)
    (hcap : tokens.length < 320) (hc : c ≠ Char.ofNat 0)
    (hm : match_rules rules (c :: r) = some (1, ty))
    (h1 : ty ≠ TK_NOTYPE) (h2 : ty ≠ TK_NUM) (h3 : ty ≠ TK_REG) (h4 : ty ≠ STAR)
    (h5 : ty ≠ MINUS) (h6 : ty ≠ PLUS) :
    make_token_loop f (c :: r) position tokens =
      make_token_loop f r (position + 1) (tokens ++ [⟨ty, []⟩]) := by
  rw [make_token_loop_step f _ position tokens _ _ hf (by simpa using hc) hm]
  have h0 : ¬ (320 ≤ tokens.length) := by omega
  simp [record_token, h0, h1, h2, h3, h4, h5, h6]

theorem make_token_loop_no_match (f : Nat) (e : List Char) (position : Nat)
    (tokens : List Token) (hf : 0 < f) (hne : e ≠ [])
    (h0 : e.head? ≠ some (Char.ofNat 0)) (hm : match_rules rules e = none) :
    make_token_loop f e position tokens = .no_match position := by
  cases f with
  | zero => omega
  | succ n =>
    cases e with
    | nil => exact absurd rfl hne
    | cons c cs =>
      have hc : c ≠ Char.ofNat 0 := by
        intro hc
        apply h0
        simp [hc]
      simp [make_token_loop, hc, hm]

/-- A lone `'='` in front of a digit matches no rule. -/
theorem match_rules_eq_digit (d : Char) (r : List Char) (hd : d.isDigit = true) :
    match_rules rules ('=' :: d :: r) = none := by
  have h1 := ne_of_isDigit hd (d := '=') (by decide)
  simp [match_rules, rules, regexec, startsWith, h1, Ne.symm h1]

/-- The token sequence of a text `a op b` made of two runs of digits around a
one-character operator that is not reclassified. -/
theorem make_token_binary1 (a b : List Char) (c : Char) (ty : TokenType) (ha0 : a ≠ [])
    (ha : ∀ x ∈ a, x.isDigit = true) (hla : a.length < 32) (hb0 : b ≠ [])
    (hb : ∀ x ∈ b, x.isDigit = true) (hlb : b.length < 32) (hc : c.isDigit = false)
    (hc0 : c ≠ Char.ofNat 0)
    (hm : ∀ r, match_rules rules (c :: r) = some (1, ty))
    (h1 : ty ≠ TK_NOTYPE) (h2 : ty ≠ TK_NUM) (h3 : ty ≠ TK_REG) (h4 : ty ≠ STAR)
    (h5 : ty ≠ MINUS) (h6 : ty ≠ PLUS) :
    make_token (a ++ c :: b) = .ok [⟨TK_NUM, a⟩, ⟨ty, []⟩, ⟨TK_NUM, b⟩] := by
  unfold make_token
  rw [make_token_loop_num _ a (c :: b) 0 [] (by simp) ha0 ha
    (by intro x hx; simp at hx; rw [← hx]; exact hc) hla (by simp)]
  rw [make_token_loop_op1 _ c b _ _ ty (by simp; omega) (by simp) hc0 (hm b) h1 h2 h3 h4 h5 h6]
  have := make_token_loop_num ((a ++ c :: b).length + 1) b [] (0 + a.length + 1)
    ([] ++ [⟨TK_NUM, a⟩] ++ [⟨ty, []⟩]) (by simp; omega) hb0 hb (by simp) hlb (by simp)
  rw [List.append_nil] at this
  rw [this, make_token_loop_nil _ _ _ (by simp)]
  simp

/-- The scan of a text `a`, a one-character operator, `=`, `b`: it stops with
no match at the `=`. -/
theorem make_token_shadowed (a b : List Char) (c : Char) (ty : TokenType) (ha0 : a ≠ [])
    (ha : ∀ x ∈ a, x.isDigit = true) (hla : a.length < 32) (hb0 : b ≠ [])
    (hb : ∀ x ∈ b, x.isDigit = true) (hc : c.isDigit = false)
    (hc0 : c ≠ Char.ofNat 0)
    (hm : ∀ r, match_rules rules (c :: r) = some (1, ty))
    (h1 : ty ≠ TK_NOTYPE) (h2 : ty ≠ TK_NUM) (h3 : ty ≠ TK_REG) (h4 : ty ≠ STAR)
    (h5 : ty ≠ MINUS) (h6 : ty ≠ PLUS) :
    make_token (a ++ c :: '=' :: b) = .no_match (a.length + 1) := by
  unfold make_token
  rw [make_token_loop_num _ a (c :: '=' :: b) 0 [] (by simp) ha0 ha
    (by intro x hx; simp at hx; rw [← hx]; exact hc) hla (by simp)]
  rw [make_token_loop_op1 _ c ('=' :: b) _ _ ty (by simp; omega) (by simp) hc0 (hm _)
    h1 h2 h3 h4 h5 h6]
  cases b with
  | nil => exact absurd rfl hb0
  | cons d r =>
    rw [make_token_loop_no_match _ _ _ _ (by simp) (by simp) (by simp)
      (match_rules_eq_digit d r (hb d (List.mem_cons_self _ _)))]
    simp

/-- The rule table without the rules of `<=` and `>=`. -/
theorem match_rules_shadow (e : List Char) :
    match_rules rules e =
      match_rules (rules.filter (fun r => r.2 ≠ TK_LE ∧ r.2 ≠ TK_GE)) e := by
  have hf : rules.filter (fun r => r.2 ≠ TK_LE ∧ r.2 ≠ TK_GE) =
      [ (.spaces, TK_NOTYPE), (.lit ['+'], PLUS), (.lit ['=', '='], TK_EQ), (.lit ['-'], MINUS),
        (.lit ['('], LPAREN), (.lit [')'], RPAREN), (.lit ['*'], STAR), (.lit ['/'], SLASH),
        (.lit ['<'], TK_LT), (.lit ['>'], TK_GT), (.lit ['!', '='], TK_NEQ),
        (.lit ['&', '&'], TK_AND), (.lit ['|', '|'], TK_OR), (.digits, TK_NUM), (.reg, TK_REG),
        (.var, TK_VAR) ] := by
    decide
  rw [hf]
  cases e with
  | nil => simp [match_rules, rules, regexec, startsWith]
  | cons c cs =>
    by_cases h1 : c = '<'
    · subst h1
      simp [match_rules, rules, regexec, startsWith]
    · by_cases h2 : c = '>'
      · subst h2
        simp [match_rules, rules, regexec, startsWith]
      · simp [match_rules, rules, regexec, startsWith, h1, h2, Ne.symm h1, Ne.symm h2]

/-- No rule ever yields `TK_LE` or `TK_GE`: the rules of `<` and `>` come
first and match whenever those of `<=` and `>=` would. -/
theorem match_rules_not_le_ge (e : List Char) (len : Nat) (ty : TokenType)
    (h : match_rules rules e = some (len, ty)) : ty ≠ TK_LE ∧ ty ≠ TK_GE := by
  rw [match_rules_shadow] at h
  have hm := match_rules_type_mem _ e len ty h
  have hall : ∀ t ∈ (rules.filter (fun r => r.2 ≠ TK_LE ∧ r.2 ≠ TK_GE)).map Prod.snd,
      t ≠ TK_LE ∧ t ≠ TK_GE := by decide
  exact hall ty hm

/-- A property of token kinds that holds for everything the rules can yield,
reclassified or not, holds for every recorded token. -/
theorem make_token_loop_kinds (P : TokenType → Prop)
    (hP : ∀ e len ty, match_rules rules e = some (len, ty) → ty ≠ TK_NOTYPE →
      P ty ∧ P (unary_of ty))
    (f : Nat) (e : List Char) (position : Nat) (tokens result : List Token)
    (hinv : ∀ t ∈ tokens, P t.type)
    (h : make_token_loop f e position tokens = .ok result) : ∀ t ∈ result, P t.type := by
  induction f generalizing e position tokens with
  | zero => simp [make_token_loop] at h
  | succ n ih =>
    cases e with
    | nil =>
      simp only [make_token_loop, LexResult.ok.injEq] at h
      rw [← h]
      exact hinv
    | cons c cs =>
      simp only [make_token_loop] at h
      split at h
      · simp only [LexResult.ok.injEq] at h
        rw [← h]
        exact hinv
      · cases hm : match_rules rules (c :: cs) with
        | none => simp [hm] at h
        | some r =>
          obtain ⟨len, ty⟩ := r
          simp only [hm] at h
          split at h
          · exact ih _ _ _ hinv h
          · rename_i hty
            obtain ⟨hp1, hp2⟩ := hP _ _ _ hm hty
            cases hrec : record_token tokens ty ((c :: cs).take len) with
            | none => simp [hrec] at h
            | some tokens1 =>
              simp only [hrec] at h
              refine ih _ _ _ ?_ h
              intro t ht
              unfold record_token at hrec
              split at hrec
              · cases hrec
              · split at hrec
                · split at hrec
                  · cases hrec
                  · simp only [Option.some.injEq] at hrec
                    rw [← hrec] at ht
                    simp only [List.mem_append, List.mem_singleton] at ht
                    rcases ht with ht | rfl
                    · exact hinv t ht
                    · exact hp1
                · split at hrec
                  · split at hrec
                    · simp only [Option.some.injEq] at hrec
                      rw [← hrec] at ht
                      simp only [List.mem_append, List.mem_singleton] at ht
                      rcases ht with ht | rfl
                      · exact hinv t ht
                      · exact hp2
                    · split at hrec
                      · simp only [Option.some.injEq] at hrec
                        rw [← hrec] at ht
                        simp only [List.mem_append, List.mem_singleton] at ht
                        rcases ht with ht | rfl
                        · exact hinv t ht
                        · exact hp2
                      · simp only [Option.some.injEq] at hrec
                        rw [← hrec] at ht
                        simp only [List.mem_append, List.mem_singleton] at ht
                        rcases ht with ht | rfl
                        · exact hinv t ht
                        · exact hp1
                  · simp only [Option.some.injEq] at hrec
                    rw [← hrec] at ht
                    simp only [List.mem_append, List.mem_singleton] at ht
                    rcases ht with ht | rfl
                    · exact hinv t ht
                    · exact hp1

/-! ## The reclassification of `+`, `-`, `*` -/

theorem binary_after_bound_append (tokens : List Token) (t : Token)
    (hinv : binary_after_bound tokens)
    (ht : type_from t.type [STAR, MINUS, PLUS] = true →
      ∃ prev, last_type tokens = some prev ∧ type_from prev bound_types = true) :
    binary_after_bound (tokens ++ [t]) := by
  intro k hk hb
  simp only [List.length_append, List.length_singleton] at hk
  by_cases hlast : k = tokens.length
  · subst hlast
    rw [type_at_append_right] at hb
    obtain ⟨prev, hp, hbd⟩ := ht hb
    have hne : tokens.length ≠ 0 := by
      intro h0
      have : tokens = [] := List.length_eq_zero.mp h0
      rw [this] at hp
      simp [last_type] at hp
    refine ⟨hne, ?_⟩
    obtain ⟨j, hj⟩ : ∃ j, j + 1 = tokens.length := ⟨tokens.length - 1, by omega⟩
    have e1 : (tokens.length : Int) - 1 = (j : Int) := by omega
    rw [e1, type_at_append_left tokens t j (by omega)]
    have := last_type_eq tokens j hj
    rw [hp] at this
    rw [← Option.some.inj this]
    exact hbd
  · have hk1 : k < tokens.length := by omega
    rw [type_at_append_left tokens t k hk1] at hb
    obtain ⟨h0, h1⟩ := hinv k hk1 hb
    refine ⟨h0, ?_⟩
    obtain ⟨j, hj⟩ : ∃ j, j + 1 = k := ⟨k - 1, by omega⟩
    have e1 : (k : Int) - 1 = (j : Int) := by omega
    rw [e1] at h1 ⊢
    rw [type_at_append_left tokens t j (by omega)]
    exact h1

theorem record_token_binary (tokens tokens1 : List Token) (ty : TokenType)
    (substr : List Char) (hinv : binary_after_bound tokens)
    (h : record_token tokens ty substr = some tokens1) : binary_after_bound tokens1 := by
  unfold record_token at h
  split at h
  · cases h
  · split at h
    · rename_i hnr
      split at h
      · cases h
      · simp only [Option.some.injEq] at h
        rw [← h]
        refine binary_after_bound_append _ _ hinv (fun hb => ?_)
        rcases hnr with hnr | hnr <;> simp [hnr, type_from] at hb
    · split at h
      · rename_i hamb
        split at h
        · simp only [Option.some.injEq] at h
          rw [← h]
          refine binary_after_bound_append _ _ hinv (fun hb => ?_)
          rcases hamb with hamb | hamb | hamb <;> simp [hamb, type_from, unary_of] at hb
        · rename_i prev hl
          split at h
          · simp only [Option.some.injEq] at h
            rw [← h]
            refine binary_after_bound_append _ _ hinv (fun hb => ?_)
            rcases hamb with hamb | hamb | hamb <;> simp [hamb, type_from, unary_of] at hb
          · rename_i hbd
            simp only [Option.some.injEq] at h
            rw [← h]
            exact binary_after_bound_append _ _ hinv (fun _ => ⟨prev, hl, by simpa using hbd⟩)
      · rename_i hamb
        simp only [Option.some.injEq] at h
        rw [← h]
        refine binary_after_bound_append _ _ hinv (fun hb => ?_)
        exfalso
        apply hamb
        simp only [type_from, List.any_cons, List.any_nil, Bool.or_false, Bool.or_eq_true,
          decide_eq_true_eq] at hb
        exact hb

theorem make_token_loop_binary (f : Nat) (e : List Char) (position : Nat)
    (tokens result : List Token) (hinv : binary_after_bound tokens)
    (h : make_token_loop f e position tokens = .ok result) : binary_after_bound result := by
  induction f generalizing e position tokens with
  | zero => simp [make_token_loop] at h
  | succ n ih =>
    cases e with
    | nil =>
      simp only [make_token_loop, LexResult.ok.injEq] at h
      rw [← h]
      exact hinv
    | cons c cs =>
      simp only [make_token_loop] at h
      split at h
      · simp only [LexResult.ok.injEq] at h
        rw [← h]
        exact hinv
      · cases hm : match_rules rules (c :: cs) with
        | none => simp [hm] at h
        | some r =>
          obtain ⟨len, ty⟩ := r
          simp only [hm] at h
          split at h
          · exact ih _ _ _ hinv h
          · cases hrec : record_token tokens ty ((c :: cs).take len) with
            | none => simp [hrec] at h
            | some tokens1 =>
              simp only [hrec] at h
              exact ih _ _ _ (record_token_binary _ _ _ _ hinv hrec) h

theorem make_token_binary_after_bound (e : List Char) (tokens : List Token)
    (h : make_token e = .ok tokens) : binary_after_bound tokens :=
  make_token_loop_binary _ e 0 [] tokens (fun k hk => by simp at hk) h

/-! ## Dereference, registers and hexadecimal literals -/

theorem match_rules_star (r : List Char) :
    match_rules rules ('*' :: r) = some (1, STAR) := by
  simp [match_rules, rules, regexec, startsWith]

theorem make_token_deref (a : List Char) (ha0 : a ≠ []) (ha : ∀ c ∈ a, c.isDigit = true)
    (hla : a.length < 32) :
    make_token ('*' :: a) = .ok [⟨TK_DEREF, []⟩, ⟨TK_NUM, a⟩] := by
  unfold make_token
  rw [make_token_loop_step _ _ 0 [] _ _ (by simp) (by simp) (match_rules_star a)]
  simp only [record_token, last_type, unary_of]
  simp only [List.length_nil, List.getLast?_nil, Option.map_none', List.nil_append,
    List.drop_succ_cons, List.drop_zero]
  have := make_token_loop_num (('*' :: a).length + 1) a [] (0 + 1) [⟨TK_DEREF, []⟩]
    (by simp; omega) ha0 ha (by simp) hla (by simp)
  rw [List.append_nil] at this
  simp only [if_false, if_true, reduceCtorEq, false_or, or_false, or_true, true_or,
    Nat.not_succ_le_zero, Nat.zero_add, zero_le, Nat.le_zero_eq] at this ⊢
  rw [this, make_token_loop_nil _ _ _ (by simp)]
  rfl

theorem isWordChar_of_hex (c : Char) (h : is_digit_of 16 c = true) : isWordChar c = true := by
  simp only [is_digit_of, if_true, Bool.or_eq_true, decide_eq_true_eq] at h
  simp only [isWordChar, Char.isAlphanum, Char.isAlpha, Char.isUpper, Char.isLower,
    Bool.or_eq_true, Bool.and_eq_true, decide_eq_true_eq, beq_iff_eq]
  left
  rcases h with (h | h) | h
  · right; simpa [Char.isDigit] using h
  · left; right
    have h1 : (97 : Nat) ≤ c.val.toNat := h.1
    have h2 : c.val.toNat ≤ (102 : Nat) := h.2
    constructor
    · show (97 : UInt32).toNat ≤ c.val.toNat
      exact h1
    · show c.val.toNat ≤ (122 : UInt32).toNat
      exact le_trans h2 (by decide)
  · left; left
    have h1 : (65 : Nat) ≤ c.val.toNat := h.1
    have h2 : c.val.toNat ≤ (70 : Nat) := h.2
    constructor
    · show (65 : UInt32).toNat ≤ c.val.toNat
      exact h1
    · show c.val.toNat ≤ (90 : UInt32).toNat
      exact le_trans h2 (by decide)

theorem match_rules_x (h : List Char) (hw : ∀ c ∈ h, isWordChar c = true) :
    match_rules rules ('x' :: h) = some (h.length + 1, TK_VAR) := by
  have htw : h.takeWhile isWordChar = h := by
    rw [List.takeWhile_eq_self_iff]
    exact hw
  simp [match_rules, rules, regexec, startsWith, htw]

/-! ## The parenthesis span check against its specification -/

theorem check_parentheses_loop_of_depth (tokens : List Token) (Q n k : Nat) (par : Int)
    (hk : k + n = Q + 1) (hkQ : k ≤ Q) (hpar : par = depth tokens k)
    (h1 : ∀ j, k ≤ j → j < Q → depth tokens (j + 1) ≠ 0) (h2 : depth tokens (Q + 1) = 0) :
    check_parentheses_loop tokens (Q : Int) n (k : Int) par = true := by
  induction n generalizing k par with
  | zero => omega
  | succ n ih =>
    have hcast : ((k : Int) + 1) = ((k + 1 : Nat) : Int) := by push_cast; rfl
    have hstep : (if type_at tokens (k : Int) = LPAREN then par + 1
        else if type_at tokens (k : Int) = RPAREN then par - 1 else par) =
        depth tokens (k + 1) := by
      simp only [depth, delta, hpar]
      split
      · rfl
      · split
        · omega
        · omega
    simp only [check_parentheses_loop, hstep, hcast]
    by_cases h0 : depth tokens (k + 1) = 0
    · rw [if_pos h0]
      have hkq : k = Q := by
        by_contra hne
        exact h1 k (le_refl _) (by omega) h0
      simp [hkq]
    · rw [if_neg h0]
      have hne : k ≠ Q := by
        intro hkq
        rw [hkq] at h0
        exact h0 h2
      exact ih (k + 1) _ (by omega) (by omega) rfl (fun j hj1 hj2 => h1 j (by omega) hj2)

/-- What `check_parentheses` computes: the kinds of the tokens `p` and `q`, and
the first return to zero of a depth counter started before token 0. -/
theorem check_parentheses_eq (tokens : List Token) (p q : Nat) :
    check_parentheses tokens (p : Int) (q : Int) =
      (decide (type_at tokens (p : Int) = LPAREN) && decide (type_at tokens (q : Int) = RPAREN) &&
        decide (depth tokens (q + 1) = 0) &&
        (List.range q).all (fun n => decide (depth tokens (n + 1) ≠ 0))) := by
  have hn : ((q : Int) + 1).toNat = q + 1 := by omega
  by_cases hc : type_at tokens (p : Int) = LPAREN ∧ type_at tokens (q : Int) = RPAREN
  · simp only [check_parentheses, hc, and_self, if_true, decide_True, Bool.true_and, hn]
    cases hl : check_parentheses_loop tokens (q : Int) (q + 1) ((0 : Nat) : Int) 0 with
    | true =>
      obtain ⟨ha, hb⟩ := check_parentheses_loop_depth tokens q (q + 1) 0 0 (by omega) rfl hl
      symm
      simp only [Bool.and_eq_true, decide_eq_true_eq, List.all_eq_true, List.mem_range]
      exact ⟨hb, fun n hn => ha n (Nat.zero_le _) hn⟩
    | false =>
      symm
      rw [Bool.eq_false_iff]
      intro hcon
      simp only [Bool.and_eq_true, decide_eq_true_eq, List.all_eq_true, List.mem_range] at hcon
      have := check_parentheses_loop_of_depth tokens q (q + 1) 0 0 (by omega) (by omega) rfl
        (fun j _ hj => hcon.2 j hj) hcon.1
      rw [this] at hl
      cases hl
  · simp only [check_parentheses, hc, if_false]
    symm
    rw [Bool.eq_false_iff]
    intro hcon
    simp only [Bool.and_eq_true, decide_eq_true_eq] at hcon
    exact hc ⟨hcon.1.1.1, hcon.1.1.2⟩

/-! ## The split chosen by `get_position` -/

theorem unary_of_precedence_one (ty : TokenType) (h : precedence ty = some 1) :
    type_from ty op_types = true := by
  cases ty <;> simp [precedence] at h <;> simp [type_from, op_types]

theorem strength_eq (tokens : List Token) (j t : Nat)
    (h : precedence (type_at tokens (j : Int)) = some t) : strength tokens j = t := by
  simp [strength, h]

theorem split_inv_skip (tokens : List Token) (p k : Nat) (ret : Int) (op_pre : Nat)
    (hinv : split_inv tokens p k ret op_pre) (hk : ¬ split_candidate tokens p k) :
    split_inv tokens p (k + 1) ret op_pre := by
  have hlt : ∀ j, j < k + 1 → split_candidate tokens p j → j < k := by
    intro j hj hc
    by_contra hne
    have : j = k := by omega
    rw [this] at hc
    exact hk hc
  rcases hinv with ⟨h1, h2, h3⟩ | ⟨s, h1, h2, h3, h4, h5, h6, h7, h8⟩
  · left
    exact ⟨h1, h2, fun j hj1 hj2 hc => h3 j hj1 (hlt j hj2 hc) hc⟩
  · right
    exact ⟨s, h1, h2, by omega, h4, h5, fun j hj1 hj2 hc => h6 j hj1 (hlt j hj2 hc) hc,
      fun hu j hj1 hj2 hc => h7 hu j hj1 (hlt j hj2 hc) hc,
      fun hu j hj1 hj2 hc => h8 hu j hj1 (hlt j hj2 hc) hc⟩

theorem split_inv_accept (tokens : List Token) (p k : Nat) (ret : Int) (op_pre t : Nat)
    (hinv : split_inv tokens p k ret op_pre) (hpk : p ≤ k)
    (hk : split_candidate tokens p k) (ht : precedence (type_at tokens (k : Int)) = some t)
    (hacc : t > op_pre ∨ (t = op_pre ∧ type_from (type_at tokens (k : Int)) op_types = false)) :
    split_inv tokens p (k + 1) (k : Int) t := by
  have hst := strength_eq tokens k t ht
  have hge : op_pre ≤ t := by omega
  right
  refine ⟨k, rfl, hpk, by omega, hk, ht, ?_, ?_, ?_⟩
  · intro j hj1 hj2 hc
    by_cases hjk : j = k
    · rw [hjk, hst]
    · rcases hinv with ⟨_, _, h3⟩ | ⟨s, _, _, _, _, _, h6, _, _⟩
      · exact absurd hc (h3 j hj1 (by omega))
      · exact le_trans (h6 j hj1 (by omega) hc) hge
  · intro _ j hj1 hj2
    omega
  · intro hu j hj1 hj2 hc
    by_contra hlt
    have hjk : j < k := by omega
    have hp1 := precedence_unary _ hu
    rw [ht] at hp1
    have ht1 : t = 1 := Option.some.inj hp1
    rcases hacc with hacc | ⟨_, hnu⟩
    · rcases hinv with ⟨_, _, h3⟩ | ⟨s, _, _, _, _, h5, _, _, _⟩
      · exact h3 j hj1 hjk hc
      · have := precedence_pos _ _ h5
        omega
    · rw [hu] at hnu
      cases hnu

theorem split_inv_reject (tokens : List Token) (p k : Nat) (ret : Int) (op_pre t : Nat)
    (hinv : split_inv tokens p k ret op_pre)
    (ht : precedence (type_at tokens (k : Int)) = some t)
    (hrej : ¬ (t > op_pre ∨ (t = op_pre ∧ type_from (type_at tokens (k : Int)) op_types = false))) :
    split_inv tokens p (k + 1) ret op_pre := by
  have hst := strength_eq tokens k t ht
  have htpos := precedence_pos _ _ ht
  have hle : t ≤ op_pre := by
    by_contra h
    exact hrej (Or.inl (by omega))
  rcases hinv with ⟨_, h2, _⟩ | ⟨s, h1, h2, h3, h4, h5, h6, h7, h8⟩
  · omega
  · right
    refine ⟨s, h1, h2, by omega, h4, h5, ?_, ?_, ?_⟩
    · intro j hj1 hj2 hc
      by_cases hjk : j = k
      · rw [hjk, hst]; exact hle
      · exact h6 j hj1 (by omega) hc
    · intro hnu j hj1 hj2 hc
      by_cases hjk : j = k
      · rw [hjk, hst]
        by_contra hnlt
        have hteq : t = op_pre := by omega
        have hku : type_from (type_at tokens (k : Int)) op_types = true := by
          cases hu : type_from (type_at tokens (k : Int)) op_types with
          | true => rfl
          | false => exact absurd (Or.inr ⟨hteq, hu⟩) hrej
        have hp1 := precedence_unary _ hku
        rw [ht] at hp1
        have ht1 : t = 1 := Option.some.inj hp1
        have hs1 : precedence (type_at tokens (s : Int)) = some 1 := by
          rw [h5, ← hteq, ht1]
        rw [unary_of_precedence_one _ hs1] at hnu
        cases hnu
      · exact h7 hnu j hj1 (by omega) hc
    · intro hu j hj1 hj2 hc
      by_cases hjk : j = k
      · omega
      · exact h8 hu j hj1 (by omega) hc

/-- The scan of `get_position` over a stretch of tokens in which no close
parenthesis lacks its open one, the depth ends where the span began and no
identifier stands at depth zero keeps the invariant `split_inv`. -/
theorem get_position_loop_split (tokens : List Token) (p : Nat) (n k : Nat) (ret par : Int)
    (op_pre : Nat) (hpk : p ≤ k) (hpar : par = depth tokens k - depth tokens p)
    (hge : depth tokens p ≤ depth tokens k)
    (hbal : ∀ j, k ≤ j → j < k + n → depth tokens p ≤ depth tokens (j + 1))
    (hend : depth tokens (k + n) = depth tokens p)
    (hvar : ∀ j, k ≤ j → j < k + n → depth tokens j = depth tokens p →
      type_at tokens (j : Int) ≠ TK_VAR ∧ type_at tokens (j : Int) ≠ TK_NOTYPE)
    (hinv : split_inv tokens p k ret op_pre) :
    ∃ op, split_inv tokens p (k + n) (get_position_loop tokens n (k : Int) ret par op_pre) op := by
  induction n generalizing k ret par op_pre with
  | zero =>
    have hp0 : par = 0 := by
      simp only [Nat.add_zero] at hend
      omega
    simp only [get_position_loop, hp0, ne_eq, not_true_eq_false, if_false, Nat.add_zero]
    exact ⟨op_pre, hinv⟩
  | succ n ih =>
    have hcast : ((k : Int) + 1) = ((k + 1 : Nat) : Int) := by push_cast; rfl
    have hdep : depth tokens (k + 1) = depth tokens k + delta (type_at tokens (k : Int)) := rfl
    have hkn : k + (n + 1) = k + 1 + n := by omega
    have hb1 := hbal k (le_refl _) (by omega)
    have next : ∀ (ret1 par1 : Int) (op1 : Nat),
        par1 = par + delta (type_at tokens (k : Int)) →
        split_inv tokens p (k + 1) ret1 op1 →
        ∃ op, split_inv tokens p (k + (n + 1))
          (get_position_loop tokens n ((k + 1 : Nat) : Int) ret1 par1 op1) op := by
      intro ret1 par1 op1 hp1 hi1
      rw [hkn]
      exact ih (k + 1) ret1 par1 op1 (by omega) (by omega) hb1
        (fun j hj1 hj2 => hbal j (by omega) (by omega)) (by rw [← hkn]; exact hend)
        (fun j hj1 hj2 => hvar j (by omega) (by omega)) hi1
    simp only [get_position_loop, hcast]
    by_cases h1 : type_at tokens (k : Int) = LPAREN
    · have hnc : ¬ split_candidate tokens p k := by
        intro hc
        rw [split_candidate, h1] at hc
        exact hc.2 rfl
      simp only [h1, if_true]
      exact next ret (par + 1) op_pre (by simp [h1, delta]) (split_inv_skip _ _ _ _ _ hinv hnc)
    · simp only [h1, if_false]
      by_cases h2 : type_at tokens (k : Int) = RPAREN
      · have hnc : ¬ split_candidate tokens p k := by
          intro hc
          rw [split_candidate, h2] at hc
          exact hc.2 rfl
        have hd : delta (type_at tokens (k : Int)) = -1 := by simp [h2, delta]
        have hp0 : par ≠ 0 := by omega
        simp only [h2, if_true, hp0, if_false]
        exact next ret (par - 1) op_pre (by rw [hd]; omega)
          (split_inv_skip _ _ _ _ _ hinv hnc)
      · simp only [h2, if_false]
        have hd : delta (type_at tokens (k : Int)) = 0 := by simp [h1, h2, delta]
        by_cases h4 : type_from (type_at tokens (k : Int)) nop_types = true
        · have hnc : ¬ split_candidate tokens p k := by
            intro hc
            apply hc.2
            revert h4
            cases type_at tokens (k : Int) <;> simp [type_from, nop_types, precedence]
          simp only [h4, if_true]
          exact next ret par op_pre (by rw [hd]; omega) (split_inv_skip _ _ _ _ _ hinv hnc)
        · simp only [h4, if_false, Bool.false_eq_true]
          by_cases h5 : par > 0
          · have hnc : ¬ split_candidate tokens p k := by
              intro hc
              have := hc.1
              omega
            simp only [h5, if_true]
            exact next ret par op_pre (by rw [hd]; omega) (split_inv_skip _ _ _ _ _ hinv hnc)
          · simp only [h5, if_false]
            have hdk : depth tokens k = depth tokens p := by omega
            cases hprec : precedence (type_at tokens (k : Int)) with
            | none =>
              exfalso
              obtain ⟨hv1, hv2⟩ := hvar k (le_refl _) (by omega) hdk
              revert hprec h1 h2 h4 hv1 hv2
              cases type_at tokens (k : Int) <;> simp [type_from, nop_types, precedence]
            | some t =>
              have hc : split_candidate tokens p k := ⟨hdk, by rw [hprec]; simp⟩
              simp only []
              by_cases h6 : t > op_pre ∨
                  (t = op_pre ∧ (!type_from (type_at tokens (k : Int)) op_types) = true)
              · simp only [h6, if_true]
                refine next (k : Int) par t (by rw [hd]; omega)
                  (split_inv_accept _ _ _ _ _ _ hinv hpk hc hprec ?_)
                rcases h6 with h6 | ⟨h6, h7⟩
                · left; exact h6
                · right; exact ⟨h6, by simpa using h7⟩
              · simp only [h6, if_false]
                refine next ret par op_pre (by rw [hd]; omega)
                  (split_inv_reject _ _ _ _ _ _ hinv hprec ?_)
                intro hcon
                apply h6
                rcases hcon with hcon | ⟨hcon, h7⟩
                · left; exact hcon
                · right; exact ⟨hcon, by simpa using h7⟩

theorem make_token_no_notype (e : List Char) (tokens : List Token)
    (hlex : make_token e = .ok tokens) (j : Nat) (hj : j < tokens.length) :
    type_at tokens (j : Int) ≠ TK_NOTYPE := by
  have hall := make_token_loop_kinds (fun ty => ty ≠ TK_NOTYPE)
    (fun _ _ ty _ hty => ⟨hty, by revert hty; cases ty <;> simp [unary_of]⟩)
    _ e 0 [] tokens (fun t ht => by simp at ht) hlex
  rw [type_at_nat tokens j hj]
  exact hall _ (List.getElem_mem _)

/-! ## Chains of binary arithmetic operators: the lexer -/

theorem match_rules_arith (c : Char) (r : List Char)
    (hc : c = '+' ∨ c = '-' ∨ c = '*' ∨ c = '/') :
    match_rules rules (c :: r) = some (1, arith_type c) := by
  rcases hc with rfl | rfl | rfl | rfl
  · exact match_rules_plus r
  · exact match_rules_minus r
  · exact match_rules_star r
  · exact match_rules_slash r

theorem make_token_loop_arith (f : Nat) (c : Char) (r : List Char) (position : Nat)
    (tokens : List Token) (prev : TokenType) (hc : c = '+' ∨ c = '-' ∨ c = '*' ∨ c = '/')
    (hf : (c :: r).length < f) (hcap : tokens.length < 320)
    (hlast : last_type tokens = some prev) (hb : type_from prev bound_types = true) :
    make_token_loop f (c :: r) position tokens =
      make_token_loop f r (position + 1) (tokens ++ [⟨arith_type c, []⟩]) := by
  have h0 : (c :: r).head? ≠ some (Char.ofNat 0) := by
    rcases hc with rfl | rfl | rfl | rfl <;> simp
  rw [make_token_loop_step f _ position tokens _ _ hf h0 (match_rules_arith c r hc)]
  have h1 : ¬ (320 ≤ tokens.length) := by omega
  rcases hc with rfl | rfl | rfl | rfl <;> simp [record_token, h1, hlast, hb, arith_type]

theorem chain_rest_text_head (rest : List (Char × List Char))
    (hops : ∀ x ∈ rest, x.1 = '+' ∨ x.1 = '-' ∨ x.1 = '*' ∨ x.1 = '/') :
    ∀ c, (chain_rest_text rest).head? = some c → c.isDigit = false := by
  intro c hc
  cases rest with
  | nil => simp [chain_rest_text] at hc
  | cons x rest =>
    obtain ⟨d, n⟩ := x
    simp only [chain_rest_text, List.head?_cons, Option.some.injEq] at hc
    rw [← hc]
    rcases hops (d, n) (List.mem_cons_self _ _) with h | h | h | h <;>
      · simp only at h
        rw [h]
        decide

theorem make_token_loop_chain (f : Nat) (rest : List (Char × List Char)) (position : Nat)
    (tokens : List Token)
    (hops : ∀ x ∈ rest, x.1 = '+' ∨ x.1 = '-' ∨ x.1 = '*' ∨ x.1 = '/')
    (hlit : ∀ x ∈ rest, x.2 ≠ [] ∧ (∀ c ∈ x.2, c.isDigit = true) ∧ x.2.length < 32)
    (hf : (chain_rest_text rest).length < f) (hcap : tokens.length + 2 * rest.length ≤ 320)
    (hlast : last_type tokens = some TK_NUM) :
    make_token_loop f (chain_rest_text rest) position tokens =
      .ok (tokens ++ chain_rest_tokens rest) := by
  induction rest generalizing position tokens with
  | nil =>
    simp only [chain_rest_text, chain_rest_tokens, List.append_nil]
    exact make_token_loop_nil _ _ _ (by omega)
  | cons x rest ih =>
    obtain ⟨c, n⟩ := x
    have hc := hops (c, n) (List.mem_cons_self _ _)
    obtain ⟨hn0, hnd, hnl⟩ := hlit (c, n) (List.mem_cons_self _ _)
    simp only [List.length_cons] at hcap
    simp only [chain_rest_text, List.length_cons, List.length_append] at hf
    simp only [chain_rest_text, chain_rest_tokens]
    rw [make_token_loop_arith f c _ position tokens TK_NUM hc
      (by simp only [List.length_cons, List.length_append]; omega) (by omega) hlast (by decide)]
    rw [make_token_loop_num f n (chain_rest_text rest) _ _
      (by simp only [List.length_append]; omega) hn0 hnd
      (chain_rest_text_head rest (fun y hy => hops y (List.mem_cons_of_mem _ hy))) hnl
      (by simp only [List.length_append, List.length_singleton]; omega)]
    rw [ih _ _ (fun y hy => hops y (List.mem_cons_of_mem _ hy))
      (fun y hy => hlit y (List.mem_cons_of_mem _ hy)) (by omega)
      (by simp only [List.length_append, List.length_singleton]; omega)
      (by rw [last_type_append])]
    simp

theorem make_token_chain (n0 : List Char) (rest : List (Char × List Char))
    (hn0 : n0 ≠ []) (hnd : ∀ c ∈ n0, c.isDigit = true) (hnl : n0.length < 32)
    (hops : ∀ x ∈ rest, x.1 = '+' ∨ x.1 = '-' ∨ x.1 = '*' ∨ x.1 = '/')
    (hlit : ∀ x ∈ rest, x.2 ≠ [] ∧ (∀ c ∈ x.2, c.isDigit = true) ∧ x.2.length < 32)
    (hcap : 2 * rest.length + 1 ≤ 320) :
    make_token (chain_text n0 rest) = .ok (chain_tokens n0 rest) := by
  unfold make_token chain_text chain_tokens
  rw [make_token_loop_num _ n0 (chain_rest_text rest) 0 [] (by omega) hn0 hnd
    (chain_rest_text_head rest hops) hnl (by simp)]
  rw [make_token_loop_chain _ rest _ _ hops hlit (by simp only [List.length_append]; omega)
    (by simp only [List.nil_append, List.length_singleton]; omega) (by simp [last_type])]
  simp

/-! ## Chains of binary arithmetic operators: the split -/

theorem type_at_of_drop (tokens : List Token) (k : Nat) (t : Token) (rest : List Token)
    (h : tokens.drop k = t :: rest) : type_at tokens (k : Int) = t.type := by
  have hlt : k < tokens.length := by
    by_contra hge
    rw [List.drop_eq_nil_of_le (by omega)] at h
    cases h
  rw [type_at_nat tokens k hlt]
  rw [List.drop_eq_getElem_cons hlt] at h
  rw [(List.cons.inj h).1]

theorem drop_succ_of_drop (tokens : List Token) (k : Nat) (t : Token) (rest : List Token)
    (h : tokens.drop k = t :: rest) : tokens.drop (k + 1) = rest := by
  have hlt : k < tokens.length := by
    by_contra hge
    rw [List.drop_eq_nil_of_le (by omega)] at h
    cases h
  rw [List.drop_eq_getElem_cons hlt] at h
  exact (List.cons.inj h).2

/-- One step of the scan of `get_position` at `par = 0` on a numeric literal. -/
theorem get_position_loop_num (tokens : List Token) (n : Nat) (k : Nat) (ret : Int)
    (op_pre : Nat) (h : type_at tokens (k : Int) = TK_NUM) :
    get_position_loop tokens (n + 1) (k : Int) ret 0 op_pre =
      get_position_loop tokens n ((k + 1 : Nat) : Int) ret 0 op_pre := by
  have hcast : ((k : Int) + 1) = ((k + 1 : Nat) : Int) := by push_cast; rfl
  rw [get_position_loop, if_neg (by rw [h]; decide), if_neg (by rw [h]; decide),
    if_pos (by rw [h]; decide), hcast]

/-- One step of the scan of `get_position` at `par = 0` on an operator. -/
theorem get_position_loop_op (tokens : List Token) (n : Nat) (k : Nat) (ret : Int)
    (op_pre t : Nat) (h : precedence (type_at tokens (k : Int)) = some t) :
    get_position_loop tokens (n + 1) (k : Int) ret 0 op_pre =
      if t > op_pre ∨ (t = op_pre ∧ (!type_from (type_at tokens (k : Int)) op_types) = true) then
        get_position_loop tokens n ((k + 1 : Nat) : Int) (k : Int) 0 t
      else get_position_loop tokens n ((k + 1 : Nat) : Int) ret 0 op_pre := by
  have hcast : ((k : Int) + 1) = ((k + 1 : Nat) : Int) := by push_cast; rfl
  have h1 : type_at tokens (k : Int) ≠ LPAREN := by
    intro he; rw [he] at h; simp [precedence] at h
  have h2 : type_at tokens (k : Int) ≠ RPAREN := by
    intro he; rw [he] at h; simp [precedence] at h
  have h3 : type_from (type_at tokens (k : Int)) nop_types = false := by
    revert h
    cases type_at tokens (k : Int) <;> simp [type_from, nop_types, precedence]
  rw [get_position_loop, if_neg h1, if_neg h2, h3, if_neg (by simp), if_neg (by simp), h, hcast]

/-- A scan at `par = 0` over literals and operators that bind more strongly
than the chosen one keeps the choice. -/
theorem get_position_loop_stronger (tokens : List Token) (l post : List Token) (k : Nat)
    (ret : Int) (op_pre : Nat) (hd : tokens.drop k = l ++ post)
    (hl : ∀ t ∈ l, t.type = TK_NUM ∨ ∃ pt, precedence t.type = some pt ∧ pt < op_pre) :
    get_position_loop tokens l.length (k : Int) ret 0 op_pre = ret := by
  induction l generalizing k with
  | nil => simp [get_position_loop]
  | cons t l ih =>
    have hty := type_at_of_drop tokens k t (l ++ post) hd
    have hnext := ih (k + 1) (drop_succ_of_drop tokens k t (l ++ post) hd)
      (fun u hu => hl u (List.mem_cons_of_mem _ hu))
    simp only [List.length_cons]
    rcases hl t (List.mem_cons_self _ _) with h | ⟨pt, hp, hlt⟩
    · rw [get_position_loop_num tokens _ k ret op_pre (by rw [hty, h]), hnext]
    · rw [get_position_loop_op tokens _ k ret op_pre pt (by rw [hty, hp]),
        if_neg (by omega), hnext]

/-- A scan at `par = 0` over literals and operators: when a binary operator
binds at least as weakly as everything before it and weaker than everything
after it, it is the split. -/
theorem get_position_loop_rightmost (tokens : List Token) (l1 l2 post : List Token)
    (s : Token) (ps : Nat) (k : Nat) (ret : Int) (op_pre : Nat)
    (hd : tokens.drop k = l1 ++ s :: (l2 ++ post))
    (hs : precedence s.type = some ps) (hsu : type_from s.type op_types = false)
    (h0 : op_pre ≤ ps)
    (hl1 : ∀ t ∈ l1, t.type = TK_NUM ∨ ∃ pt, precedence t.type = some pt ∧ pt ≤ ps)
    (hl2 : ∀ t ∈ l2, t.type = TK_NUM ∨ ∃ pt, precedence t.type = some pt ∧ pt < ps) :
    get_position_loop tokens (l1.length + 1 + l2.length) (k : Int) ret 0 op_pre =
      ((k + l1.length : Nat) : Int) := by
  induction l1 generalizing k ret op_pre with
  | nil =>
    have hty := type_at_of_drop tokens k s (l2 ++ post) hd
    have hkeep := get_position_loop_stronger tokens l2 post (k + 1) (k : Int) ps
      (drop_succ_of_drop tokens k s (l2 ++ post) hd) hl2
    have e : ([] : List Token).length + 1 + l2.length = l2.length + 1 := by simp; omega
    rw [e, get_position_loop_op tokens _ k ret op_pre ps (by rw [hty, hs]),
      if_pos (by
        rw [hty, hsu]
        rcases Nat.lt_or_eq_of_le h0 with h | h
        · left; exact h
        · right; exact ⟨h.symm, rfl⟩), hkeep]
    simp
  | cons t l1 ih =>
    have hty := type_at_of_drop tokens k t (l1 ++ s :: (l2 ++ post)) hd
    have hdn := drop_succ_of_drop tokens k t (l1 ++ s :: (l2 ++ post)) hd
    have e : (t :: l1).length + 1 + l2.length = (l1.length + 1 + l2.length) + 1 := by
      simp only [List.length_cons]; omega
    have eres : ((k + 1 + l1.length : Nat) : Int) = ((k + (t :: l1).length : Nat) : Int) := by
      simp only [List.length_cons]
      push_cast
      omega
    have hl1n : ∀ u ∈ l1, u.type = TK_NUM ∨ ∃ pt, precedence u.type = some pt ∧ pt ≤ ps :=
      fun u hu => hl1 u (List.mem_cons_of_mem _ hu)
    rw [e]
    rcases hl1 t (List.mem_cons_self _ _) with h | ⟨pt, hp, hle⟩
    · rw [get_position_loop_num tokens _ k ret op_pre (by rw [hty, h]),
        ih (k + 1) ret op_pre hdn h0 hl1n, eres]
    · rw [get_position_loop_op tokens _ k ret op_pre pt (by rw [hty, hp])]
      split
      · rw [ih (k + 1) (k : Int) pt hdn hle hl1n, eres]
      · rw [ih (k + 1) ret op_pre hdn h0 hl1n, eres]

/-! ## Chains of binary arithmetic operators: the reference value -/

theorem spec_chain_pending (w : Nat) (s : Nat) (c : Char) (term : Nat)
    (r : List (Char × Nat)) (hr : ∀ x ∈ r, x.1 = '*' ∨ x.1 = '/') :
    spec_chain w (some (s, c)) term r =
      (spec_chain w none term r).bind (fun R => spec_binop w c s R) := by
  induction r generalizing term with
  | nil => simp [spec_chain, spec_combine]
  | cons x r ih =>
    obtain ⟨d, v⟩ := x
    have hd := hr (d, v) (List.mem_cons_self _ _)
    have ih1 := fun t => ih t (fun y hy => hr y (List.mem_cons_of_mem _ hy))
    simp only [spec_chain, hd, if_true]
    cases spec_binop w d term v with
    | none => rfl
    | some t => exact ih1 t

/-- The value of a chain split at an additive operator that is followed by
`*` and `/` only: the left part, then the right term, then the operator. -/
theorem spec_chain_split_add (w : Nat) (acc : Option (Nat × Char)) (term : Nat)
    (r1 r2 : List (Char × Nat)) (c : Char) (vb : Nat) (hc : c = '+' ∨ c = '-')
    (hr2 : ∀ x ∈ r2, x.1 = '*' ∨ x.1 = '/') :
    spec_chain w acc term (r1 ++ (c, vb) :: r2) =
      (spec_chain w acc term r1).bind (fun L =>
        (spec_chain w none vb r2).bind (fun R => spec_binop w c L R)) := by
  have hnm : ¬ (c = '*' ∨ c = '/') := by
    rcases hc with rfl | rfl <;> decide
  induction r1 generalizing acc term with
  | nil =>
    simp only [List.nil_append, spec_chain, hnm, if_false]
    cases spec_combine w acc term with
    | none => rfl
    | some s =>
      exact spec_chain_pending w s c vb r2 hr2
  | cons x r1 ih =>
    obtain ⟨d, v⟩ := x
    simp only [List.cons_append, spec_chain]
    split
    · cases spec_binop w d term v with
      | none => rfl
      | some t => exact ih acc t
    · cases spec_combine w acc term with
      | none => rfl
      | some s => exact ih (some (s, d)) v

/-- The value of a chain of `*` and `/` split at its last operator. -/
theorem spec_chain_split_mul (w : Nat) (term : Nat) (r1 : List (Char × Nat)) (c : Char)
    (vb : Nat) (hc : c = '*' ∨ c = '/') (hr1 : ∀ x ∈ r1, x.1 = '*' ∨ x.1 = '/') :
    spec_chain w none term (r1 ++ [(c, vb)]) =
      (spec_chain w none term r1).bind (fun L => spec_binop w c L vb) := by
  induction r1 generalizing term with
  | nil =>
    simp only [List.nil_append, spec_chain, hc, if_true, spec_combine]
    show (spec_binop w c term vb).bind (fun t => some t) = spec_binop w c term vb
    cases spec_binop w c term vb <;> rfl
  | cons x r1 ih =>
    obtain ⟨d, v⟩ := x
    have hd := hr1 (d, v) (List.mem_cons_self _ _)
    have ih1 := fun t => ih t (fun y hy => hr1 y (List.mem_cons_of_mem _ hy))
    simp only [List.cons_append, spec_chain, hd, if_true]
    cases spec_binop w d term v with
    | none => rfl
    | some t => exact ih1 t

/-- Every non-empty tail of a chain splits at its rightmost additive operator,
or, when it has none, at its last operator. -/
theorem chain_split (rest : List (Char × List Char)) (hne : rest ≠ [])
    (hops : ∀ x ∈ rest, x.1 = '+' ∨ x.1 = '-' ∨ x.1 = '*' ∨ x.1 = '/') :
    ∃ r1 c b r2, rest = r1 ++ (c, b) :: r2 ∧
      (((c = '+' ∨ c = '-') ∧ ∀ x ∈ r2, x.1 = '*' ∨ x.1 = '/') ∨
        ((c = '*' ∨ c = '/') ∧ r2 = [] ∧ ∀ x ∈ r1, x.1 = '*' ∨ x.1 = '/')) := by
  induction rest with
  | nil => exact absurd rfl hne
  | cons x rest ih =>
    obtain ⟨d, n⟩ := x
    have hd : d = '+' ∨ d = '-' ∨ d = '*' ∨ d = '/' := hops (d, n) (List.mem_cons_self _ _)
    by_cases hr : rest = []
    · subst hr
      refine ⟨[], d, n, [], rfl, ?_⟩
      rcases hd with h | h | h | h
      · left; exact ⟨Or.inl h, fun x hx => by simp at hx⟩
      · left; exact ⟨Or.inr h, fun x hx => by simp at hx⟩
      · right; exact ⟨Or.inl h, rfl, fun x hx => by simp at hx⟩
      · right; exact ⟨Or.inr h, rfl, fun x hx => by simp at hx⟩
    · obtain ⟨r1, c, b, r2, heq, hcase⟩ := ih hr (fun y hy => hops y (List.mem_cons_of_mem _ hy))
      rcases hcase with ⟨hc, h2⟩ | ⟨hc, h2, h1⟩
      · exact ⟨(d, n) :: r1, c, b, r2, by rw [heq]; rfl, Or.inl ⟨hc, h2⟩⟩
      · have hmul : ∀ (hm : d = '*' ∨ d = '/'), ∃ r1 c b r2, (d, n) :: rest = r1 ++ (c, b) :: r2 ∧
            (((c = '+' ∨ c = '-') ∧ ∀ x ∈ r2, x.1 = '*' ∨ x.1 = '/') ∨
              ((c = '*' ∨ c = '/') ∧ r2 = [] ∧ ∀ x ∈ r1, x.1 = '*' ∨ x.1 = '/')) := by
          intro hm
          refine ⟨(d, n) :: r1, c, b, r2, by rw [heq]; rfl, Or.inr ⟨hc, h2, ?_⟩⟩
          intro x hx
          rcases List.mem_cons.mp hx with rfl | hx
          · exact hm
          · exact h1 x hx
        have hadd : ∀ (ha : d = '+' ∨ d = '-'), ∃ r1 c b r2, (d, n) :: rest = r1 ++ (c, b) :: r2 ∧
            (((c = '+' ∨ c = '-') ∧ ∀ x ∈ r2, x.1 = '*' ∨ x.1 = '/') ∨
              ((c = '*' ∨ c = '/') ∧ r2 = [] ∧ ∀ x ∈ r1, x.1 = '*' ∨ x.1 = '/')) := by
          intro ha
          refine ⟨[], d, n, rest, rfl, Or.inl ⟨ha, ?_⟩⟩
          intro x hx
          rw [heq, h2] at hx
          rcases List.mem_append.mp hx with hx | hx
          · exact h1 x hx
          · simp only [List.mem_singleton] at hx
            rw [hx]
            exact hc
        rcases hd with h | h | h | h
        · exact hadd (Or.inl h)
        · exact hadd (Or.inr h)
        · exact hmul (Or.inl h)
        · exact hmul (Or.inr h)

/-- On the four arithmetic operators `calc2` computes the arithmetic of the
specification. -/
theorem calc2_of_spec_binop (w : Nat) (c : Char) (x y v : Nat)
    (hc : c = '+' ∨ c = '-' ∨ c = '*' ∨ c = '/') (h : spec_binop w c x y = some v) :
    calc2 w (arith_type c) x y true = some (v, true) := by
  rcases hc with rfl | rfl | rfl | rfl
  · simp [spec_binop] at h
    simp [arith_type, calc2, h]
  · simp [spec_binop] at h
    simp [arith_type, calc2, h]
  · simp [spec_binop] at h
    simp [arith_type, calc2, h]
  · simp only [spec_binop] at h
    simp only [arith_type, calc2]
    simp only [Char.reduceEq, if_false] at h ⊢
    split at h
    · cases h
    · split at h
      · cases h
      · rename_i h1 h2
        simp only [Option.some.injEq] at h
        simp only [h1, h2, if_false, h]

/-! ## Chains of binary arithmetic operators: the evaluation -/

theorem chain_rest_tokens_append (r1 r2 : List (Char × List Char)) (c : Char) (b : List Char) :
    chain_rest_tokens (r1 ++ (c, b) :: r2) =
      chain_rest_tokens r1 ++ ⟨arith_type c, []⟩ :: chain_tokens b r2 := by
  induction r1 with
  | nil => rfl
  | cons x r1 ih =>
    obtain ⟨d, n⟩ := x
    show (⟨arith_type d, []⟩ : Token) :: ⟨TK_NUM, n⟩ ::
      chain_rest_tokens (r1 ++ (c, b) :: r2) = _
    rw [ih]
    rfl

theorem chain_tokens_append (n0 : List Char) (r1 r2 : List (Char × List Char)) (c : Char)
    (b : List Char) :
    chain_tokens n0 (r1 ++ (c, b) :: r2) =
      chain_tokens n0 r1 ++ ⟨arith_type c, []⟩ :: chain_tokens b r2 := by
  simp only [chain_tokens, chain_rest_tokens_append, List.cons_append]

theorem chain_rest_tokens_length (r : List (Char × List Char)) :
    (chain_rest_tokens r).length = 2 * r.length := by
  induction r with
  | nil => rfl
  | cons x r ih =>
    obtain ⟨d, n⟩ := x
    simp only [chain_rest_tokens, List.length_cons, ih]
    omega

theorem chain_tokens_length (n0 : List Char) (r : List (Char × List Char)) :
    (chain_tokens n0 r).length = 2 * r.length + 1 := by
  simp only [chain_tokens, List.length_cons, chain_rest_tokens_length]

theorem chain_tokens_kinds (Q : Nat → Prop) (n0 : List Char) (r : List (Char × List Char))
    (h : ∀ x ∈ r, ∃ pt, precedence (arith_type x.1) = some pt ∧ Q pt) :
    ∀ t ∈ chain_tokens n0 r, t.type = TK_NUM ∨ ∃ pt, precedence t.type = some pt ∧ Q pt := by
  induction r generalizing n0 with
  | nil =>
    intro t ht
    simp only [chain_tokens, chain_rest_tokens, List.mem_singleton] at ht
    left; rw [ht]
  | cons x r ih =>
    obtain ⟨d, n⟩ := x
    intro t ht
    simp only [chain_tokens, chain_rest_tokens, List.mem_cons] at ht
    rcases ht with rfl | rfl | ht
    · left; rfl
    · right; exact h (d, n) (List.mem_cons_self _ _)
    · exact ih n (fun y hy => h y (List.mem_cons_of_mem _ hy)) t (by
        simp only [chain_tokens, List.mem_cons]
        exact ht)

theorem precedence_arith_add (c : Char) (hc : c = '+' ∨ c = '-') :
    precedence (arith_type c) = some 3 := by
  rcases hc with rfl | rfl <;> rfl

theorem precedence_arith_mul (c : Char) (hc : c = '*' ∨ c = '/') :
    precedence (arith_type c) = some 2 := by
  rcases hc with rfl | rfl <;> rfl

theorem arith_type_not_unary (c : Char) : type_from (arith_type c) op_types = false := by
  unfold arith_type
  split
  · rfl
  · split
    · rfl
    · split <;> rfl

section Evaluator

variable (w : Nat)
variable (isa_reg_str2val : List Char → Nat × Bool)
variable (vaddr_read : Nat → Nat → Nat)

/-- The evaluation of a span that holds a chain of valid literals and binary
arithmetic operators: it yields the reference value whenever that exists. -/
theorem eval_chain (m : Nat) (n0 : List Char) (rest : List (Char × List Char))
    (pre post tokens : List Token) (v : Nat) (hm : rest.length ≤ m)
    (hT : tokens = pre ++ (chain_tokens n0 rest ++ post))
    (hn0 : valid_literal w n0)
    (hops : ∀ x ∈ rest, x.1 = '+' ∨ x.1 = '-' ∨ x.1 = '*' ∨ x.1 = '/')
    (hlit : ∀ x ∈ rest, valid_literal w x.2)
    (hv : spec_chain w none (digits_value 10 n0) (chain_values rest) = some v) :
    eval w isa_reg_str2val vaddr_read tokens (pre.length : Int)
      ((pre.length + 2 * rest.length : Nat) : Int) = some (v, true) := by
  induction m generalizing n0 rest pre post v with
  | zero =>
    have hr : rest = [] := List.length_eq_zero.mp (by omega)
    subst hr
    have htok : token_at tokens (pre.length : Int) = ⟨TK_NUM, n0⟩ := by
      rw [hT]
      exact token_at_append_cons pre _ _
    simp only [chain_values, List.map_nil, spec_chain, spec_combine, Option.some.injEq] at hv
    rw [eval_unfold, if_neg (by simp), if_pos (by simp)]
    rw [eval_op_num w isa_reg_str2val _ _ true n0 htok hn0.2.1, min_long_max _ hn0.2.2.2.1,
      Nat.mod_eq_of_lt hn0.2.2.2.2, hv]
  | succ m ih =>
    by_cases hr : rest = []
    · subst hr
      have htok : token_at tokens (pre.length : Int) = ⟨TK_NUM, n0⟩ := by
        rw [hT]
        exact token_at_append_cons pre _ _
      simp only [chain_values, List.map_nil, spec_chain, spec_combine, Option.some.injEq] at hv
      rw [eval_unfold, if_neg (by simp), if_pos (by simp)]
      rw [eval_op_num w isa_reg_str2val _ _ true n0 htok hn0.2.1, min_long_max _ hn0.2.2.2.1,
        Nat.mod_eq_of_lt hn0.2.2.2.2, hv]
    · obtain ⟨r1, c, b, r2, heq, hcase⟩ := chain_split rest hr hops
      subst heq
      have hc : c = '+' ∨ c = '-' ∨ c = '*' ∨ c = '/' := hops (c, b) (by simp)
      have hb : valid_literal w b := hlit (c, b) (by simp)
      have hops1 : ∀ x ∈ r1, x.1 = '+' ∨ x.1 = '-' ∨ x.1 = '*' ∨ x.1 = '/' :=
        fun x hx => hops x (by simp [hx])
      have hops2 : ∀ x ∈ r2, x.1 = '+' ∨ x.1 = '-' ∨ x.1 = '*' ∨ x.1 = '/' :=
        fun x hx => hops x (by simp [hx])
      have hlit1 : ∀ x ∈ r1, valid_literal w x.2 := fun x hx => hlit x (by simp [hx])
      have hlit2 : ∀ x ∈ r2, valid_literal w x.2 := fun x hx => hlit x (by simp [hx])
      have hlen : (r1 ++ (c, b) :: r2).length = r1.length + r2.length + 1 := by
        simp only [List.length_append, List.length_cons]; omega
      rw [hlen] at hm
      -- the reference value splits at the same operator
      have hvals : chain_values (r1 ++ (c, b) :: r2) =
          chain_values r1 ++ (c, digits_value 10 b) :: chain_values r2 := by
        simp [chain_values]
      have hdec : (spec_chain w none (digits_value 10 n0) (chain_values r1)).bind (fun L =>
          (spec_chain w none (digits_value 10 b) (chain_values r2)).bind
            (fun R => spec_binop w c L R)) = some v := by
        rw [← hv, hvals]
        rcases hcase with ⟨hadd, h2⟩ | ⟨hmul, h2, h1⟩
        · exact (spec_chain_split_add w none _ _ _ c _ hadd (fun x hx => by
            simp only [chain_values, List.mem_map] at hx
            obtain ⟨y, hy, rfl⟩ := hx
            exact h2 y hy)).symm
        · subst h2
          simp only [chain_values, List.map_nil, spec_chain, spec_combine]
          exact (spec_chain_split_mul w _ _ c _ hmul (fun x hx => by
            simp only [List.mem_map] at hx
            obtain ⟨y, hy, rfl⟩ := hx
            exact h1 y hy)).symm
      obtain ⟨L, hL, hdec2⟩ : ∃ L, spec_chain w none (digits_value 10 n0) (chain_values r1)
          = some L ∧ (spec_chain w none (digits_value 10 b) (chain_values r2)).bind
            (fun R => spec_binop w c L R) = some v := by
        cases h : spec_chain w none (digits_value 10 n0) (chain_values r1) with
        | none => rw [h] at hdec; cases hdec
        | some L => rw [h] at hdec; exact ⟨L, rfl, hdec⟩
      obtain ⟨R, hR, hLR⟩ : ∃ R, spec_chain w none (digits_value 10 b) (chain_values r2)
          = some R ∧ spec_binop w c L R = some v := by
        cases h : spec_chain w none (digits_value 10 b) (chain_values r2) with
        | none => rw [h] at hdec2; cases hdec2
        | some R => rw [h] at hdec2; exact ⟨R, rfl, hdec2⟩
      -- the tokens around the operator
      have hT1 : tokens = pre ++ (chain_tokens n0 r1 ++
          ((⟨arith_type c, []⟩ : Token) :: (chain_tokens b r2 ++ post))) := by
        rw [hT, chain_tokens_append]
        simp
      have hT2 : tokens = (pre ++ (chain_tokens n0 r1 ++ [(⟨arith_type c, []⟩ : Token)])) ++
          (chain_tokens b r2 ++ post) := by
        rw [hT1]
        simp
      have hl1 := chain_tokens_length n0 r1
      have hl2 := chain_tokens_length b r2
      have hleft := ih n0 r1 pre ((⟨arith_type c, []⟩ : Token) :: (chain_tokens b r2 ++ post)) L
        (by omega) hT1 hn0 hops1 hlit1 hL
      have hright := ih b r2 (pre ++ (chain_tokens n0 r1 ++ [(⟨arith_type c, []⟩ : Token)]))
        post R (by omega) hT2 hb hops2 hlit2 hR
      have hplen : (pre ++ (chain_tokens n0 r1 ++ [(⟨arith_type c, []⟩ : Token)])).length =
          pre.length + 2 * r1.length + 2 := by
        simp only [List.length_append, List.length_singleton, hl1]
        omega
      rw [hplen] at hright
      -- the split
      obtain ⟨ps, hps, hle1, hlt2⟩ : ∃ ps, precedence (arith_type c) = some ps ∧
          (∀ x ∈ r1, ∃ pt, precedence (arith_type x.1) = some pt ∧ pt ≤ ps) ∧
          (∀ x ∈ r2, ∃ pt, precedence (arith_type x.1) = some pt ∧ pt < ps) := by
        rcases hcase with ⟨hadd, h2⟩ | ⟨hmul, h2, h1⟩
        · refine ⟨3, precedence_arith_add c hadd, ?_, ?_⟩
          · intro x hx
            rcases hops1 x hx with h | h | h | h
            · exact ⟨3, precedence_arith_add _ (Or.inl h), le_refl _⟩
            · exact ⟨3, precedence_arith_add _ (Or.inr h), le_refl _⟩
            · exact ⟨2, precedence_arith_mul _ (Or.inl h), by omega⟩
            · exact ⟨2, precedence_arith_mul _ (Or.inr h), by omega⟩
          · intro x hx
            exact ⟨2, precedence_arith_mul _ (h2 x hx), by omega⟩
        · refine ⟨2, precedence_arith_mul c hmul, ?_, ?_⟩
          · intro x hx
            exact ⟨2, precedence_arith_mul _ (h1 x hx), le_refl _⟩
          · intro x hx
            rw [h2] at hx
            simp at hx
      have hdrop : tokens.drop pre.length = chain_tokens n0 r1 ++
          ((⟨arith_type c, []⟩ : Token) :: (chain_tokens b r2 ++ post)) := by
        rw [hT1, List.drop_left]
      have hgp : get_position tokens (pre.length : Int)
          ((pre.length + 2 * (r1.length + r2.length + 1) : Nat) : Int) =
          ((pre.length + 2 * r1.length + 1 : Nat) : Int) := by
        unfold get_position
        have hn : (((pre.length + 2 * (r1.length + r2.length + 1) : Nat) : Int) + 1 -
            (pre.length : Int)).toNat =
            (chain_tokens n0 r1).length + 1 + (chain_tokens b r2).length := by
          rw [hl1, hl2]
          omega
        rw [hn, get_position_loop_rightmost tokens (chain_tokens n0 r1) (chain_tokens b r2) post
          ⟨arith_type c, []⟩ ps pre.length (-1) 0 hdrop hps (arith_type_not_unary c)
          (Nat.zero_le _) (chain_tokens_kinds (fun pt => pt ≤ ps) n0 r1 hle1)
          (chain_tokens_kinds (fun pt => pt < ps) b r2 hlt2), hl1]
        push_cast
        omega
      have hty : type_at tokens ((pre.length + 2 * r1.length + 1 : Nat) : Int) =
          arith_type c := by
        have : tokens.drop (pre.length + 2 * r1.length + 1) =
            (⟨arith_type c, []⟩ : Token) :: (chain_tokens b r2 ++ post) := by
          have e : pre.length + 2 * r1.length + 1 = (pre ++ chain_tokens n0 r1).length := by
            simp only [List.length_append, hl1]
            omega
          rw [e, hT1, ← List.append_assoc, List.drop_left]
        exact type_at_of_drop tokens _ _ _ this
      have htp : type_at tokens (pre.length : Int) = TK_NUM := by
        unfold type_at
        rw [hT]
        simp only [chain_tokens, List.cons_append]
        rw [token_at_append_cons]
      have hcp := check_parentheses_of_not_lparen tokens (pre.length : Int)
        ((pre.length + 2 * (r1.length + r2.length + 1) : Nat) : Int) (by rw [htp]; decide)
      rw [hlen, eval_unfold, if_neg (by push_cast; omega), if_neg (by push_cast; omega), hcp]
      simp only [Bool.false_eq_true, if_false]
      rw [hgp, if_neg (by omega)]
      have e1 : ((pre.length + 2 * r1.length + 1 : Nat) : Int) - 1 =
          ((pre.length + 2 * r1.length : Nat) : Int) := by push_cast; omega
      have e2 : ((pre.length + 2 * r1.length + 1 : Nat) : Int) + 1 =
          ((pre.length + 2 * r1.length + 2 : Nat) : Int) := by push_cast; omega
      have e3 : ((pre.length + 2 * (r1.length + r2.length + 1) : Nat) : Int) =
          ((pre.length + 2 * r1.length + 2 + 2 * r2.length : Nat) : Int) := by push_cast; omega
      rw [e1, e2, e3, hleft, hright, hty]
      simp only [Bool.not_true, Bool.false_eq_true, if_false, if_true]
      exact calc2_of_spec_binop w c L R v hc hLR

end Evaluator

/-! ## Propagation of failure -/

theorem eval_calls_fuel_empty (tokens : List Token) (n : Nat) (p q : Int) (h : p > q) :
    eval_calls_fuel tokens n p q = [(p, q)] := by
  cases n with
  | zero => rfl
  | succ n => simp [eval_calls_fuel, h]

/-- The list of the calls does not depend on the fuel once it covers the
length of the span. -/
theorem eval_calls_fuel_irrelevant (tokens : List Token) (f1 f2 : Nat) (p q : Int)
    (h1 : (q + 1 - p).toNat ≤ f1) (h2 : (q + 1 - p).toNat ≤ f2) :
    eval_calls_fuel tokens f1 p q = eval_calls_fuel tokens f2 p q := by
  induction f1 generalizing f2 p q with
  | zero =>
    have hpq : p > q := by omega
    cases f2 with
    | zero => rfl
    | succ m => simp [eval_calls_fuel, hpq]
  | succ n ih =>
    cases f2 with
    | zero =>
      have hpq : p > q := by omega
      simp [eval_calls_fuel, hpq]
    | succ m =>
      simp only [eval_calls_fuel]
      split
      · rfl
      · split
        · rfl
        · split
          · rw [ih m _ _ (by omega) (by omega)]
          · have hr := get_position_range tokens p q
            split
            · rfl
            · rw [ih m p (get_position tokens p q - 1) (by omega) (by omega)]
              rw [ih m (get_position tokens p q + 1) q (by omega) (by omega)]

/-- The calls of `eval(p, q)` follow the recursion of the C code: the call
itself, then the calls of the inner span of an enclosed span, or the calls of
the two sides of the split. -/
theorem eval_calls_unfold (tokens : List Token) (p q : Int) :
    eval_calls tokens p q =
      if p > q then [(p, q)]
      else if p = q then [(p, q)]
      else if check_parentheses tokens p q then (p, q) :: eval_calls tokens (p + 1) (q - 1)
      else
        if get_position tokens p q < 0 then [(p, q)]
        else
          (p, q) :: (eval_calls tokens p (get_position tokens p q - 1) ++
            eval_calls tokens (get_position tokens p q + 1) q) := by
  unfold eval_calls
  by_cases hpq : p > q
  · have : (q + 1 - p).toNat = 0 := by omega
    simp [this, eval_calls_fuel, hpq]
  · obtain ⟨n, hn⟩ : ∃ n, (q + 1 - p).toNat = n + 1 := ⟨(q + 1 - p).toNat - 1, by omega⟩
    rw [hn]
    simp only [eval_calls_fuel, hpq, if_false]
    split
    · rfl
    · split
      · rw [eval_calls_fuel_irrelevant tokens n (q - 1 + 1 - (p + 1)).toNat (p + 1) (q - 1)
          (by omega) (by omega)]
      · have hr := get_position_range tokens p q
        split
        · rfl
        · rw [eval_calls_fuel_irrelevant tokens n
            (get_position tokens p q - 1 + 1 - p).toNat p (get_position tokens p q - 1)
            (by omega) (by omega)]
          rw [eval_calls_fuel_irrelevant tokens n
            (q + 1 - (get_position tokens p q + 1)).toNat (get_position tokens p q + 1) q
            (by omega) (by omega)]

section Evaluator

variable (w : Nat)
variable (isa_reg_str2val : List Char → Nat × Bool)
variable (vaddr_read : Nat → Nat → Nat)

/-- On the tokens of a text, a split with a non-empty left span whose
evaluation fails makes the evaluation of the span fail, or leaves it undefined
together with its right span. -/
theorem eval_left_failure (e : List Char) (tokens : List Token)
    (hlex : make_token e = .ok tokens) (p q s : Int) (hp : 0 ≤ p)
    (hq : q < (tokens.length : Int)) (hs : get_position tokens p q = s) (hps : p < s)
    (v1 : Nat)
    (hleft : eval w isa_reg_str2val vaddr_read tokens p (s - 1) = some (v1, false)) :
    eval w isa_reg_str2val vaddr_read tokens p q = some (0, false) ∨
      (eval w isa_reg_str2val vaddr_read tokens (s + 1) q = none ∧
        eval w isa_reg_str2val vaddr_read tokens p q = none) := by
  have hr := get_position_range tokens p q
  rw [hs] at hr
  have hsq : s ≤ q := by omega
  have hcp : check_parentheses tokens p q = false := by
    cases hc : check_parentheses tokens p q with
    | false => rfl
    | true =>
      have := get_position_of_check_parentheses tokens p q hp (by omega) hc
      omega
  have hnu : type_from (type_at tokens s) op_types = false := by
    cases hu : type_from (type_at tokens s) op_types with
    | false => rfl
    | true =>
      have hb : type_from (type_at tokens (s - 1)) bound_types = true := by
        have := get_position_loop_unary tokens (q + 1 - p).toNat p (-1) 0 0 hp (le_refl _)
          (by omega) (by unfold get_position at hs; rw [hs]; exact hps)
          (by unfold get_position at hs; rw [hs]; exact hu)
        unfold get_position at hs
        rwa [hs] at this
      obtain ⟨k, hk⟩ : ∃ k : Nat, s - 1 = (k : Int) := ⟨(s - 1).toNat, by omega⟩
      rw [hk] at hb
      have := make_token_invariant e tokens hlex k (by omega) hb
      have e1 : (k : Int) + 1 = s := by omega
      rw [e1, hu] at this
      cases this
  rw [eval_unfold w isa_reg_str2val vaddr_read tokens p q]
  rw [if_neg (by omega), if_neg (by omega), hcp, hs]
  simp only [Bool.false_eq_true, if_false]
  rw [if_neg (by omega), hleft]
  cases hright : eval w isa_reg_str2val vaddr_read tokens (s + 1) q with
  | none => right; exact ⟨rfl, rfl⟩
  | some r =>
    obtain ⟨v2, ok2⟩ := r
    left
    cases ok2 with
    | false => simp
    | true => simp [calc1_not_unary w vaddr_read _ v2 true hnu]

/-- An evaluation whose right span fails or is undefined yields no successful
value. -/
theorem eval_right_failure (tokens : List Token) (p q : Int) (hpq : p < q)
    (hcp : check_parentheses tokens p q = false) (hs : 0 ≤ get_position tokens p q)
    (hright : (∃ v, eval w isa_reg_str2val vaddr_read tokens (get_position tokens p q + 1) q =
        some (v, false)) ∨
      eval w isa_reg_str2val vaddr_read tokens (get_position tokens p q + 1) q = none) :
    (∃ v, eval w isa_reg_str2val vaddr_read tokens p q = some (v, false)) ∨
      eval w isa_reg_str2val vaddr_read tokens p q = none := by
  rw [eval_unfold w isa_reg_str2val vaddr_read tokens p q]
  rw [if_neg (by omega), if_neg (by omega), hcp]
  simp only [Bool.false_eq_true, if_false]
  rw [if_neg (by omega)]
  cases hleft : eval w isa_reg_str2val vaddr_read tokens p (get_position tokens p q - 1) with
  | none => right; rfl
  | some l =>
    obtain ⟨v1, ok1⟩ := l
    rcases hright with ⟨v, hv⟩ | hn
    · rw [hv]
      left
      exact ⟨0, by simp⟩
    · rw [hn]
      right
      rfl

/-- Every failing call of `eval` on a non-empty span in the course of
`eval(p, q)` makes `eval(p, q)` fail, or leaves it undefined. -/
theorem eval_calls_failure (e : List Char) (tokens : List Token)
    (hlex : make_token e = .ok tokens) (n : Nat) (p q : Int) (hp : 0 ≤ p)
    (hq : q < (tokens.length : Int)) (hn : (q + 1 - p).toNat ≤ n) (c : Int × Int)
    (hc : c ∈ eval_calls_fuel tokens n p q) (hne : c.1 ≤ c.2)
    (hfail : (∃ v, eval w isa_reg_str2val vaddr_read tokens c.1 c.2 = some (v, false)) ∨
      eval w isa_reg_str2val vaddr_read tokens c.1 c.2 = none) :
    (∃ v, eval w isa_reg_str2val vaddr_read tokens p q = some (v, false)) ∨
      eval w isa_reg_str2val vaddr_read tokens p q = none := by
  induction n generalizing p q with
  | zero =>
    simp only [eval_calls_fuel, List.mem_singleton] at hc
    subst hc
    exact hfail
  | succ n ih =>
    simp only [eval_calls_fuel] at hc
    split at hc
    · simp only [List.mem_singleton] at hc
      subst hc
      exact hfail
    · split at hc
      · simp only [List.mem_singleton] at hc
        subst hc
        exact hfail
      · rename_i h1 h2
        have hpq : p < q := by omega
        split at hc
        · rename_i hcp
          rcases List.mem_cons.mp hc with rfl | hc
          · exact hfail
          · have := ih (p + 1) (q - 1) (by omega) (by omega) (by omega) hc
            rw [eval_unfold w isa_reg_str2val vaddr_read tokens p q]
            rw [if_neg h1, if_neg h2, if_pos hcp]
            exact this
        · rename_i hcp
          have hcp : check_parentheses tokens p q = false := by
            cases h : check_parentheses tokens p q with
            | false => rfl
            | true => exact absurd h hcp
          have hr := get_position_range tokens p q
          split at hc
          · simp only [List.mem_singleton] at hc
            subst hc
            exact hfail
          · rename_i hop
            rcases List.mem_cons.mp hc with rfl | hc
            · exact hfail
            · rcases List.mem_append.mp hc with hl | hrt
              · by_cases hsp : get_position tokens p q = p
                · rw [hsp, eval_calls_fuel_empty tokens n p (p - 1) (by omega)] at hl
                  simp only [List.mem_singleton] at hl
                  subst hl
                  simp only at hne
                  omega
                · have hleft := ih p (get_position tokens p q - 1) hp (by omega) (by omega) hl
                  rcases hleft with ⟨v1, hv1⟩ | hnone
                  · rcases eval_left_failure w isa_reg_str2val vaddr_read e tokens hlex p q _
                      hp hq rfl (by omega) v1 hv1 with h | ⟨_, h⟩
                    · exact Or.inl ⟨0, h⟩
                    · exact Or.inr h
                  · right
                    rw [eval_unfold w isa_reg_str2val vaddr_read tokens p q]
                    rw [if_neg h1, if_neg h2, hcp]
                    simp only [Bool.false_eq_true, if_false]
                    rw [if_neg hop, hnone]
              · have hright := ih (get_position tokens p q + 1) q (by omega) hq (by omega) hrt
                exact eval_right_failure w isa_reg_str2val vaddr_read tokens p q hpq hcp
                  (by omega) hright

end Evaluator

/-! ## The claims -/

/-- C1 (failing input). The text `4*(2+3)` is a well-formed arithmetic
expression whose value is 20, yet `expr` returns with the success flag
cleared: on the right operand `(2+3)`, the span of tokens 2 to 6,
`check_parentheses` counts from token 0 and answers `false`, and
`get_position` then finds no operator outside the parentheses. -/
theorem expr_parenthesized_right_operand_fails (w : Nat)
    (isa_reg_str2val : List Char → Nat × Bool) (vaddr_read : Nat → Nat → Nat) :
    make_token "4*(2+3)".toList =
        .ok [⟨TK_NUM, ['4']⟩, ⟨STAR, []⟩, ⟨LPAREN, []⟩, ⟨TK_NUM, ['2']⟩, ⟨PLUS, []⟩,
          ⟨TK_NUM, ['3']⟩, ⟨RPAREN, []⟩] ∧
      check_parentheses [⟨TK_NUM, ['4']⟩, ⟨STAR, []⟩, ⟨LPAREN, []⟩, ⟨TK_NUM, ['2']⟩,
          ⟨PLUS, []⟩, ⟨TK_NUM, ['3']⟩, ⟨RPAREN, []⟩] 2 6 = false ∧
      expr w isa_reg_str2val vaddr_read "4*(2+3)".toList = some (0, false) :=
  ⟨by decide, by decide, rfl⟩

/-- C2 (failing input). The text `(2)+(3)` does not evaluate to 5: `expr`
returns with the success flag cleared, because on the second group, the span
of tokens 4 to 6, `check_parentheses` counts from token 0 and answers
`false`. -/
theorem expr_adjacent_groups_fails (w : Nat) (isa_reg_str2val : List Char → Nat × Bool)
    (vaddr_read : Nat → Nat → Nat) :
    check_parentheses [⟨LPAREN, []⟩, ⟨TK_NUM, ['2']⟩, ⟨RPAREN, []⟩, ⟨PLUS, []⟩, ⟨LPAREN, []⟩,
        ⟨TK_NUM, ['3']⟩, ⟨RPAREN, []⟩] 4 6 = false ∧
      expr w isa_reg_str2val vaddr_read "(2)+(3)".toList = some (0, false) :=
  ⟨by decide, rfl⟩

/-- C3. Division by zero fails: `calc2` with the operator `'/'` and the
divisor 0 clears the success flag for every dividend, and for every decimal
literal `a` (of at most 31 digits, the capacity of a token) `expr` on the text
`a/0` returns with the success flag cleared. -/
theorem expr_division_by_zero_fails (w : Nat) (isa_reg_str2val : List Char → Nat × Bool)
    (vaddr_read : Nat → Nat → Nat) (a : List Char) (hne : a ≠ [])
    (ha : ∀ c ∈ a, c.isDigit = true) (hlen : a.length < 32) :
    (∀ v success, calc2 w SLASH v 0 success = some (0, false)) ∧
      expr w isa_reg_str2val vaddr_read (a ++ ['/', '0']) = some (0, false) := by
  constructor
  · intro v success
    simp [calc2]
  · have hlex : make_token (a ++ ['/', '0']) =
        .ok [⟨TK_NUM, a⟩, ⟨SLASH, []⟩, ⟨TK_NUM, ['0']⟩] := by
      unfold make_token
      rw [make_token_loop_num _ a ['/', '0'] 0 [] (by simp) hne ha (by simp) hlen
        (by simp)]
      rw [make_token_loop_slash _ ['0'] _ _ (by simp) (by simp)]
      have := make_token_loop_num ((a ++ ['/', '0']).length + 1) ['0'] [] (0 + a.length + 1)
        ([] ++ [⟨TK_NUM, a⟩] ++ [⟨SLASH, []⟩]) (by simp) (by simp) (by simp) (by simp)
        (by simp) (by simp)
      simp only [List.append_nil] at this
      rw [this]
      rw [make_token_loop_nil _ _ _ (by simp)]
      simp
    have hz : min (digits_value 10 ['0']) LONG_MAX % 2 ^ w = 0 := by
      simp [digits_value, digit_value]
    have hev := eval_binary w isa_reg_str2val vaddr_read a ['0'] SLASH 2 ha (by simp) rfl
      (by decide) (by decide) (by decide)
    rw [hz] at hev
    simp only [expr, hlex]
    exact hev.trans (by simp [calc2])

/-- C3 (witness). The text `5/0`. -/
theorem expr_division_by_zero_fails_witness :
    expr 64 (fun _ => (0, false)) (fun _ _ => 0) "5/0".toList = some (0, false) :=
  (expr_division_by_zero_fails 64 (fun _ => (0, false)) (fun _ _ => 0) ['5'] (by decide)
    (by decide) (by decide)).2

/-- C4. Unbalanced parentheses always fail: when the text is tokenized and the
parentheses of its token sequence are not balanced (a close parenthesis
without a matching open, or an open parenthesis never closed), `expr` returns
with the success flag cleared. -/
theorem expr_unbalanced_fails (w : Nat) (isa_reg_str2val : List Char → Nat × Bool)
    (vaddr_read : Nat → Nat → Nat) (e : List Char) (tokens : List Token)
    (hlex : make_token e = .ok tokens) (hub : balanced tokens = false) :
    expr w isa_reg_str2val vaddr_read e = some (0, false) := by
  simp only [expr, hlex]
  rw [eval_unfold]
  by_cases h1 : (0 : Int) > (tokens.length : Int) - 1
  · rw [if_pos h1]
  · rw [if_neg h1]
    by_cases h2 : (0 : Int) = (tokens.length : Int) - 1
    · rw [if_pos h2]
      have hlen : tokens.length = 1 := by omega
      match tokens, hlen with
      | [t], _ =>
        have hty : (token_at [t] 0).type = t.type := by simp [token_at]
        simp only [balanced, balanced_from] at hub
        simp only [eval_op, hty]
        by_cases h3 : t.type = LPAREN
        · simp [h3]
        · by_cases h4 : t.type = RPAREN
          · simp [h4]
          · simp [h3, h4] at hub
    · rw [if_neg h2]
      have hlen : 2 ≤ tokens.length := by omega
      have hcp : check_parentheses tokens 0 ((tokens.length : Int) - 1) = false := by
        cases hc : check_parentheses tokens 0 ((tokens.length : Int) - 1) with
        | false => rfl
        | true =>
          have := check_parentheses_balanced tokens hlen hc
          rw [this] at hub
          cases hub
      have hgp : get_position tokens 0 ((tokens.length : Int) - 1) = -1 := by
        unfold get_position
        have hn : ((tokens.length : Int) - 1 + 1 - 0).toNat = tokens.length := by omega
        rw [hn]
        exact get_position_loop_unbalanced tokens tokens.length 0 0 (-1) 0 0 (by omega) rfl
          (by simpa [balanced] using hub)
      simp [hcp, hgp]

/-- C4 (witness). The texts `(2+3` and `2+3)`. -/
theorem expr_unbalanced_fails_witness :
    expr 64 (fun _ => (0, false)) (fun _ _ => 0) "(2+3".toList = some (0, false) ∧
      expr 64 (fun _ => (0, false)) (fun _ _ => 0) "2+3)".toList = some (0, false) :=
  ⟨expr_unbalanced_fails 64 _ _ "(2+3".toList
      [⟨LPAREN, []⟩, ⟨TK_NUM, ['2']⟩, ⟨PLUS, []⟩, ⟨TK_NUM, ['3']⟩] (by decide) (by decide),
    expr_unbalanced_fails 64 _ _ "2+3)".toList
      [⟨TK_NUM, ['2']⟩, ⟨PLUS, []⟩, ⟨TK_NUM, ['3']⟩, ⟨RPAREN, []⟩] (by decide) (by decide)⟩

/-- C5 (counterexample). The text `--9223372036854775808` does not evaluate to
9223372036854775808: `strtol` clamps the literal to `LONG_MAX`, so the value is
9223372036854775807 for a 64-bit word and 4294967295 (not 0) for a 32-bit
word. -/
theorem expr_sign_chain_counterexample :
    expr 64 (fun _ => (0, false)) (fun _ _ => 0) "--9223372036854775808".toList
        = some (9223372036854775807, true) ∧
      9223372036854775807 ≠ 9223372036854775808 % 2 ^ 64 ∧
      expr 32 (fun _ => (0, false)) (fun _ _ => 0) "--9223372036854775808".toList
        = some (4294967295, true) ∧
      4294967295 ≠ 9223372036854775808 % 2 ^ 32 := by
  decide

/-- C5 (amended). For every decimal literal `n` of at most 31 digits whose
value does not exceed `LONG_MAX` and every string `s` of at most 319 characters
`'+'` and `'-'`, the text `s` followed by `n` evaluates successfully, to
`n mod 2^w` when `s` holds an even number of `'-'` and to `(-n) mod 2^w`
otherwise. -/
theorem expr_sign_chain (w : Nat) (isa_reg_str2val : List Char → Nat × Bool)
    (vaddr_read : Nat → Nat → Nat) (s n : List Char)
    (hs : ∀ c ∈ s, c = '+' ∨ c = '-') (hcap : s.length < 320) (hne : n ≠ [])
    (hn : ∀ c ∈ n, c.isDigit = true) (hlen : n.length < 32)
    (hval : digits_value 10 n ≤ LONG_MAX) :
    expr w isa_reg_str2val vaddr_read (s ++ n) =
      some (if s.count '-' % 2 = 0 then digits_value 10 n % 2 ^ w
        else (-(digits_value 10 n : Int) % (2 : Int) ^ w).toNat, true) := by
  have hlex : make_token (s ++ n) = .ok (sign_tokens s ++ [⟨TK_NUM, n⟩]) := by
    unfold make_token
    have := make_token_loop_signs ((s ++ n).length + 1) s n 0 [] hs hne hn hlen (by omega)
      (by simpa using hcap) (fun prev hp => by simp [last_type] at hp)
    simpa using this
  have hev := eval_signs w isa_reg_str2val vaddr_read s n (sign_tokens s ++ [⟨TK_NUM, n⟩]) []
    hs hn rfl
  simp only [expr, hlex]
  rw [show ((0 : Int)) = (([] : List Token).length : Int) from rfl, hev,
    sign_value_eq w s _ (Nat.mod_lt _ (by positivity)), min_long_max _ hval, to_word_neg_mod]
  rfl

/-- C5 (witness). The texts `--3` and `-+3` on a 64-bit word. -/
theorem expr_sign_chain_witness :
    expr 64 (fun _ => (0, false)) (fun _ _ => 0) "--3".toList = some (3, true) ∧
      expr 64 (fun _ => (0, false)) (fun _ _ => 0) "-+3".toList
        = some (18446744073709551613, true) :=
  ⟨expr_sign_chain 64 (fun _ => (0, false)) (fun _ _ => 0) ['-', '-'] ['3'] (by decide)
      (by decide) (by decide) (by decide) (by decide) (by decide),
    expr_sign_chain 64 (fun _ => (0, false)) (fun _ _ => 0) ['-', '+'] ['3'] (by decide)
      (by decide) (by decide) (by decide) (by decide) (by decide)⟩

/-- C6 (counterexample). The text `-9223372036854775808+0` does not evaluate
to `(-9223372036854775808 + 0) mod 2^w`: `strtol` clamps the literal to
`LONG_MAX` before it is negated. -/
theorem expr_leading_minus_counterexample :
    expr 64 (fun _ => (0, false)) (fun _ _ => 0) "-9223372036854775808+0".toList
        = some (9223372036854775809, true) ∧
      9223372036854775809 ≠ ((-(9223372036854775808 : Int) + 0) % (2 : Int) ^ 64).toNat ∧
      expr 32 (fun _ => (0, false)) (fun _ _ => 0) "-9223372036854775808+0".toList
        = some (1, true) ∧
      1 ≠ ((-(9223372036854775808 : Int) + 0) % (2 : Int) ^ 32).toNat := by
  decide

/-- C6 (amended). For all decimal literals `a` and `b` of at most 31 digits
whose values do not exceed `LONG_MAX`, the text `-a+b` evaluates successfully
to `((-a) + b) mod 2^w`: the leading minus applies to `a` alone. -/
theorem expr_leading_minus (w : Nat) (isa_reg_str2val : List Char → Nat × Bool)
    (vaddr_read : Nat → Nat → Nat) (a b : List Char) (ha0 : a ≠ [])
    (ha : ∀ c ∈ a, c.isDigit = true) (hla : a.length < 32)
    (hva : digits_value 10 a ≤ LONG_MAX) (hb0 : b ≠ [])
    (hb : ∀ c ∈ b, c.isDigit = true) (hlb : b.length < 32)
    (hvb : digits_value 10 b ≤ LONG_MAX) :
    expr w isa_reg_str2val vaddr_read ('-' :: a ++ '+' :: b) =
      some (((-(digits_value 10 a : Int) + (digits_value 10 b : Int)) % (2 : Int) ^ w).toNat,
        true) := by
  have hlex : make_token ('-' :: a ++ '+' :: b) =
      .ok [⟨TK_NEG, []⟩, ⟨TK_NUM, a⟩, ⟨PLUS, []⟩, ⟨TK_NUM, b⟩] := by
    unfold make_token
    rw [List.cons_append, make_token_loop_sign_unary _ '-' (a ++ '+' :: b) 0 [] (Or.inr rfl)
      (by simp) (by simp) (fun prev hp => by simp [last_type] at hp)]
    rw [make_token_loop_num _ a ('+' :: b) _ _ (by simp; omega) ha0 ha (by simp) hla (by simp)]
    rw [make_token_loop_sign_binary _ '+' b _ _ TK_NUM (Or.inl rfl) (by simp; omega) (by simp)
      (by simp [last_type]) (by decide)]
    have := make_token_loop_num (('-' :: (a ++ '+' :: b)).length + 1) b [] (0 + 1 + a.length + 1)
      ([] ++ [⟨if '-' = '-' then TK_NEG else TK_POS, []⟩] ++ [⟨TK_NUM, a⟩] ++
        [⟨if '+' = '-' then MINUS else PLUS, []⟩]) (by simp; omega) hb0 hb (by simp) hlb
      (by simp)
    rw [List.append_nil] at this
    rw [this, make_token_loop_nil _ _ _ (by simp)]
    simp
  have e1 := eval_op_num w isa_reg_str2val
    [⟨TK_NEG, []⟩, ⟨TK_NUM, a⟩, ⟨PLUS, []⟩, ⟨TK_NUM, b⟩] 1 true a (by simp [token_at]) ha
  have e3 := eval_op_num w isa_reg_str2val
    [⟨TK_NEG, []⟩, ⟨TK_NUM, a⟩, ⟨PLUS, []⟩, ⟨TK_NUM, b⟩] 3 true b (by simp [token_at]) hb
  rw [min_long_max _ hva] at e1
  rw [min_long_max _ hvb] at e3
  have hval : (to_word w (-((digits_value 10 a % 2 ^ w : Nat) : Int)) +
      digits_value 10 b % 2 ^ w) % 2 ^ w =
      ((-(digits_value 10 a : Int) + (digits_value 10 b : Int)) % (2 : Int) ^ w).toNat := by
    rw [to_word_neg_mod]
    have hc : (((to_word w (-(digits_value 10 a : Int)) + digits_value 10 b % 2 ^ w) % 2 ^ w
        : Nat) : Int) =
        (-(digits_value 10 a : Int) + (digits_value 10 b : Int)) % (2 : Int) ^ w := by
      push_cast
      rw [to_word_cast]
      exact (Int.mod_modEq _ _).add (Int.mod_modEq _ _)
    rw [← hc]
    exact (Int.toNat_ofNat _).symm
  simp only [expr, hlex]
  rw [← hval]
  simp [eval, eval_fuel, check_parentheses, get_position, get_position_loop, type_at, token_at,
    type_from, nop_types, op_types, precedence, e1, e3, calc1, calc2]

/-- C6 (witness). The text `-3+4`. -/
theorem expr_leading_minus_witness :
    expr 64 (fun _ => (0, false)) (fun _ _ => 0) "-3+4".toList = some (1, true) :=
  expr_leading_minus 64 (fun _ => (0, false)) (fun _ _ => 0) ['3'] ['4'] (by decide) (by decide)
    (by decide) (by decide) (by decide) (by decide) (by decide) (by decide)

/-- C7 (failing input). The text `3!=3` does not evaluate to 0: `expr` returns
with the success flag cleared, because `calc2` has no case for `TK_NEQ` (the
comparison `val1 != val2` stands under `case TK_NEG`) and clears the flag for
every pair of operands. -/
theorem expr_not_equal_fails (w : Nat) (isa_reg_str2val : List Char → Nat × Bool)
    (vaddr_read : Nat → Nat → Nat) :
    (∀ val1 val2 success, calc2 w TK_NEQ val1 val2 success = some (0, false)) ∧
      make_token "3!=3".toList = .ok [⟨TK_NUM, ['3']⟩, ⟨TK_NEQ, []⟩, ⟨TK_NUM, ['3']⟩] ∧
      expr w isa_reg_str2val vaddr_read "3!=3".toList = some (0, false) ∧
      expr w isa_reg_str2val vaddr_read "3!=4".toList = some (0, false) :=
  ⟨fun _ _ _ => rfl, by decide, rfl, rfl⟩

/-- C8 (counterexample). The text `9223372036854775808==9223372036854775807`
evaluates to 1 although the two literals differ: `strtol` clamps the first to
`LONG_MAX`. -/
theorem expr_equal_counterexample :
    expr 64 (fun _ => (0, false)) (fun _ _ => 0)
        "9223372036854775808==9223372036854775807".toList = some (1, true) ∧
      expr 32 (fun _ => (0, false)) (fun _ _ => 0)
        "9223372036854775808==9223372036854775807".toList = some (1, true) ∧
      (9223372036854775808 : Nat) ≠ 9223372036854775807 := by
  decide

/-- C8 (amended). For all decimal literals `a` and `b` of at most 31 digits
whose values fit in a word and do not exceed `LONG_MAX`, the texts `a==b`,
`a&&b` and `a||b` evaluate successfully to 0 or 1: `a==b` to 1 exactly when
`a = b`, `a&&b` to 1 exactly when both are non-zero, `a||b` to 1 exactly when
one of them is non-zero. -/
theorem expr_equal_and_or (w : Nat) (isa_reg_str2val : List Char → Nat × Bool)
    (vaddr_read : Nat → Nat → Nat) (a b : List Char) (ha0 : a ≠ [])
    (ha : ∀ c ∈ a, c.isDigit = true) (hla : a.length < 32)
    (hva : digits_value 10 a ≤ LONG_MAX) (hwa : digits_value 10 a < 2 ^ w) (hb0 : b ≠ [])
    (hb : ∀ c ∈ b, c.isDigit = true) (hlb : b.length < 32)
    (hvb : digits_value 10 b ≤ LONG_MAX) (hwb : digits_value 10 b < 2 ^ w) :
    expr w isa_reg_str2val vaddr_read (a ++ '=' :: '=' :: b) =
        some (if digits_value 10 a = digits_value 10 b then 1 else 0, true) ∧
      expr w isa_reg_str2val vaddr_read (a ++ '&' :: '&' :: b) =
        some (if digits_value 10 a ≠ 0 ∧ digits_value 10 b ≠ 0 then 1 else 0, true) ∧
      expr w isa_reg_str2val vaddr_read (a ++ '|' :: '|' :: b) =
        some (if digits_value 10 a ≠ 0 ∨ digits_value 10 b ≠ 0 then 1 else 0, true) := by
  have hA : min (digits_value 10 a) LONG_MAX % 2 ^ w = digits_value 10 a := by
    rw [min_long_max _ hva, Nat.mod_eq_of_lt hwa]
  have hB : min (digits_value 10 b) LONG_MAX % 2 ^ w = digits_value 10 b := by
    rw [min_long_max _ hvb, Nat.mod_eq_of_lt hwb]
  refine ⟨?_, ?_, ?_⟩
  · have hlex := make_token_binary2 a b '=' '=' TK_EQ ha0 ha hla hb0 hb hlb (by decide)
      (by decide) match_rules_eq (by decide) (by decide) (by decide) (by decide) (by decide)
      (by decide)
    have hev := eval_binary w isa_reg_str2val vaddr_read a b TK_EQ 5 ha hb rfl (by decide)
      (by decide) (by decide)
    rw [hA, hB] at hev
    simp only [expr, hlex]
    exact hev
  · have hlex := make_token_binary2 a b '&' '&' TK_AND ha0 ha hla hb0 hb hlb (by decide)
      (by decide) match_rules_and (by decide) (by decide) (by decide) (by decide) (by decide)
      (by decide)
    have hev := eval_binary w isa_reg_str2val vaddr_read a b TK_AND 6 ha hb rfl (by decide)
      (by decide) (by decide)
    rw [hA, hB] at hev
    simp only [expr, hlex]
    exact hev
  · have hlex := make_token_binary2 a b '|' '|' TK_OR ha0 ha hla hb0 hb hlb (by decide)
      (by decide) match_rules_or (by decide) (by decide) (by decide) (by decide) (by decide)
      (by decide)
    have hev := eval_binary w isa_reg_str2val vaddr_read a b TK_OR 7 ha hb rfl (by decide)
      (by decide) (by decide)
    rw [hA, hB] at hev
    simp only [expr, hlex]
    exact hev

/-- C8 (witness). The texts `3==3`, `1&&0` and `1||0`. -/
theorem expr_equal_and_or_witness :
    expr 64 (fun _ => (0, false)) (fun _ _ => 0) "3==3".toList = some (1, true) ∧
      expr 64 (fun _ => (0, false)) (fun _ _ => 0) "1&&0".toList = some (0, true) ∧
      expr 64 (fun _ => (0, false)) (fun _ _ => 0) "1||0".toList = some (1, true) :=
  ⟨(expr_equal_and_or 64 (fun _ => (0, false)) (fun _ _ => 0) ['3'] ['3'] (by decide)
      (by decide) (by decide) (by decide) (by decide) (by decide) (by decide) (by decide)
      (by decide) (by decide)).1,
    (expr_equal_and_or 64 (fun _ => (0, false)) (fun _ _ => 0) ['1'] ['0'] (by decide)
      (by decide) (by decide) (by decide) (by decide) (by decide) (by decide) (by decide)
      (by decide) (by decide)).2.1,
    (expr_equal_and_or 64 (fun _ => (0, false)) (fun _ _ => 0) ['1'] ['0'] (by decide)
      (by decide) (by decide) (by decide) (by decide) (by decide) (by decide) (by decide)
      (by decide) (by decide)).2.2⟩

/-- C9. Failure of a sub-evaluation is never masked.  On the token sequence of
any text and any span `p .. q` of it:
(1) when `get_position` returns a split `s` with a non-empty left span
(`p < s`) and the evaluation of the left span `p .. s - 1` fails, `eval p q`
yields no successful value: it fails, unless the evaluation of the right span
is undefined (a signed division overflow);
(2) so when the unary branch of `eval` (left failed) yields a successful
result, the left span is empty: the split is at `p`;
(3) every call of `eval` on a non-empty span made in the course of `eval p q`
(`eval_calls`) that fails or is undefined makes `eval p q` fail or be
undefined;
(4) in particular a leaf failure (`eval_op` clears the flag on a single
token), (5) a split failure (`get_position` finds no split on a span of
several tokens that is not enclosed) and (6) an operator failure (`calc2` or
`calc1` clears the flag on operands that were evaluated, the right one
successfully) at any call made in the course of `eval p q` leave `eval p q`
without a successful value;
(7) the same holds of `expr`: a failing call on a non-empty span inside the
evaluation of the whole token sequence makes `expr` fail or be undefined. -/
theorem eval_failure_not_masked (w : Nat) (isa_reg_str2val : List Char → Nat × Bool)
    (vaddr_read : Nat → Nat → Nat) (e : List Char) (tokens : List Token)
    (hlex : make_token e = .ok tokens) (p q : Int) (hp : 0 ≤ p)
    (hq : q < (tokens.length : Int)) :
    (∀ (s : Int) (v1 : Nat), get_position tokens p q = s → p < s →
      eval w isa_reg_str2val vaddr_read tokens p (s - 1) = some (v1, false) →
      eval w isa_reg_str2val vaddr_read tokens p q = some (0, false) ∨
        (eval w isa_reg_str2val vaddr_read tokens (s + 1) q = none ∧
          eval w isa_reg_str2val vaddr_read tokens p q = none)) ∧
    (∀ v v1 : Nat, p < q → check_parentheses tokens p q = false →
      0 ≤ get_position tokens p q →
      eval w isa_reg_str2val vaddr_read tokens p (get_position tokens p q - 1) =
        some (v1, false) →
      eval w isa_reg_str2val vaddr_read tokens p q = some (v, true) →
      get_position tokens p q = p) ∧
    (∀ c ∈ eval_calls tokens p q, c.1 ≤ c.2 →
      ((∃ v, eval w isa_reg_str2val vaddr_read tokens c.1 c.2 = some (v, false)) ∨
        eval w isa_reg_str2val vaddr_read tokens c.1 c.2 = none) →
      ((∃ v, eval w isa_reg_str2val vaddr_read tokens p q = some (v, false)) ∨
        eval w isa_reg_str2val vaddr_read tokens p q = none)) ∧
    (∀ c ∈ eval_calls tokens p q, c.1 = c.2 →
      (eval_op w isa_reg_str2val tokens c.1 true).2 = false →
      ((∃ v, eval w isa_reg_str2val vaddr_read tokens p q = some (v, false)) ∨
        eval w isa_reg_str2val vaddr_read tokens p q = none)) ∧
    (∀ c ∈ eval_calls tokens p q, c.1 < c.2 → check_parentheses tokens c.1 c.2 = false →
      get_position tokens c.1 c.2 < 0 →
      ((∃ v, eval w isa_reg_str2val vaddr_read tokens p q = some (v, false)) ∨
        eval w isa_reg_str2val vaddr_read tokens p q = none)) ∧
    (∀ c ∈ eval_calls tokens p q, c.1 < c.2 → check_parentheses tokens c.1 c.2 = false →
      0 ≤ get_position tokens c.1 c.2 →
      ∀ (v1 : Nat) (ok1 : Bool) (v2 r : Nat),
      eval w isa_reg_str2val vaddr_read tokens c.1 (get_position tokens c.1 c.2 - 1) =
        some (v1, ok1) →
      eval w isa_reg_str2val vaddr_read tokens (get_position tokens c.1 c.2 + 1) c.2 =
        some (v2, true) →
      (if ok1 then calc2 w (type_at tokens (get_position tokens c.1 c.2)) v1 v2 true
        else some (calc1 w vaddr_read (type_at tokens (get_position tokens c.1 c.2)) v2 true)) =
        some (r, false) →
      ((∃ v, eval w isa_reg_str2val vaddr_read tokens p q = some (v, false)) ∨
        eval w isa_reg_str2val vaddr_read tokens p q = none)) ∧
    (∀ c ∈ eval_calls tokens 0 ((tokens.length : Int) - 1), c.1 ≤ c.2 →
      ((∃ v, eval w isa_reg_str2val vaddr_read tokens c.1 c.2 = some (v, false)) ∨
        eval w isa_reg_str2val vaddr_read tokens c.1 c.2 = none) →
      ((∃ v, expr w isa_reg_str2val vaddr_read e = some (v, false)) ∨
        expr w isa_reg_str2val vaddr_read e = none)) := by
  have hall : ∀ c ∈ eval_calls tokens p q, c.1 ≤ c.2 →
      ((∃ v, eval w isa_reg_str2val vaddr_read tokens c.1 c.2 = some (v, false)) ∨
        eval w isa_reg_str2val vaddr_read tokens c.1 c.2 = none) →
      ((∃ v, eval w isa_reg_str2val vaddr_read tokens p q = some (v, false)) ∨
        eval w isa_reg_str2val vaddr_read tokens p q = none) :=
    fun c hc hne hfail =>
      eval_calls_failure w isa_reg_str2val vaddr_read e tokens hlex _ p q hp hq (le_refl _) c hc
        hne hfail
  refine ⟨?_, ?_, hall, ?_, ?_, ?_, ?_⟩
  · intro s v1 hs hps hleft
    exact eval_left_failure w isa_reg_str2val vaddr_read e tokens hlex p q s hp hq hs hps v1
      hleft
  · intro v v1 hpq hcp hs hleft hres
    by_contra hne
    have hr := get_position_range tokens p q
    rcases eval_left_failure w isa_reg_str2val vaddr_read e tokens hlex p q _ hp hq rfl
      (by omega) v1 hleft with h | ⟨_, h⟩
    · rw [h] at hres
      cases hres
    · rw [h] at hres
      cases hres
  · intro c hc hcc hleaf
    refine hall c hc (by omega) (Or.inl ⟨(eval_op w isa_reg_str2val tokens c.1 true).1, ?_⟩)
    rw [eval_unfold w isa_reg_str2val vaddr_read tokens c.1 c.2]
    rw [if_neg (by omega), if_pos hcc, ← hleaf]
  · intro c hc hcc hcp hs
    refine hall c hc (by omega) (Or.inl ⟨0, ?_⟩)
    rw [eval_unfold w isa_reg_str2val vaddr_read tokens c.1 c.2]
    rw [if_neg (by omega), if_neg (by omega), hcp]
    simp only [Bool.false_eq_true, if_false]
    rw [if_pos hs]
  · intro c hc hcc hcp hs v1 ok1 v2 r hleft hright hop
    refine hall c hc (by omega) (Or.inl ⟨r, ?_⟩)
    rw [eval_unfold w isa_reg_str2val vaddr_read tokens c.1 c.2]
    rw [if_neg (by omega), if_neg (by omega), hcp]
    simp only [Bool.false_eq_true, if_false]
    rw [if_neg (by omega), hleft, hright]
    simpa using hop
  · intro c hc hne hfail
    simp only [expr, hlex]
    exact eval_calls_failure w isa_reg_str2val vaddr_read e tokens hlex _ 0 _ (le_refl _)
      (by omega) (le_refl _) c hc hne hfail

/-- C9 (witness). The token sequence of `$r+1` with a lookup that knows no
register: the split is the `+` at index 1 and the left leaf fails.  The text
`7+5/0`: the call of `eval` on the span `2 .. 4` of the division is made in
the course of the evaluation, it fails, and `expr` fails.  The token sequence
of `1+$r`: the right leaf fails and the evaluation fails. -/
theorem eval_failure_not_masked_witness :
    (eval 64 (fun _ => (0, false)) (fun _ _ => 0)
        [⟨TK_REG, ['$', 'r']⟩, ⟨PLUS, []⟩, ⟨TK_NUM, ['1']⟩] 0 2 = some (0, false) ∨
      (eval 64 (fun _ => (0, false)) (fun _ _ => 0)
          [⟨TK_REG, ['$', 'r']⟩, ⟨PLUS, []⟩, ⟨TK_NUM, ['1']⟩] (1 + 1) 2 = none ∧
        eval 64 (fun _ => (0, false)) (fun _ _ => 0)
          [⟨TK_REG, ['$', 'r']⟩, ⟨PLUS, []⟩, ⟨TK_NUM, ['1']⟩] 0 2 = none)) ∧
    (make_token "7+5/0".toList = .ok [⟨TK_NUM, ['7']⟩, ⟨PLUS, []⟩, ⟨TK_NUM, ['5']⟩,
        ⟨SLASH, []⟩, ⟨TK_NUM, ['0']⟩] ∧
      ((2, 4) : Int × Int) ∈ eval_calls [⟨TK_NUM, ['7']⟩, ⟨PLUS, []⟩, ⟨TK_NUM, ['5']⟩,
        ⟨SLASH, []⟩, ⟨TK_NUM, ['0']⟩] 0 4 ∧
      eval 64 (fun _ => (0, false)) (fun _ _ => 0) [⟨TK_NUM, ['7']⟩, ⟨PLUS, []⟩,
        ⟨TK_NUM, ['5']⟩, ⟨SLASH, []⟩, ⟨TK_NUM, ['0']⟩] 2 4 = some (0, false) ∧
      ((∃ v, expr 64 (fun _ => (0, false)) (fun _ _ => 0) "7+5/0".toList = some (v, false)) ∨
        expr 64 (fun _ => (0, false)) (fun _ _ => 0) "7+5/0".toList = none)) ∧
    (((2, 2) : Int × Int) ∈ eval_calls [⟨TK_NUM, ['1']⟩, ⟨PLUS, []⟩, ⟨TK_REG, ['$', 'r']⟩] 0 2 ∧
      (eval_op 64 (fun _ => (0, false)) [⟨TK_NUM, ['1']⟩, ⟨PLUS, []⟩, ⟨TK_REG, ['$', 'r']⟩] 2
        true).2 = false ∧
      ((∃ v, eval 64 (fun _ => (0, false)) (fun _ _ => 0)
          [⟨TK_NUM, ['1']⟩, ⟨PLUS, []⟩, ⟨TK_REG, ['$', 'r']⟩] 0 2 = some (v, false)) ∨
        eval 64 (fun _ => (0, false)) (fun _ _ => 0)
          [⟨TK_NUM, ['1']⟩, ⟨PLUS, []⟩, ⟨TK_REG, ['$', 'r']⟩] 0 2 = none)) :=
  ⟨(eval_failure_not_masked 64 (fun _ => (0, false)) (fun _ _ => 0) "$r+1".toList
      [⟨TK_REG, ['$', 'r']⟩, ⟨PLUS, []⟩, ⟨TK_NUM, ['1']⟩] (by decide) 0 2 (by decide)
      (by decide)).1 1 0 (by decide) (by decide) (by decide),
    ⟨by decide, by decide, by decide,
      (eval_failure_not_masked 64 (fun _ => (0, false)) (fun _ _ => 0) "7+5/0".toList
        [⟨TK_NUM, ['7']⟩, ⟨PLUS, []⟩, ⟨TK_NUM, ['5']⟩, ⟨SLASH, []⟩, ⟨TK_NUM, ['0']⟩]
        (by decide) 0 4 (by decide) (by decide)).2.2.2.2.2.2 (2, 4) (by decide) (by decide)
        (Or.inl ⟨0, by decide⟩)⟩,
    by decide, by decide,
    (eval_failure_not_masked 64 (fun _ => (0, false)) (fun _ _ => 0) "1+$r".toList
      [⟨TK_NUM, ['1']⟩, ⟨PLUS, []⟩, ⟨TK_REG, ['$', 'r']⟩] (by decide) 0 2 (by decide)
      (by decide)).2.2.2.1 (2, 2) (by decide) rfl (by decide)⟩

/-- C10. An expression that is a single register reference whose name the
register lookup reports as unknown fails: for every text `$name`, with `name`
a non-empty word of at most 30 characters (the capacity of a token), `expr`
returns exactly what `isa_reg_str2val` returns for the stored text `$name`;
so when the lookup reports it as not found, `expr` returns with the success
flag cleared. -/
theorem expr_unknown_register_fails (w : Nat) (isa_reg_str2val : List Char → Nat × Bool)
    (vaddr_read : Nat → Nat → Nat) (name : List Char) (hne : name ≠ [])
    (hw : ∀ c ∈ name, isWordChar c = true) (hlen : name.length < 31)
    (hreg : (isa_reg_str2val ('$' :: name)).2 = false) :
    expr w isa_reg_str2val vaddr_read ('$' :: name) = some (isa_reg_str2val ('$' :: name)) ∧
      expr w isa_reg_str2val vaddr_read ('$' :: name) =
        some ((isa_reg_str2val ('$' :: name)).1, false) := by
  have hlex : make_token ('$' :: name) = .ok [⟨TK_REG, '$' :: name⟩] := by
    unfold make_token
    rw [make_token_loop_step _ _ 0 [] _ _ (by simp) (by simp) (match_rules_reg name hne hw)]
    have h2 : ¬ (32 ≤ name.length + 1) := by omega
    simp [record_token, h2, make_token_loop_nil]
  have hev : expr w isa_reg_str2val vaddr_read ('$' :: name) =
      some (isa_reg_str2val ('$' :: name)) := by
    simp only [expr, hlex]
    simp [eval, eval_fuel, eval_op, token_at]
  refine ⟨hev, ?_⟩
  rw [hev, ← hreg]

/-- C10 (witness). The text `$nosuchreg` with a lookup that knows no register. -/
theorem expr_unknown_register_fails_witness :
    expr 64 (fun _ => (0, false)) (fun _ _ => 0) "$nosuchreg".toList = some (0, false) :=
  (expr_unknown_register_fails 64 (fun _ => (0, false)) (fun _ _ => 0) "nosuchreg".toList
    (by decide) (by decide) (by decide) rfl).2

/-- C11 (counterexample). With the memory that holds at every address the
address itself, the text `*9223372036854775808` does not read the address
9223372036854775808: `strtol` clamps the literal to `LONG_MAX`, so the address
read is 9223372036854775807 on a 64-bit word and 4294967295 on a 32-bit
word. -/
theorem expr_dereference_counterexample :
    expr 64 (fun _ => (0, false)) (fun addr _ => addr) "*9223372036854775808".toList
        = some (9223372036854775807, true) ∧
      expr 32 (fun _ => (0, false)) (fun addr _ => addr) "*9223372036854775808".toList
        = some (4294967295, true) ∧
      (9223372036854775807 : Nat) ≠ (fun addr (_ : Nat) => addr) 9223372036854775808 8 ∧
      (4294967295 : Nat) ≠ (fun addr (_ : Nat) => addr) 9223372036854775808 8 := by
  decide

/-- C11 (amended). For every decimal literal `a` of at most 31 digits whose
value `v` fits in a word and does not exceed `LONG_MAX`, and every memory-read
function `m`, the text `*a` evaluates successfully to `m(v, 8)`; the result
depends on the memory through that one read only. -/
theorem expr_dereference (w : Nat) (isa_reg_str2val : List Char → Nat × Bool)
    (vaddr_read : Nat → Nat → Nat) (a : List Char) (ha0 : a ≠ [])
    (ha : ∀ c ∈ a, c.isDigit = true) (hla : a.length < 32)
    (hva : digits_value 10 a ≤ LONG_MAX) (hwa : digits_value 10 a < 2 ^ w) :
    expr w isa_reg_str2val vaddr_read ('*' :: a) =
        some (vaddr_read (digits_value 10 a) 8, true) ∧
      ∀ m : Nat → Nat → Nat, m (digits_value 10 a) 8 = vaddr_read (digits_value 10 a) 8 →
        expr w isa_reg_str2val m ('*' :: a) = expr w isa_reg_str2val vaddr_read ('*' :: a) := by
  have hlex := make_token_deref a ha0 ha hla
  have key : ∀ m : Nat → Nat → Nat,
      expr w isa_reg_str2val m ('*' :: a) = some (m (digits_value 10 a) 8, true) := by
    intro m
    have e1 := eval_op_num w isa_reg_str2val [⟨TK_DEREF, []⟩, ⟨TK_NUM, a⟩] 1 true a
      (by simp [token_at]) ha
    rw [min_long_max _ hva, Nat.mod_eq_of_lt hwa] at e1
    simp only [expr, hlex]
    simp [eval, eval_fuel, check_parentheses, get_position, get_position_loop, type_at,
      token_at, type_from, nop_types, op_types, precedence, e1, calc1]
  refine ⟨key vaddr_read, fun m hm => ?_⟩
  rw [key m, key vaddr_read, hm]

/-- C11 (witness). The text `*256` with a memory that holds 42 at address 256. -/
theorem expr_dereference_witness :
    expr 64 (fun _ => (0, false)) (fun addr _ => if addr = 256 then 42 else 0) "*256".toList
      = some (42, true) :=
  (expr_dereference 64 (fun _ => (0, false)) (fun addr _ => if addr = 256 then 42 else 0)
    "256".toList (by decide) (by decide) (by decide) (by decide) (by decide)).1

/-- C12 (failing input). A `0x`-prefixed literal is not one token: for every
string `h` of hexadecimal digits the rule `[0-9]+` matches the `0` alone and
the rest `x...` is recorded as an identifier, so `expr` returns with the
success flag cleared, although `eval_op` reads a numeric token that starts
with `0x` in base 16; with any memory, also one that holds 42 at address
`0x100`, the text `*0x100` fails likewise. -/
theorem expr_hex_literal_fails (w : Nat) (isa_reg_str2val : List Char → Nat × Bool)
    (vaddr_read : Nat → Nat → Nat) (h : List Char) (hh : ∀ c ∈ h, is_digit_of 16 c = true) :
    make_token ('0' :: 'x' :: h) = .ok [⟨TK_NUM, ['0']⟩, ⟨TK_VAR, []⟩] ∧
      expr w isa_reg_str2val vaddr_read ('0' :: 'x' :: h) = some (0, false) ∧
      expr w isa_reg_str2val vaddr_read "*0x100".toList = some (0, false) ∧
      eval_op w isa_reg_str2val [⟨TK_NUM, "0x100".toList⟩] 0 true = (256 % 2 ^ w, true) := by
  have hlex : make_token ('0' :: 'x' :: h) = .ok [⟨TK_NUM, ['0']⟩, ⟨TK_VAR, []⟩] := by
    unfold make_token
    have h1 := make_token_loop_num (('0' :: 'x' :: h).length + 1) ['0'] ('x' :: h) 0 []
      (by simp) (by simp) (by simp) (by simp) (by simp) (by simp)
    refine h1.trans ?_
    rw [make_token_loop_step _ _ _ _ _ _ (by simp) (by simp)
      (match_rules_x h (fun c hc => isWordChar_of_hex c (hh c hc)))]
    simp [record_token, make_token_loop_nil]
  refine ⟨hlex, ?_, rfl, ?_⟩
  · simp only [expr, hlex]
    rfl
  · have hm : min 256 LONG_MAX = 256 := Nat.min_eq_left (by decide)
    simp [eval_op, token_at, strtol, is_digit_of, digits_value, digit_value, hm]

/-- C12 (witness). The text `0x100`. -/
theorem expr_hex_literal_fails_witness :
    expr 64 (fun _ => (0, false)) (fun _ _ => 0) "0x100".toList = some (0, false) :=
  (expr_hex_literal_fails 64 (fun _ => (0, false)) (fun _ _ => 0) "100".toList
    (by decide)).2.1

/-- C13. Division truncates toward zero on the signed reading of both operands:
for all signed values `a` and `b` of the word range with `b ≠ 0`, the pair
`a = -2^(w-1)`, `b = -1` excepted, `calc2` with the operator `'/'` on their
two's-complement encodings keeps the success flag and returns the encoding of
the quotient `Int.tdiv a b` rounded toward zero, which lies in the word range;
the text `-7/2` evaluates to the encoding of `-3`. -/
theorem calc2_division_truncates (w : Nat) (hw : 0 < w) (a b : Int)
    (ha1 : -(2 : Int) ^ (w - 1) ≤ a) (ha2 : a < (2 : Int) ^ (w - 1))
    (hb1 : -(2 : Int) ^ (w - 1) ≤ b) (hb2 : b < (2 : Int) ^ (w - 1)) (hb0 : b ≠ 0)
    (hov : ¬ (a = -(2 : Int) ^ (w - 1) ∧ b = -1)) (success : Bool) :
    calc2 w SLASH (a % (2 : Int) ^ w).toNat (b % (2 : Int) ^ w).toNat success =
        some ((Int.tdiv a b % (2 : Int) ^ w).toNat, success) ∧
      (-(2 : Int) ^ (w - 1) ≤ Int.tdiv a b ∧ Int.tdiv a b < (2 : Int) ^ (w - 1)) ∧
      expr 64 (fun _ => (0, false)) (fun _ _ => 0) "-7/2".toList =
        some (((-3 : Int) % (2 : Int) ^ 64).toNat, true) ∧
      expr 32 (fun _ => (0, false)) (fun _ _ => 0) "-7/2".toList =
        some (((-3 : Int) % (2 : Int) ^ 32).toNat, true) := by
  refine ⟨?_, tdiv_in_range _ a b ha1 ha2 hb0 hov, by decide, by decide⟩
  show calc2 w SLASH (to_word w a) (to_word w b) success = some (to_word w (Int.tdiv a b), success)
  have hsa := to_sword_to_word w hw a ha1 ha2
  have hsb := to_sword_to_word w hw b hb1 hb2
  have hbz : to_word w b ≠ 0 := fun h => hb0 (to_word_eq_zero w hw b hb1 hb2 h)
  simp only [calc2, hbz, if_false, hsa, hsb, hov]

/-- C13 (witness). The operands `-7` and `2` on a 32-bit word. -/
theorem calc2_division_truncates_witness :
    calc2 32 SLASH ((-7 : Int) % (2 : Int) ^ 32).toNat ((2 : Int) % (2 : Int) ^ 32).toNat true =
      some ((Int.tdiv (-7) 2 % (2 : Int) ^ 32).toNat, true) :=
  (calc2_division_truncates 32 (by decide) (-7) 2 (by decide) (by decide) (by decide)
    (by decide) (by decide) (by decide) true).1

/-- C14 (counterexample). With a lookup that knows the register `pc` by its
name without the sigil, the text `$pc` fails although the lookup finds `pc`:
the lookup is handed the stored text `$pc`. -/
theorem eval_op_register_counterexample :
    expr 64 (fun s => if s = ['p', 'c'] then (5, true) else (0, false)) (fun _ _ => 0)
        "$pc".toList = some (0, false) ∧
      (fun s : List Char => if s = ['p', 'c'] then ((5 : Nat), true) else (0, false))
        ['p', 'c'] = (5, true) := by
  decide

/-- C14 (amended). A register reference is resolved by its stored text, sigil
included: for every text `$name`, with `name` a non-empty word of at most 30
characters, the lexer records one `TK_REG` token whose text is `$name`, and
for every register-lookup function `L` the leaf evaluation returns the value
and the found-flag of `L` on the text of the token, here `$name`. -/
theorem eval_op_register (w : Nat) (isa_reg_str2val : List Char → Nat × Bool)
    (name : List Char) (hne : name ≠ []) (hw : ∀ c ∈ name, isWordChar c = true)
    (hlen : name.length < 31) :
    make_token ('$' :: name) = .ok [⟨TK_REG, '$' :: name⟩] ∧
      (∀ (tokens : List Token) (i : Int) (str : List Char) (success : Bool),
        token_at tokens i = ⟨TK_REG, str⟩ →
        eval_op w isa_reg_str2val tokens i success = isa_reg_str2val str) ∧
      eval_op w isa_reg_str2val [⟨TK_REG, '$' :: name⟩] 0 true =
        isa_reg_str2val ('$' :: name) := by
  refine ⟨?_, ?_, ?_⟩
  · unfold make_token
    rw [make_token_loop_step _ _ 0 [] _ _ (by simp) (by simp) (match_rules_reg name hne hw)]
    have h2 : ¬ (32 ≤ name.length + 1) := by omega
    simp [record_token, h2, make_token_loop_nil]
  · intro tokens i str success ht
    simp [eval_op, ht]
  · simp [eval_op, token_at]

/-- C14 (witness). The text `$pc`. -/
theorem eval_op_register_witness :
    make_token "$pc".toList = .ok [⟨TK_REG, "$pc".toList⟩] :=
  (eval_op_register 64 (fun _ => (0, false)) "pc".toList (by decide) (by decide)
    (by decide)).1

/-- C15 (failing input). On the tokens of `4*(2+3)` and the span from token 2
to token 6, token 2 is an open parenthesis, token 6 a close parenthesis and a
depth counter started before token 2 returns to zero first at token 6, yet
`check_parentheses` answers `false`: its counter starts before token 0. On
spans that start at token 0 the function agrees with its specification. -/
theorem check_parentheses_span_fails :
    encloses [⟨TK_NUM, ['4']⟩, ⟨STAR, []⟩, ⟨LPAREN, []⟩, ⟨TK_NUM, ['2']⟩, ⟨PLUS, []⟩,
        ⟨TK_NUM, ['3']⟩, ⟨RPAREN, []⟩] 2 6 = true ∧
      check_parentheses [⟨TK_NUM, ['4']⟩, ⟨STAR, []⟩, ⟨LPAREN, []⟩, ⟨TK_NUM, ['2']⟩,
        ⟨PLUS, []⟩, ⟨TK_NUM, ['3']⟩, ⟨RPAREN, []⟩] 2 6 = false ∧
      (∀ (tokens : List Token) (q : Nat),
        check_parentheses tokens ((0 : Nat) : Int) (q : Int) = encloses tokens 0 q) := by
  refine ⟨by decide, by decide, ?_⟩
  intro tokens q
  rw [check_parentheses_eq]
  simp [encloses, depth]

/-- C16. On the token sequence of any text and any span `p .. q` of it whose
parentheses are balanced (counted from token `p`, the depth never drops below
zero and is zero after token `q`), with no identifier at depth zero and at
least one operator at depth zero, `get_position` returns the index `s` of an
operator at depth zero such that no operator at depth zero of the span binds
weaker than `s` (has a larger `strength`); when `s` is a binary operator, no
operator at depth zero to its right binds as weakly, and when `s` is a unary
operator, no operator at depth zero lies to its left. -/
theorem get_position_weakest (e : List Char) (tokens : List Token)
    (hlex : make_token e = .ok tokens) (p q : Nat) (hpq : p ≤ q) (hq : q < tokens.length)
    (hbal : ∀ j, p ≤ j → j ≤ q → depth tokens p ≤ depth tokens (j + 1))
    (hend : depth tokens (q + 1) = depth tokens p)
    (hvar : ∀ j, p ≤ j → j ≤ q → depth tokens j = depth tokens p →
      type_at tokens (j : Int) ≠ TK_VAR)
    (hop : ∃ j, p ≤ j ∧ j ≤ q ∧ split_candidate tokens p j) :
    ∃ s : Nat, get_position tokens (p : Int) (q : Int) = (s : Int) ∧ p ≤ s ∧ s ≤ q ∧
      split_candidate tokens p s ∧
      (∀ j, p ≤ j → j ≤ q → split_candidate tokens p j → strength tokens j ≤ strength tokens s) ∧
      (type_from (type_at tokens (s : Int)) op_types = false →
        ∀ j, s < j → j ≤ q → split_candidate tokens p j → strength tokens j < strength tokens s) ∧
      (type_from (type_at tokens (s : Int)) op_types = true →
        ∀ j, p ≤ j → j ≤ q → split_candidate tokens p j → s ≤ j) := by
  have hn : ((q : Int) + 1 - (p : Int)).toNat = q + 1 - p := by omega
  have hpn : p + (q + 1 - p) = q + 1 := by omega
  obtain ⟨op, hinv⟩ := get_position_loop_split tokens p (q + 1 - p) p (-1) 0 0 (le_refl _)
    (by omega) (le_refl _) (fun j hj1 hj2 => hbal j hj1 (by omega)) (by rw [hpn]; exact hend)
    (fun j hj1 hj2 hd => ⟨hvar j hj1 (by omega) hd,
      make_token_no_notype e tokens hlex j (by omega)⟩)
    (Or.inl ⟨rfl, rfl, fun j hj1 hj2 => by omega⟩)
  rw [hpn] at hinv
  unfold get_position
  rw [hn]
  obtain ⟨j0, hj1, hj2, hj3⟩ := hop
  rcases hinv with ⟨_, _, h3⟩ | ⟨s, h1, h2, h3, h4, h5, h6, h7, h8⟩
  · exact absurd hj3 (h3 j0 hj1 (by omega))
  · have hs := strength_eq tokens s op h5
    refine ⟨s, h1, h2, by omega, h4, ?_, ?_, ?_⟩
    · intro j hja hjb hc
      rw [hs]
      exact h6 j hja (by omega) hc
    · intro hnu j hja hjb hc
      rw [hs]
      exact h7 hnu j hja (by omega) hc
    · intro hu j hja hjb hc
      exact h8 hu j hja (by omega) hc

/-- C16 (witness). The tokens of `1-2-3`: the split is the second minus. -/
theorem get_position_weakest_witness :
    ∃ s : Nat, get_position [⟨TK_NUM, ['1']⟩, ⟨MINUS, []⟩, ⟨TK_NUM, ['2']⟩, ⟨MINUS, []⟩,
        ⟨TK_NUM, ['3']⟩] ((0 : Nat) : Int) ((4 : Nat) : Int) = (s : Int) ∧ 0 ≤ s ∧ s ≤ 4 ∧
      split_candidate [⟨TK_NUM, ['1']⟩, ⟨MINUS, []⟩, ⟨TK_NUM, ['2']⟩, ⟨MINUS, []⟩,
        ⟨TK_NUM, ['3']⟩] 0 s :=
  have h := get_position_weakest "1-2-3".toList
    [⟨TK_NUM, ['1']⟩, ⟨MINUS, []⟩, ⟨TK_NUM, ['2']⟩, ⟨MINUS, []⟩, ⟨TK_NUM, ['3']⟩]
    (by decide) 0 4 (by decide) (by decide)
    (by decide) (by decide) (by decide)
    ⟨1, by decide, by decide, by decide, by decide⟩
  h.imp (fun _ hs => ⟨hs.1, hs.2.1, hs.2.2.1, hs.2.2.2.1⟩)

/-- C17. The reclassification of `+`, `-`, `*`: when a token of one of these
three kinds is recorded, it gets the unary kind exactly when there is no
previous token or the previous token is not a close parenthesis, numeric
literal or register, and keeps its binary kind otherwise; so in every token
sequence that `make_token` produces, a token of a unary kind is the first one
or follows a token of another kind than those three, and a token of a binary
kind `*`, `-`, `+` is not the first one and follows a token of one of those
three kinds. -/
theorem make_token_reclassification (e : List Char) (tokens : List Token)
    (hlex : make_token e = .ok tokens) (k : Nat) (hk : k < tokens.length) :
    (∀ (toks : List Token) (ty : TokenType) (substr : List Char), toks.length < 320 →
        ty = STAR ∨ ty = MINUS ∨ ty = PLUS →
        record_token toks ty substr = some (toks ++
          [⟨if (last_type toks).all (fun prev => !type_from prev bound_types) then unary_of ty
            else ty, []⟩])) ∧
      (type_from (type_at tokens (k : Int)) op_types = true →
        k = 0 ∨ type_from (type_at tokens ((k : Int) - 1)) bound_types = false) ∧
      (type_from (type_at tokens (k : Int)) [STAR, MINUS, PLUS] = true →
        k ≠ 0 ∧ type_from (type_at tokens ((k : Int) - 1)) bound_types = true) := by
  refine ⟨?_, ?_, make_token_binary_after_bound e tokens hlex k hk⟩
  · intro toks ty substr hcap hty
    have h0 : ¬ (320 ≤ toks.length) := by omega
    cases hl : last_type toks with
    | none => rcases hty with rfl | rfl | rfl <;> simp [record_token, h0, hl]
    | some prev =>
      cases hb : type_from prev bound_types <;>
        rcases hty with rfl | rfl | rfl <;> simp [record_token, h0, hl, hb]
  · intro hu
    by_cases h0 : k = 0
    · left; exact h0
    · right
      obtain ⟨j, hj⟩ : ∃ j, j + 1 = k := ⟨k - 1, by omega⟩
      have e1 : (k : Int) - 1 = (j : Int) := by omega
      rw [e1]
      cases hb : type_from (type_at tokens (j : Int)) bound_types with
      | false => rfl
      | true =>
        have := make_token_invariant e tokens hlex j (by omega) hb
        have e2 : (j : Int) + 1 = (k : Int) := by omega
        rw [e2, hu] at this
        cases this

/-- C17 (witness). The tokens of `-3-(-4)`: the second minus, token 2, is
binary and follows a numeric literal. -/
theorem make_token_reclassification_witness :
    2 ≠ 0 ∧ type_from (type_at [⟨TK_NEG, []⟩, ⟨TK_NUM, ['3']⟩, ⟨MINUS, []⟩, ⟨LPAREN, []⟩,
      ⟨TK_NEG, []⟩, ⟨TK_NUM, ['4']⟩, ⟨RPAREN, []⟩] (((2 : Nat) : Int) - 1)) bound_types = true :=
  (make_token_reclassification "-3-(-4)".toList
    [⟨TK_NEG, []⟩, ⟨TK_NUM, ['3']⟩, ⟨MINUS, []⟩, ⟨LPAREN, []⟩, ⟨TK_NEG, []⟩, ⟨TK_NUM, ['4']⟩,
      ⟨RPAREN, []⟩] (by decide) 2 (by decide)).2.2 (by decide)

/-- C18 (counterexample). On a 64-bit word the literal 9223372036854775808
fits in a word, and the text that consists of this literal alone (a chain
without operators) evaluates to 9223372036854775807: `strtol` clamps it to
`LONG_MAX`. -/
theorem expr_chain_counterexample :
    9223372036854775808 < 2 ^ 64 ∧
      spec_chain 64 none 9223372036854775808 [] = some 9223372036854775808 ∧
      expr 64 (fun _ => (0, false)) (fun _ _ => 0) "9223372036854775808".toList
        = some (9223372036854775807, true) ∧
      expr 64 (fun _ => (0, false)) (fun _ _ => 0) "9223372036854775808-1".toList
        = some (9223372036854775806, true) := by
  decide

/-- C18 (amended). For every text `n0 op1 n1 ... opk nk` without parentheses,
of at most 320 tokens, whose literals have at most 31 digits and values that
fit in a word and do not exceed `LONG_MAX`, and whose operators are among
`+ - * /`: when the reference value exists (no division by zero and no signed
division overflow occurs), `expr` succeeds and returns it.  The reference
value groups each run of `*` and `/` from left to right and combines the terms
with `+` and `-` from left to right, modulo `2^w`; so `a-b-c` is `(a-b)-c` and
`a/b/c` is `(a/b)/c`. -/
theorem expr_chain (w : Nat) (isa_reg_str2val : List Char → Nat × Bool)
    (vaddr_read : Nat → Nat → Nat) (n0 : List Char) (rest : List (Char × List Char))
    (v : Nat) (hn0 : valid_literal w n0)
    (hops : ∀ x ∈ rest, x.1 = '+' ∨ x.1 = '-' ∨ x.1 = '*' ∨ x.1 = '/')
    (hlit : ∀ x ∈ rest, valid_literal w x.2) (hcap : 2 * rest.length + 1 ≤ 320)
    (hv : spec_chain w none (digits_value 10 n0) (chain_values rest) = some v) :
    expr w isa_reg_str2val vaddr_read (chain_text n0 rest) = some (v, true) ∧
      (∀ a b c : Nat, spec_chain w none a [('-', b), ('-', c)] =
        some (to_word w ((to_word w ((a : Int) - (b : Int)) : Int) - (c : Int)))) ∧
      (∀ a b c : Nat, spec_chain w none a [('/', b), ('/', c)] =
        (spec_binop w '/' a b).bind (fun q => spec_binop w '/' q c)) := by
  refine ⟨?_, ?_, ?_⟩
  · have hlex := make_token_chain n0 rest hn0.1 hn0.2.1 hn0.2.2.1 hops
      (fun x hx => ⟨(hlit x hx).1, (hlit x hx).2.1, (hlit x hx).2.2.1⟩) hcap
    have hev := eval_chain w isa_reg_str2val vaddr_read rest.length n0 rest [] []
      (chain_tokens n0 rest) v (le_refl _) (by simp) hn0 hops hlit hv
    have hlen := chain_tokens_length n0 rest
    simp only [expr, hlex]
    have e : ((chain_tokens n0 rest).length : Int) - 1 =
        ((([] : List Token).length + 2 * rest.length : Nat) : Int) := by
      rw [hlen]
      simp
    rw [e]
    exact hev
  · intro a b c
    simp [spec_chain, spec_combine, spec_binop]
  · intro a b c
    simp only [spec_chain, spec_combine, or_true, if_true]
    cases spec_binop w '/' a b with
    | none => rfl
    | some q =>
      simp only [Option.some_bind]
      cases spec_binop w '/' q c <;> rfl

/-- C18 (witness). The texts `1-2-3` and `8/2/2` on a 64-bit word. -/
theorem expr_chain_witness :
    expr 64 (fun _ => (0, false)) (fun _ _ => 0) "1-2-3".toList
        = some (18446744073709551612, true) ∧
      expr 64 (fun _ => (0, false)) (fun _ _ => 0) "8/2/2".toList = some (2, true) :=
  ⟨(expr_chain 64 (fun _ => (0, false)) (fun _ _ => 0) ['1'] [('-', ['2']), ('-', ['3'])]
      18446744073709551612 ⟨by decide, by decide, by decide, by decide, by decide⟩
      (by decide)
      (by
        intro x hx
        simp only [List.mem_cons, List.mem_singleton, List.not_mem_nil, or_false] at hx
        rcases hx with rfl | rfl <;> exact ⟨by decide, by decide, by decide, by decide, by decide⟩)
      (by decide) (by decide)).1,
    (expr_chain 64 (fun _ => (0, false)) (fun _ _ => 0) ['8'] [('/', ['2']), ('/', ['2'])]
      2 ⟨by decide, by decide, by decide, by decide, by decide⟩
      (by decide)
      (by
        intro x hx
        simp only [List.mem_cons, List.mem_singleton, List.not_mem_nil, or_false] at hx
        rcases hx with rfl | rfl <;> exact ⟨by decide, by decide, by decide, by decide, by decide⟩)
      (by decide) (by decide)).1⟩

/-- C19. The relational kinds of `calc2` swap less-than and less-or-equal: for
all operands `x` and `y`, `calc2` keeps the success flag and returns 0 or 1,
with `TK_LT` computing `x <= y`, `TK_LE` computing `x < y`, `TK_GT` computing
`x > y` and `TK_GE` computing `x >= y` on the unsigned operands; so for every
decimal literal `a` (of at most 31 digits, the capacity of a token) the text
`a<a` evaluates to 1. -/
theorem calc2_relational_swapped (w : Nat) (isa_reg_str2val : List Char → Nat × Bool)
    (vaddr_read : Nat → Nat → Nat) (a : List Char) (ha0 : a ≠ [])
    (ha : ∀ c ∈ a, c.isDigit = true) (hla : a.length < 32) :
    (∀ x y success, calc2 w TK_LT x y success = some (if x ≤ y then 1 else 0, success)) ∧
      (∀ x y success, calc2 w TK_LE x y success = some (if x < y then 1 else 0, success)) ∧
      (∀ x y success, calc2 w TK_GT x y success = some (if x > y then 1 else 0, success)) ∧
      (∀ x y success, calc2 w TK_GE x y success = some (if x ≥ y then 1 else 0, success)) ∧
      expr w isa_reg_str2val vaddr_read (a ++ '<' :: a) = some (1, true) := by
  refine ⟨fun _ _ _ => rfl, fun _ _ _ => rfl, fun _ _ _ => rfl, fun _ _ _ => rfl, ?_⟩
  have hlex := make_token_binary1 a a '<' TK_LT ha0 ha hla ha0 ha hla (by decide)
    (by decide) match_rules_lt (by decide) (by decide) (by decide) (by decide) (by decide)
    (by decide)
  have hev := eval_binary w isa_reg_str2val vaddr_read a a TK_LT 4 ha ha rfl (by decide)
    (by decide) (by decide)
  simp only [expr, hlex]
  exact hev.trans (by simp [calc2])

/-- C19 (witness). The text `3<3`. -/
theorem calc2_relational_swapped_witness :
    expr 64 (fun _ => (0, false)) (fun _ _ => 0) "3<3".toList = some (1, true) :=
  (calc2_relational_swapped 64 (fun _ => (0, false)) (fun _ _ => 0) ['3'] (by decide)
    (by decide) (by decide)).2.2.2.2

/-- C20. The two-character relational operators are unreachable: no token
sequence that `make_token` produces holds a `TK_LE` or `TK_GE` token, and for
all decimal literals `a` (of at most 31 digits, the capacity of a token) and
`b` the scan of `a<=b` and of `a>=b` stops with no match at the position of
the `=`, so that `expr` returns with the success flag cleared. -/
theorem make_token_never_le_ge (w : Nat) (isa_reg_str2val : List Char → Nat × Bool)
    (vaddr_read : Nat → Nat → Nat) (a b : List Char) (ha0 : a ≠ [])
    (ha : ∀ c ∈ a, c.isDigit = true) (hla : a.length < 32) (hb0 : b ≠ [])
    (hb : ∀ c ∈ b, c.isDigit = true) :
    (∀ e len ty, match_rules rules e = some (len, ty) → ty ≠ TK_LE ∧ ty ≠ TK_GE) ∧
      (∀ e tokens, make_token e = .ok tokens →
        ∀ t ∈ tokens, t.type ≠ TK_LE ∧ t.type ≠ TK_GE) ∧
      make_token (a ++ '<' :: '=' :: b) = .no_match (a.length + 1) ∧
      expr w isa_reg_str2val vaddr_read (a ++ '<' :: '=' :: b) = some (0, false) ∧
      make_token (a ++ '>' :: '=' :: b) = .no_match (a.length + 1) ∧
      expr w isa_reg_str2val vaddr_read (a ++ '>' :: '=' :: b) = some (0, false) := by
  have h1 := make_token_shadowed a b '<' TK_LT ha0 ha hla hb0 hb (by decide) (by decide)
    match_rules_lt (by decide) (by decide) (by decide) (by decide) (by decide) (by decide)
  have h2 := make_token_shadowed a b '>' TK_GT ha0 ha hla hb0 hb (by decide) (by decide)
    match_rules_gt (by decide) (by decide) (by decide) (by decide) (by decide) (by decide)
  refine ⟨match_rules_not_le_ge, ?_, h1, by simp only [expr, h1], h2, by simp only [expr, h2]⟩
  intro e tokens hlex
  refine make_token_loop_kinds (fun ty => ty ≠ TK_LE ∧ ty ≠ TK_GE) ?_ _ e 0 [] tokens
    (fun t ht => by simp at ht) hlex
  intro e1 len ty hm _
  have := match_rules_not_le_ge e1 len ty hm
  refine ⟨this, ?_⟩
  revert this
  cases ty <;> simp [unary_of]

/-- C20 (witness). The texts `1<=2` and `1>=2`. -/
theorem make_token_never_le_ge_witness :
    make_token "1<=2".toList = .no_match 2 ∧ make_token "1>=2".toList = .no_match 2 :=
  ⟨(make_token_never_le_ge 64 (fun _ => (0, false)) (fun _ _ => 0) ['1'] ['2'] (by decide)
      (by decide) (by decide) (by decide) (by decide)).2.2.1,
    (make_token_never_le_ge 64 (fun _ => (0, false)) (fun _ _ => 0) ['1'] ['2'] (by decide)
      (by decide) (by decide) (by decide) (by decide)).2.2.2.2.1⟩

end Sdb
